import Mathlib

/-!
# The synchronisation core of Darknet

A model of `src/thread_sync.c` and `include/thread_sync.h`.

* Lifecycle functions (`init_sync_mutexes`, `create_network_sync_context`, ...) are
  state-passing functions over an `OS` record that counts the live primitives, keeps the
  log of library calls in program order, and carries the outcomes the environment will
  give to `calloc`, `pthread_mutex_init` and `pthread_cond_init`.
* The two run-under-lock functions (`sync_network_update`, `sync_weight_accumulate`)
  yield the statements their body executes; `exec` gives one atomic step of a thread,
  `run` a whole sequential execution, `thread_step` one step of a system of threads.
-/

namespace Darknet

/-! ## Data model (`include/thread_sync.h`) -/

/-- Thread identifier. -/
abbrev Tid := Nat

/-- Life cycle of one `pthread_mutex_t`: storage that no successful `pthread_mutex_init`
has touched, an initialised mutex that is free, one held by a thread, a destroyed one. -/
inductive MutexState where
  | uninit
  | unlocked
  | locked (owner : Tid)
  | destroyed
  deriving DecidableEq, Repr

/-- Life cycle of one `pthread_cond_t`. -/
inductive CondState where
  | uninit
  | ready
  | destroyed
  deriving DecidableEq, Repr

/-- The struct `sync_mutexes`: five named coarse-grained mutexes. -/
structure sync_mutexes where
  network_mutex : MutexState
  weight_mutex : MutexState
  data_mutex : MutexState
  gpu_mutex : MutexState
  stats_mutex : MutexState
  deriving DecidableEq, Repr

/-- The struct `network_sync_context`. `layer_mutexes` is a pointer: `none` is NULL,
`some arr` the array it points to. -/
structure network_sync_context where
  layer_mutexes : Option (List MutexState)
  num_layers : Int
  active_threads : Int
  seen_samples : Int
  deriving DecidableEq, Repr

/-- The struct `demo_sync_context`. -/
structure demo_sync_context where
  buffer_mutex : MutexState
  prediction_mutex : MutexState
  display_mutex : MutexState
  buffer_ready : CondState
  detection_done : CondState
  buffer_index : Int
  demo_running : Bool
  deriving DecidableEq, Repr

/-- Names of the mutex objects of the three structs. -/
inductive LockId where
  | layer (i : Nat)
  | network
  | weight
  | data
  | gpu
  | stats
  | buffer
  | prediction
  | display
  deriving DecidableEq, Repr

/-- Names of the condition variables of `demo_sync_context`. -/
inductive CondId where
  | buffer_ready
  | detection_done
  deriving DecidableEq, Repr

/-- Heap blocks the lifecycle functions allocate. -/
inductive Block where
  | net_ctx
  | layer_array
  | demo_ctx
  deriving DecidableEq, Repr

/-- Library calls made by the lifecycle functions. The flag of an allocation or an
initialisation is its outcome (`true`: success). -/
inductive Event where
  | calloc (b : Block) (ok : Bool)
  | free (b : Block)
  | mutex_init (m : LockId) (ok : Bool)
  | mutex_destroy (m : LockId)
  | cond_init (c : CondId) (ok : Bool)
  | cond_destroy (c : CondId)
  deriving DecidableEq, Repr

/-- Resources of the process as the lifecycle functions see them: the number of live heap
blocks, live mutexes and live condition variables, the log of library calls, and the
outcomes of the coming `calloc`, `pthread_mutex_init` and `pthread_cond_init` calls
(`true`: success; a call made after the list is used up succeeds). -/
structure OS where
  blocks : Nat
  mutexes : Nat
  conds : Nat
  log : List Event
  calloc_results : List Bool
  mutex_init_results : List Bool
  cond_init_results : List Bool
  deriving DecidableEq, Repr

/-! ## Library primitives -/

/-- Outcome of the next call and the outcomes left for the calls after it. -/
def next_result : List Bool → Bool × List Bool
  | [] => (true, [])
  | ok :: rest => (ok, rest)

/-- The call `calloc(nmemb, size)` for block `b`. A negative `int` count converts to a
`size_t` of at least `2^64 - 2^31` elements, a request no allocator serves, so such a call
fails whatever the environment says. -/
def calloc (b : Block) (nmemb : Int) (os : OS) : Bool × OS :=
  let r := next_result os.calloc_results
  let ok := r.1 && decide (0 ≤ nmemb)
  (ok, { os with
    blocks := if ok then os.blocks + 1 else os.blocks
    log := os.log ++ [Event.calloc b ok]
    calloc_results := r.2 })

/-- The call `free(p)` on a live block. -/
def free (b : Block) (os : OS) : OS :=
  { os with blocks := os.blocks - 1, log := os.log ++ [Event.free b] }

/-- The call `pthread_mutex_init(m, NULL)`; its return value is dropped by every caller in
`thread_sync.c`. On failure the object is left as it was. -/
def pthread_mutex_init (id : LockId) (m : MutexState) (os : OS) : MutexState × OS :=
  let r := next_result os.mutex_init_results
  (if r.1 then MutexState.unlocked else m,
   { os with
    mutexes := if r.1 then os.mutexes + 1 else os.mutexes
    log := os.log ++ [Event.mutex_init id r.1]
    mutex_init_results := r.2 })

/-- The call `pthread_mutex_destroy(m)`: a free initialised mutex becomes destroyed; on
any other object the call fails (EBUSY, EINVAL) and changes nothing. -/
def pthread_mutex_destroy (id : LockId) (m : MutexState) (os : OS) : MutexState × OS :=
  (if m = MutexState.unlocked then MutexState.destroyed else m,
   { os with
    mutexes := if m = MutexState.unlocked then os.mutexes - 1 else os.mutexes
    log := os.log ++ [Event.mutex_destroy id] })

/-- The call `pthread_cond_init(c, NULL)`; its return value is dropped by the caller. -/
def pthread_cond_init (id : CondId) (c : CondState) (os : OS) : CondState × OS :=
  let r := next_result os.cond_init_results
  (if r.1 then CondState.ready else c,
   { os with
    conds := if r.1 then os.conds + 1 else os.conds
    log := os.log ++ [Event.cond_init id r.1]
    cond_init_results := r.2 })

/-- The call `pthread_cond_destroy(c)`. -/
def pthread_cond_destroy (id : CondId) (c : CondState) (os : OS) : CondState × OS :=
  (if c = CondState.ready then CondState.destroyed else c,
   { os with
    conds := if c = CondState.ready then os.conds - 1 else os.conds
    log := os.log ++ [Event.cond_destroy id] })

/-! ## Lifecycle functions (`thread_sync.c`, lines 6-86) -/

/-- `init_sync_mutexes`: the pointer argument is `none` for NULL. Returns the struct the
pointer refers to after the call. -/
def init_sync_mutexes (sync : Option sync_mutexes) (os : OS) : Option sync_mutexes × OS :=
  match sync with
  | none => (none, os)
  | some s =>
    let r1 := pthread_mutex_init LockId.network s.network_mutex os
    let r2 := pthread_mutex_init LockId.weight s.weight_mutex r1.2
    let r3 := pthread_mutex_init LockId.data s.data_mutex r2.2
    let r4 := pthread_mutex_init LockId.gpu s.gpu_mutex r3.2
    let r5 := pthread_mutex_init LockId.stats s.stats_mutex r4.2
    (some { network_mutex := r1.1, weight_mutex := r2.1, data_mutex := r3.1,
            gpu_mutex := r4.1, stats_mutex := r5.1 }, r5.2)

/-- `destroy_sync_mutexes`. -/
def destroy_sync_mutexes (sync : Option sync_mutexes) (os : OS) : Option sync_mutexes × OS :=
  match sync with
  | none => (none, os)
  | some s =>
    let r1 := pthread_mutex_destroy LockId.network s.network_mutex os
    let r2 := pthread_mutex_destroy LockId.weight s.weight_mutex r1.2
    let r3 := pthread_mutex_destroy LockId.data s.data_mutex r2.2
    let r4 := pthread_mutex_destroy LockId.gpu s.gpu_mutex r3.2
    let r5 := pthread_mutex_destroy LockId.stats s.stats_mutex r4.2
    (some { network_mutex := r1.1, weight_mutex := r2.1, data_mutex := r3.1,
            gpu_mutex := r4.1, stats_mutex := r5.1 }, r5.2)

/-- The loop `for (int i = 0; i < num_layers; i++) pthread_mutex_init(&ctx->layer_mutexes[i], NULL);`
at loop variable `i` with `n` rounds to go. -/
def init_layer_mutexes : Nat → Nat → List MutexState → OS → List MutexState × OS
  | _, 0, arr, os => (arr, os)
  | i, n + 1, arr, os =>
    let r := pthread_mutex_init (LockId.layer i) (arr.getD i MutexState.uninit) os
    init_layer_mutexes (i + 1) n (arr.set i r.1) r.2

/-- `create_network_sync_context`: `none` is the NULL return. -/
def create_network_sync_context (num_layers : Int) (os : OS) :
    Option network_sync_context × OS :=
  let a := calloc Block.net_ctx 1 os
  if !a.1 then (none, a.2) else
  let b := calloc Block.layer_array num_layers a.2
  if !b.1 then (none, free Block.net_ctx b.2) else
  let l := init_layer_mutexes 0 num_layers.toNat
    (List.replicate num_layers.toNat MutexState.uninit) b.2
  (some { layer_mutexes := some l.1, num_layers := num_layers,
          active_threads := 0, seen_samples := 0 }, l.2)

/-- The loop `for (int i = 0; i < ctx->num_layers; i++) pthread_mutex_destroy(&ctx->layer_mutexes[i]);`
at loop variable `i` with `n` rounds to go. -/
def destroy_layer_mutexes : Nat → Nat → List MutexState → OS → List MutexState × OS
  | _, 0, arr, os => (arr, os)
  | i, n + 1, arr, os =>
    let r := pthread_mutex_destroy (LockId.layer i) (arr.getD i MutexState.uninit) os
    destroy_layer_mutexes (i + 1) n (arr.set i r.1) r.2

/-- `destroy_network_sync_context`. -/
def destroy_network_sync_context (ctx : Option network_sync_context) (os : OS) : OS :=
  match ctx with
  | none => os
  | some c =>
    let os1 :=
      match c.layer_mutexes with
      | some arr => free Block.layer_array (destroy_layer_mutexes 0 c.num_layers.toNat arr os).2
      | none => os
    free Block.net_ctx os1

/-- `create_demo_sync_context`: `none` is the NULL return. -/
def create_demo_sync_context (os : OS) : Option demo_sync_context × OS :=
  let a := calloc Block.demo_ctx 1 os
  if !a.1 then (none, a.2) else
  let r1 := pthread_mutex_init LockId.buffer MutexState.uninit a.2
  let r2 := pthread_mutex_init LockId.prediction MutexState.uninit r1.2
  let r3 := pthread_mutex_init LockId.display MutexState.uninit r2.2
  let r4 := pthread_cond_init CondId.buffer_ready CondState.uninit r3.2
  let r5 := pthread_cond_init CondId.detection_done CondState.uninit r4.2
  (some { buffer_mutex := r1.1, prediction_mutex := r2.1, display_mutex := r3.1,
          buffer_ready := r4.1, detection_done := r5.1,
          buffer_index := 0, demo_running := true }, r5.2)

/-- `destroy_demo_sync_context`. -/
def destroy_demo_sync_context (ctx : Option demo_sync_context) (os : OS) : OS :=
  match ctx with
  | none => os
  | some c =>
    let r1 := pthread_mutex_destroy LockId.buffer c.buffer_mutex os
    let r2 := pthread_mutex_destroy LockId.prediction c.prediction_mutex r1.2
    let r3 := pthread_mutex_destroy LockId.display c.display_mutex r2.2
    let r4 := pthread_cond_destroy CondId.buffer_ready c.buffer_ready r3.2
    let r5 := pthread_cond_destroy CondId.detection_done c.detection_done r4.2
    free Block.demo_ctx r5.2

/-! ## Threads, statements and the run-under-lock functions (`thread_sync.c`, lines 88-106) -/

/-- State shared by the threads of the process: the three synchronisation structs and
the plain `int` cells the work items operate on (`mem a` is the cell at address `a`). -/
structure Shared where
  net : network_sync_context
  sync : sync_mutexes
  demo : demo_sync_context
  mem : Nat → Int

/-- The mutex object a name refers to; `none` when there is no such object (NULL array,
index past the end of the array). -/
def Shared.mutex (s : Shared) : LockId → Option MutexState
  | LockId.layer i =>
    match s.net.layer_mutexes with
    | some arr => arr[i]?
    | none => none
  | LockId.network => some s.sync.network_mutex
  | LockId.weight => some s.sync.weight_mutex
  | LockId.data => some s.sync.data_mutex
  | LockId.gpu => some s.sync.gpu_mutex
  | LockId.stats => some s.sync.stats_mutex
  | LockId.buffer => some s.demo.buffer_mutex
  | LockId.prediction => some s.demo.prediction_mutex
  | LockId.display => some s.demo.display_mutex

/-- Store a new state into the mutex object a name refers to. -/
def Shared.setMutex (s : Shared) (id : LockId) (m : MutexState) : Shared :=
  match id with
  | LockId.layer i =>
    { s with net := { s.net with layer_mutexes := s.net.layer_mutexes.map fun arr => arr.set i m } }
  | LockId.network => { s with sync := { s.sync with network_mutex := m } }
  | LockId.weight => { s with sync := { s.sync with weight_mutex := m } }
  | LockId.data => { s with sync := { s.sync with data_mutex := m } }
  | LockId.gpu => { s with sync := { s.sync with gpu_mutex := m } }
  | LockId.stats => { s with sync := { s.sync with stats_mutex := m } }
  | LockId.buffer => { s with demo := { s.demo with buffer_mutex := m } }
  | LockId.prediction => { s with demo := { s.demo with prediction_mutex := m } }
  | LockId.display => { s with demo := { s.demo with display_mutex := m } }

/-- The call `pthread_mutex_lock(m)` made by thread `t`, as one atomic step: it is
enabled when the mutex is initialised and free, and then makes `t` the owner. `none`: the
step cannot be taken (the caller blocks on a held mutex; locking an object that is not an
initialised mutex has no defined behaviour). -/
def pthread_mutex_lock (t : Tid) (m : LockId) (s : Shared) : Option Shared :=
  match s.mutex m with
  | some MutexState.unlocked => some (s.setMutex m (MutexState.locked t))
  | _ => none

/-- The call `pthread_mutex_unlock(m)` made by thread `t`: defined when `t` owns `m`. -/
def pthread_mutex_unlock (t : Tid) (m : LockId) (s : Shared) : Option Shared :=
  match s.mutex m with
  | some (MutexState.locked o) => if o = t then some (s.setMutex m MutexState.unlocked) else none
  | _ => none

/-- One atomic step of a work item: it reads and writes the local variable of the
executing thread and the shared state. -/
abbrev Micro := Int → Shared → Int × Shared

/-- A work item `void (*)(void*)`: from its argument to the atomic steps of its body. -/
abbrev Work := Nat → List Micro

/-- Statements executed by the bodies of the run-under-lock functions. -/
inductive Stmt where
  | mutex_lock (m : LockId)
  | mutex_unlock (m : LockId)
  | call (f : Work) (data : Nat)
  | micro (a : Micro)

/-- `sync_network_update(ctx, layer_idx, update_func, data)`: the statements the call
executes. `ctx` is `none` for a NULL pointer and otherwise the struct pointed to;
`update_func` is `none` for a NULL function pointer. -/
def sync_network_update (ctx : Option network_sync_context) (layer_idx : Int)
    (update_func : Option Work) (data : Nat) : List Stmt :=
  match ctx, update_func with
  | some c, some f =>
    if layer_idx < 0 ∨ layer_idx ≥ c.num_layers then []
    else [Stmt.mutex_lock (LockId.layer layer_idx.toNat), Stmt.call f data,
          Stmt.mutex_unlock (LockId.layer layer_idx.toNat)]
  | _, _ => []

/-- `sync_weight_accumulate(sync, accumulate_func, data)`: the statements the call
executes. `sync` is `none` for a NULL pointer. -/
def sync_weight_accumulate (sync : Option sync_mutexes) (accumulate_func : Option Work)
    (data : Nat) : List Stmt :=
  match sync, accumulate_func with
  | some _, some f =>
    [Stmt.mutex_lock LockId.weight, Stmt.call f data, Stmt.mutex_unlock LockId.weight]
  | _, _ => []

/-- One atomic step of thread `t`: statement `st` executed with local variable `reg`,
the statements `rest` to follow and shared state `s`. Calling a work item enters its body. -/
def exec (t : Tid) (st : Stmt) (reg : Int) (rest : List Stmt) (s : Shared) :
    Option (Int × List Stmt × Shared) :=
  match st with
  | Stmt.mutex_lock m => (pthread_mutex_lock t m s).map fun s1 => (reg, rest, s1)
  | Stmt.mutex_unlock m => (pthread_mutex_unlock t m s).map fun s1 => (reg, rest, s1)
  | Stmt.call f data => some (reg, (f data).map Stmt.micro ++ rest, s)
  | Stmt.micro a => some ((a reg s).1, rest, (a reg s).2)

/-- The body of a work item run from start to end with no other thread in between. -/
def run_work : List Micro → Int → Shared → Int × Shared
  | [], reg, s => (reg, s)
  | a :: rest, reg, s => run_work rest (a reg s).1 (a reg s).2

/-- Sequential execution of statements by thread `t` with no other thread in between;
`none` when some statement cannot be taken. -/
def run (t : Tid) : List Stmt → Int → Shared → Option (Int × Shared)
  | [], reg, s => some (reg, s)
  | Stmt.mutex_lock m :: rest, reg, s => (pthread_mutex_lock t m s).bind fun s1 => run t rest reg s1
  | Stmt.mutex_unlock m :: rest, reg, s =>
    (pthread_mutex_unlock t m s).bind fun s1 => run t rest reg s1
  | Stmt.call f data :: rest, reg, s =>
    run t rest (run_work (f data) reg s).1 (run_work (f data) reg s).2
  | Stmt.micro a :: rest, reg, s => run t rest (a reg s).1 (a reg s).2

/-- Lock and unlock statements in a statement list, in order. -/
def lock_ops : List Stmt → List (Bool × LockId)
  | [] => []
  | Stmt.mutex_lock m :: rest => (true, m) :: lock_ops rest
  | Stmt.mutex_unlock m :: rest => (false, m) :: lock_ops rest
  | _ :: rest => lock_ops rest

/-- Number of calls of a work item in a statement list. -/
def call_count : List Stmt → Nat
  | [] => 0
  | Stmt.call _ _ :: rest => call_count rest + 1
  | _ :: rest => call_count rest

/-! ## Systems of threads (`tests/test_thread_safety.c`, lines 139-181) -/

/-- Arguments of one call of `sync_network_update`. `ctx` is `false` for a NULL context
pointer and `true` for a pointer to the context of the shared state. -/
structure Call where
  ctx : Bool
  layer_idx : Int
  update_func : Option Work
  data : Nat

/-- A thread: its local variable, the statements left of the call in progress, and the
calls of `sync_network_update` it still has to make. -/
structure Thread where
  reg : Int
  cont : List Stmt
  calls : List Call

/-- A process: the shared state and its threads; the thread identifier is the position in
the list. -/
structure System where
  shared : Shared
  threads : List Thread

/-- One step of thread `t`: the next statement of the call in progress when there is one,
otherwise entry into the next call (the argument check of line 90, reading `num_layers`).
`none`: no such thread, the thread has terminated, or its next statement cannot be taken. -/
def thread_step (t : Tid) (sys : System) : Option System :=
  match sys.threads[t]? with
  | none => none
  | some th =>
    match th.cont with
    | st :: rest =>
      match exec t st th.reg rest sys.shared with
      | some r =>
        some { shared := r.2.2,
               threads := sys.threads.set t { reg := r.1, cont := r.2.1, calls := th.calls } }
      | none => none
    | [] =>
      match th.calls with
      | c :: cs =>
        let body := sync_network_update (if c.ctx then some sys.shared.net else none)
          c.layer_idx c.update_func c.data
        some { shared := sys.shared,
               threads := sys.threads.set t { reg := th.reg, cont := body, calls := cs } }
      | [] => none

/-- The scheduler picks any thread that can take a step. -/
def Step (a b : System) : Prop := ∃ t, thread_step t a = some b

/-- States reachable through some interleaving of the threads. -/
def Reachable (a b : System) : Prop := Relation.ReflTransGen Step a b

/-- Every thread has returned from its last call. -/
def Finished (sys : System) : Prop := ∀ th ∈ sys.threads, th.cont = [] ∧ th.calls = []

/-- Conversion of a mathematical integer to `int` (two's complement, 32 bits). -/
def wrap32 (x : Int) : Int := (x + 2 ^ 31) % 2 ^ 32 - 2 ^ 31

/-- The work item `update_layer_counter` of the test: `(*counter)++` on a plain `int`,
a read of the cell followed by a write of the value read plus one. -/
def update_layer_counter : Work := fun data =>
  [fun _ s => (s.mem data, s),
   fun reg s => (reg, { s with mem := Function.update s.mem data (wrap32 (reg + 1)) })]

/-- The thread body `test_layer_update_thread`: `m` calls of `sync_network_update` on one
layer with `update_layer_counter` on one counter. -/
def test_layer_update_thread (layer_id : Int) (counter : Nat) (m : Nat) : Thread :=
  { reg := 0, cont := [],
    calls := List.replicate m
      { ctx := true, layer_idx := layer_id, update_func := some update_layer_counter,
        data := counter } }

/-- Number of steps a statement takes: one, and for a call of a work item one more for
each step of its body. -/
def Stmt.size : Stmt → Nat
  | Stmt.call f data => (f data).length + 1
  | _ => 1

/-- Number of steps a call of `sync_network_update` takes at most: the argument check, the
lock, the call of the work item with the steps of its body, the unlock. -/
def Call.size (c : Call) : Nat :=
  match c.update_func with
  | some f => (f c.data).length + 4
  | none => 1

/-- Statements and calls a thread still has to go through, as a number of steps. -/
def Thread.size (th : Thread) : Nat :=
  (th.cont.map Stmt.size).sum + (th.calls.map Call.size).sum

/-- Steps the whole system can still take at most. -/
def System.size (sys : System) : Nat := (sys.threads.map Thread.size).sum

/-! ## Derived notions used by the statements -/

/-- One round of the loop of `test_context_overhead`: create a layer context, destroy it. -/
def network_cycle (num_layers : Int) (os : OS) : OS :=
  destroy_network_sync_context (create_network_sync_context num_layers os).1
    (create_network_sync_context num_layers os).2

/-- One round of the second loop of `test_context_overhead`: create a demo context,
destroy it. -/
def demo_cycle (os : OS) : OS :=
  destroy_demo_sync_context (create_demo_sync_context os).1 (create_demo_sync_context os).2

/-- One round of `init_sync_mutexes(p); destroy_sync_mutexes(p);` on the same pointer. -/
def sync_cycle (p : Option sync_mutexes × OS) : Option sync_mutexes × OS :=
  destroy_sync_mutexes (init_sync_mutexes p.1 p.2).1 (init_sync_mutexes p.1 p.2).2

/-- Number of mutexes of the lock set that thread `t` holds. -/
def sync_mutexes.held (m : sync_mutexes) (t : Tid) : Nat :=
  [m.network_mutex, m.weight_mutex, m.data_mutex, m.gpu_mutex, m.stats_mutex].count
    (MutexState.locked t)

/-- A mutex is live from its successful initialisation to its destruction. -/
def MutexState.live : MutexState → Bool
  | MutexState.unlocked => true
  | MutexState.locked _ => true
  | _ => false

/-- Number of live mutexes of the lock set. -/
def sync_mutexes.live (m : sync_mutexes) : Nat :=
  [m.network_mutex, m.weight_mutex, m.data_mutex, m.gpu_mutex, m.stats_mutex].countP
    MutexState.live

/-- Number of initialised free mutexes among the `n` array elements from index `i` on. -/
def free_mutexes_in (arr : List MutexState) : Nat → Nat → Nat
  | _, 0 => 0
  | i, n + 1 =>
    (if arr.getD i MutexState.uninit = MutexState.unlocked then 1 else 0)
      + free_mutexes_in arr (i + 1) n

/-- The library calls `destroy_network_sync_context` makes on a context with `n` layers. -/
def destroy_events (n : Nat) : List Event :=
  (List.range n).map (fun i => Event.mutex_destroy (LockId.layer i))
    ++ [Event.free Block.layer_array, Event.free Block.net_ctx]

/-- What a lock or unlock of layer mutex `i` leaves alone: every other layer mutex, the
layer count, both counters, the other two structs and the memory of the work items. -/
def LayerFrame (i : Nat) (s s1 : Shared) : Prop :=
  (∀ j, j ≠ i → s1.mutex (LockId.layer j) = s.mutex (LockId.layer j)) ∧
  s1.net.num_layers = s.net.num_layers ∧
  s1.net.active_threads = s.net.active_threads ∧
  s1.net.seen_samples = s.net.seen_samples ∧
  s1.sync = s.sync ∧ s1.demo = s.demo ∧ s1.mem = s.mem

/-- What a lock or unlock of `weight_mutex` leaves alone. -/
def WeightFrame (s s1 : Shared) : Prop :=
  s1.sync.network_mutex = s.sync.network_mutex ∧
  s1.sync.data_mutex = s.sync.data_mutex ∧
  s1.sync.gpu_mutex = s.sync.gpu_mutex ∧
  s1.sync.stats_mutex = s.sync.stats_mutex ∧
  s1.net = s.net ∧ s1.demo = s.demo ∧ s1.mem = s.mem

/-- The process of `test_concurrent_layer_updates` restricted to one layer: `k` threads,
each running `test_layer_update_thread` with `m` rounds on layer `layer_id` and the counter
at address `counter`. -/
def test_system (s : Shared) (layer_id : Int) (counter : Nat) (k m : Nat) : System :=
  { shared := s, threads := List.replicate k (test_layer_update_thread layer_id counter m) }

/-- A layer context as `create_network_sync_context(3)` leaves it. -/
def sample_net : network_sync_context :=
  { layer_mutexes := some [MutexState.unlocked, MutexState.unlocked, MutexState.unlocked],
    num_layers := 3, active_threads := 0, seen_samples := 0 }

/-- A lock set as `init_sync_mutexes` leaves it. -/
def sample_sync : sync_mutexes :=
  { network_mutex := MutexState.unlocked, weight_mutex := MutexState.unlocked,
    data_mutex := MutexState.unlocked, gpu_mutex := MutexState.unlocked,
    stats_mutex := MutexState.unlocked }

/-- A demo context as `create_demo_sync_context` leaves it. -/
def sample_demo : demo_sync_context :=
  { buffer_mutex := MutexState.unlocked, prediction_mutex := MutexState.unlocked,
    display_mutex := MutexState.unlocked, buffer_ready := CondState.ready,
    detection_done := CondState.ready, buffer_index := 0, demo_running := true }

/-- A shared state with three layers, every mutex free and every memory cell zero. -/
def sample_shared : Shared :=
  { net := sample_net, sync := sample_sync, demo := sample_demo, mem := fun _ => 0 }

/-- A process with no live primitive, no call made yet and no failure ahead. -/
def fresh_os : OS :=
  { blocks := 0, mutexes := 0, conds := 0, log := [], calloc_results := [],
    mutex_init_results := [], cond_init_results := [] }

/-- A lock set in storage that was never initialised. -/
def raw_sync : sync_mutexes :=
  { network_mutex := MutexState.uninit, weight_mutex := MutexState.uninit,
    data_mutex := MutexState.uninit, gpu_mutex := MutexState.uninit,
    stats_mutex := MutexState.uninit }

/-- A process in which both allocations will succeed and the first `pthread_mutex_init`
will fail. -/
def os_init_fails : OS :=
  { blocks := 0, mutexes := 0, conds := 0, log := [], calloc_results := [true, true],
    mutex_init_results := [false], cond_init_results := [] }

/-- A process in which the first allocation will succeed and the second will fail. -/
def os_array_fails : OS :=
  { blocks := 0, mutexes := 0, conds := 0, log := [], calloc_results := [true, false],
    mutex_init_results := [], cond_init_results := [] }

/-! ## Invariant of the test process -/

/-- Position of a thread of the test inside its current call of `sync_network_update`:
between calls, past the argument check, holding the mutex before the call of the work item,
inside the work item before the read, between the read and the write, and before the
unlock. -/
inductive Phase where
  | idle
  | entered
  | locked
  | reading
  | writing
  | unlocking
  deriving DecidableEq, Repr

/-- Statements a thread of the test has left in each phase of a call on layer `i` with
the counter at address `counter`. -/
def Phase.cont (i counter : Nat) : Phase → List Stmt
  | Phase.idle => []
  | Phase.entered =>
    [Stmt.mutex_lock (LockId.layer i), Stmt.call update_layer_counter counter,
     Stmt.mutex_unlock (LockId.layer i)]
  | Phase.locked =>
    [Stmt.call update_layer_counter counter, Stmt.mutex_unlock (LockId.layer i)]
  | Phase.reading =>
    (update_layer_counter counter).map Stmt.micro ++ [Stmt.mutex_unlock (LockId.layer i)]
  | Phase.writing =>
    ((update_layer_counter counter).drop 1).map Stmt.micro
      ++ [Stmt.mutex_unlock (LockId.layer i)]
  | Phase.unlocking => [Stmt.mutex_unlock (LockId.layer i)]

/-- A thread is inside the locked region of its call: it has statements left and the next
one is not the lock. -/
def Thread.holds (th : Thread) : Bool :=
  match th.cont with
  | [] => false
  | Stmt.mutex_lock _ :: _ => false
  | _ :: _ => true

/-- Increments the call in progress still owes: one until only the unlock is left. -/
def Thread.owes (th : Thread) : Nat :=
  match th.cont with
  | [] => 0
  | [Stmt.mutex_unlock _] => 0
  | _ => 1

/-- Increments a thread still owes: one for each call to come and what the call in
progress owes. -/
def Thread.pending (th : Thread) : Nat := th.calls.length + th.owes

/-- The call every thread of the test repeats. -/
def test_call (layer_id : Int) (counter : Nat) : Call :=
  { ctx := true, layer_idx := layer_id, update_func := some update_layer_counter,
    data := counter }

/-- What holds of thread `t` in every reachable state of the test: it is in one of the six
phases, between the read and the write its local variable is the value of the counter, the
calls to come are calls of the test, and inside the locked region it owns the mutex. -/
def ThreadOk (layer_id : Int) (counter : Nat) (sh : Shared) (t : Tid) (th : Thread) : Prop :=
  (∃ p : Phase, th.cont = p.cont layer_id.toNat counter ∧
    (p = Phase.writing → th.reg = sh.mem counter)) ∧
  (∃ k, th.calls = List.replicate k (test_call layer_id counter)) ∧
  (th.holds = true → sh.mutex (LockId.layer layer_id.toNat) = some (MutexState.locked t))

/-- Invariant of the test process started with the counter at `c0` and `total` increments
to make: every thread is as `ThreadOk` says, the mutex is free or owned by a thread inside
its locked region, the layer count is the initial one, and the counter plus the increments
still owed is the initial value plus `total`. -/
def TestInv (layer_id : Int) (counter : Nat) (num_layers c0 : Int) (total : Nat)
    (sys : System) : Prop :=
  (∀ t th, sys.threads[t]? = some th → ThreadOk layer_id counter sys.shared t th) ∧
  (sys.shared.mutex (LockId.layer layer_id.toNat) = some MutexState.unlocked ∨
    ∃ t th, sys.threads[t]? = some th ∧ th.holds = true ∧
      sys.shared.mutex (LockId.layer layer_id.toNat) = some (MutexState.locked t)) ∧
  sys.shared.net.num_layers = num_layers ∧
  c0 ≤ sys.shared.mem counter ∧
  sys.shared.mem counter + ((sys.threads.map Thread.pending).sum : Nat) = c0 + total

/-- The system after the threads named in a schedule have each taken one step, in the
order of the schedule; `none` when a scheduled thread cannot take its step. -/
def run_schedule : List Tid → System → Option System
  | [], sys => some sys
  | t :: rest, sys => (thread_step t sys).bind (run_schedule rest)

/-- Decision procedure for `Finished`. -/
def finished_check (sys : System) : Bool :=
  sys.threads.all fun th => th.cont.isEmpty && th.calls.isEmpty

/-! ## Operations on the lock set and on the counters -/

/-- The operations `thread_sync.h` declares that take a work item and its argument
(lines 51-55 of the header): `sync_network_update`, here with its layer index, and
`sync_weight_accumulate`. -/
inductive WorkOp where
  | network_update (layer_idx : Int)
  | weight_accumulate

/-- Statements an operation executes when called with non-NULL pointers to the context and
the lock set of the shared state and a non-NULL work item. -/
def WorkOp.body (op : WorkOp) (s : Shared) (f : Work) (data : Nat) : List Stmt :=
  match op with
  | WorkOp.network_update layer_idx => sync_network_update (some s.net) layer_idx (some f) data
  | WorkOp.weight_accumulate => sync_weight_accumulate (some s.sync) (some f) data

/-- The header offers a run-exclusively operation for mutex `m`: an operation that, whatever
the state, the work item and its argument, locks `m`, unlocks `m`, and performs no other
lock operation. -/
def RunsUnder (m : LockId) : Prop :=
  ∃ op : WorkOp, ∀ (s : Shared) (f : Work) (data : Nat),
    lock_ops (op.body s f data) = [(true, m), (false, m)]

/-- The operations of `<stdatomic.h>` callers apply to the two counters of a layer context
(`atomic_fetch_add`, `atomic_fetch_sub`, `atomic_load`, `atomic_store`). -/
inductive AtomicOp where
  | fetch_add (v : Int)
  | fetch_sub (v : Int)
  | load
  | store (v : Int)
  deriving DecidableEq, Repr

/-- Conversion of a mathematical integer to `long` (two's complement, 64 bits). -/
def wrap64 (x : Int) : Int := (x + 2 ^ 63) % 2 ^ 64 - 2 ^ 63

/-- Value of an atomic object after an operation; `wrap` is the conversion to the type of
the object. Atomic arithmetic on signed types wraps around silently (C11 7.17.7.5). -/
def AtomicOp.apply (wrap : Int → Int) (op : AtomicOp) (old : Int) : Int :=
  match op with
  | AtomicOp.fetch_add v => wrap (old + v)
  | AtomicOp.fetch_sub v => wrap (old - v)
  | AtomicOp.load => old
  | AtomicOp.store v => wrap v

/-- What can happen to a live layer context: the lock and the unlock `sync_network_update`
performs on a layer mutex for a thread, and an atomic operation of a caller on
`active_threads` (an `atomic_int`) or on `seen_samples` (an `atomic_long`). -/
inductive CtxAction where
  | lock (t : Tid) (i : Nat)
  | unlock (t : Tid) (i : Nat)
  | active (op : AtomicOp)
  | seen (op : AtomicOp)
  deriving DecidableEq, Repr

/-- Effect of one action on the shared state; `none` when a lock or unlock cannot be
taken. -/
def ctx_step (a : CtxAction) (s : Shared) : Option Shared :=
  match a with
  | CtxAction.lock t i => pthread_mutex_lock t (LockId.layer i) s
  | CtxAction.unlock t i => pthread_mutex_unlock t (LockId.layer i) s
  | CtxAction.active op =>
    some { s with net := { s.net with
      active_threads := op.apply wrap32 s.net.active_threads } }
  | CtxAction.seen op =>
    some { s with net := { s.net with
      seen_samples := op.apply wrap64 s.net.seen_samples } }

/-- Effect of a sequence of actions. -/
def ctx_run : List CtxAction → Shared → Option Shared
  | [], s => some s
  | a :: rest, s => (ctx_step a s).bind (ctx_run rest)

/-- An action that keeps to the intended use of the counters in state `s`: a load; a
fetch-add of a non-negative amount that does not overflow; on `active_threads` a fetch-sub
of a non-negative amount not above the current value or a store of a non-negative `int`; on
`seen_samples` a fetch-sub of zero or a store of a `long` not below the current value. -/
def CtxAction.disciplined (s : Shared) : CtxAction → Prop
  | CtxAction.lock _ _ => True
  | CtxAction.unlock _ _ => True
  | CtxAction.active (AtomicOp.fetch_add v) => 0 ≤ v ∧ s.net.active_threads + v < 2 ^ 31
  | CtxAction.active (AtomicOp.fetch_sub v) => 0 ≤ v ∧ v ≤ s.net.active_threads
  | CtxAction.active AtomicOp.load => True
  | CtxAction.active (AtomicOp.store v) => 0 ≤ v ∧ v < 2 ^ 31
  | CtxAction.seen (AtomicOp.fetch_add v) => 0 ≤ v ∧ s.net.seen_samples + v < 2 ^ 63
  | CtxAction.seen (AtomicOp.fetch_sub v) => v = 0
  | CtxAction.seen AtomicOp.load => True
  | CtxAction.seen (AtomicOp.store v) => s.net.seen_samples ≤ v ∧ v < 2 ^ 63

/-- Every action of the sequence is disciplined in the state it is applied to. -/
def disciplined_run : List CtxAction → Shared → Prop
  | [], _ => True
  | a :: rest, s =>
    a.disciplined s ∧
      match ctx_step a s with
      | some s1 => disciplined_run rest s1
      | none => True

/-! ## Floating-point arithmetic (`safe_math.h`) -/

/-- A value of an IEEE 754 binary format: NaN, an infinity (`neg`: it is negative) or a
finite number. The two zeros are one value: none of the functions of `safe_math.h` tells
them apart (they compare equal, both are finite, and for `float` arguments no division by
zero is reached). -/
inductive FP where
  | nan
  | inf (neg : Bool)
  | fin (q : ℚ)
  deriving DecidableEq

/-- A binary floating-point format: the precision in bits and the exponents of the unit in
the last place of the smallest and of the largest finite numbers. -/
structure Format where
  prec : Nat
  qmin : Int
  qmax : Int

/-- The type `float` (IEEE 754 binary32). -/
def binary32 : Format := { prec := 24, qmin := -149, qmax := 104 }

/-- The type `double` (IEEE 754 binary64). -/
def binary64 : Format := { prec := 53, qmin := -1074, qmax := 971 }

/-- The largest finite number of a format (`FLT_MAX`, `DBL_MAX`). -/
def Format.fmax (F : Format) : ℚ := (2 ^ F.prec - 1) * 2 ^ F.qmax

/-- The integer nearest to `x`, the even one of the two when `x` is half-way. -/
def rne (x : ℚ) : ℤ :=
  if x - ⌊x⌋ < 1 / 2 then ⌊x⌋
  else if 1 / 2 < x - ⌊x⌋ then ⌊x⌋ + 1
  else if ⌊x⌋ % 2 = 0 then ⌊x⌋ else ⌊x⌋ + 1

/-- Exponent of the unit in the last place of the format at `x`: `prec` significant bits
below the leading bit of `x`, and no less than `qmin` (subnormal numbers). -/
def Format.quantum (F : Format) (x : ℚ) : ℤ := max (Int.log 2 |x| - (F.prec - 1)) F.qmin

/-- The multiple of the unit in the last place nearest to `x`, ties to even: `x` rounded to
the format with no bound on the exponent. -/
def Format.nearest (F : Format) (x : ℚ) : ℚ := rne (x / 2 ^ F.quantum x) * 2 ^ F.quantum x

/-- Rounding to nearest, ties to even (the default rounding mode): the nearest number of the
format, or the infinity of the sign of `x` when that is beyond the largest finite number. -/
def Format.round (F : Format) (x : ℚ) : FP :=
  if F.fmax < |F.nearest x| then FP.inf (decide (x < 0)) else FP.fin (F.nearest x)

/-- The macro `isfinite`. -/
def FP.isfinite : FP → Bool
  | FP.fin _ => true
  | _ => false

/-- The macro `isnan`. -/
def FP.isnan : FP → Bool
  | FP.nan => true
  | _ => false

/-- The macro `isinf`. -/
def FP.isinf : FP → Bool
  | FP.inf _ => true
  | _ => false

/-- The function `fabs`. -/
def FP.fabs : FP → FP
  | FP.nan => FP.nan
  | FP.inf _ => FP.inf false
  | FP.fin q => FP.fin |q|

/-- The comparison `a < b`, false when an operand is NaN. -/
def FP.lt : FP → FP → Bool
  | FP.fin a, FP.fin b => decide (a < b)
  | FP.fin _, FP.inf n => !n
  | FP.inf n, FP.fin _ => n
  | FP.inf a, FP.inf b => a && !b
  | _, _ => false

/-- The comparison `a <= b`, false when an operand is NaN. -/
def FP.le : FP → FP → Bool
  | FP.fin a, FP.fin b => decide (a ≤ b)
  | FP.fin _, FP.inf n => !n
  | FP.inf n, FP.fin _ => n
  | FP.inf a, FP.inf b => a || !b
  | _, _ => false

/-- Conversion of a value to format `F` (`double` to `float` on `return`; `float` to
`double` is the case in which every finite value is kept). -/
def FP.cast (F : Format) : FP → FP
  | FP.fin q => F.round q
  | x => x

/-- The operator `/` in format `F`. -/
def FP.div (F : Format) : FP → FP → FP
  | FP.nan, _ => FP.nan
  | _, FP.nan => FP.nan
  | FP.inf _, FP.inf _ => FP.nan
  | FP.inf n, FP.fin b => FP.inf (n != decide (b < 0))
  | FP.fin _, FP.inf _ => FP.fin 0
  | FP.fin a, FP.fin b =>
    if b = 0 then (if a = 0 then FP.nan else FP.inf (decide (a < 0))) else F.round (a / b)

/-- The operator `+` in format `F`. -/
def FP.add (F : Format) : FP → FP → FP
  | FP.nan, _ => FP.nan
  | _, FP.nan => FP.nan
  | FP.inf a, FP.inf b => if a = b then FP.inf a else FP.nan
  | FP.inf a, FP.fin _ => FP.inf a
  | FP.fin _, FP.inf b => FP.inf b
  | FP.fin a, FP.fin b => F.round (a + b)

/-- The function `sqrt` of the C library on a finite non-negative argument, correctly
rounded as IEEE 754 requires: with `e` the exponent of the unit in the last place of the
result, the integer nearest to the square root of `x / 4 ^ e`, times `2 ^ e`. -/
def Format.sqrt (F : Format) (x : ℚ) : ℚ :=
  let e := max (Int.log 2 x / 2 - (F.prec - 1)) F.qmin
  ((Nat.sqrt ⌊4 * (x / 4 ^ e)⌋₊ + 1) / 2 : ℕ) * 2 ^ e

/-- The function `sqrt` in format `F`. -/
def FP.sqrt (F : Format) : FP → FP
  | FP.nan => FP.nan
  | FP.inf n => if n then FP.nan else FP.inf false
  | FP.fin q => if q < 0 then FP.nan else FP.fin (F.sqrt q)

/-- The value is a `float`: conversion to binary32 keeps it. -/
def FP.is_float (x : FP) : Prop := FP.cast binary32 x = x

/-- The macro `SAFE_DIV_EPSILON`: the constant `1e-10` of type `double`, the binary64 number
nearest to one ten-billionth. -/
def SAFE_DIV_EPSILON : FP := FP.fin (7737125245533627 / 2 ^ 86)

/-- `safe_divide` (`safe_math.h`, lines 11-25). `fabs` takes and returns a `double`, and the
comparison with `SAFE_DIV_EPSILON` is a comparison of `double`s; the quotient is a `float`
division. -/
def safe_divide (numerator denominator default_value : FP) : FP :=
  if !denominator.isfinite || (denominator.fabs).lt SAFE_DIV_EPSILON then default_value
  else if !numerator.isfinite then default_value
  else FP.div binary32 numerator denominator

/-- `safe_divide_eps` (lines 27-37): the sum and the quotient are computed in `double`, the
`return` converts to `float`. -/
def safe_divide_eps (numerator denominator : FP) : FP :=
  if !numerator.isfinite then FP.fin 0
  else if !denominator.isfinite then FP.fin 0
  else FP.cast binary32
    (FP.div binary64 numerator (FP.add binary64 denominator SAFE_DIV_EPSILON))

/-- `safe_sqrt_divide` (lines 39-52): a `float` division, `sqrt` on `double`, the `return`
converts to `float`. -/
def safe_sqrt_divide (numerator denominator default_value : FP) : FP :=
  if !numerator.isfinite || !denominator.isfinite then default_value
  else if denominator.le (FP.fin 0) || numerator.lt (FP.fin 0) then default_value
  else FP.cast binary32 (FP.sqrt binary64 (FP.div binary32 numerator denominator))

/-- `safe_log` (lines 54-66). The function `log` of the C library, from `double` to
`double`, is not code of the repository: it is the parameter `log`. -/
def safe_log (log : FP → FP) (value default_value : FP) : FP :=
  if !value.isfinite then default_value
  else if value.le (FP.fin 0) then default_value
  else FP.cast binary32 (log value)

/-- The definition of `safe_divide` in the words of its specification: the default for a NaN
or infinite denominator, for a denominator of magnitude below one ten-billionth and for a
NaN or infinite numerator, else the quotient. -/
def safe_divide_reference (n d default_value : FP) : FP :=
  match d with
  | FP.nan => default_value
  | FP.inf _ => default_value
  | FP.fin b =>
    if |b| < 1 / 10 ^ 10 then default_value
    else
      match n with
      | FP.fin _ => FP.div binary32 n d
      | _ => default_value

/-! ## Integer division for random numbers (`safe_math.h`, lines 68-74) -/

/-- Conversion of an `int` to `size_t`, an unsigned type of 64 bits. -/
def size_t (x : Int) : Nat := (x % 2 ^ 64).toNat

/-- The divisor `RAND_MAX / range + 1` of `safe_rand_divide`, computed in `size_t`;
`RAND_MAX` is the macro of `<stdlib.h>`, an `int`. -/
def rand_divisor (RAND_MAX : Int) (range : Nat) : Nat := (size_t RAND_MAX / range + 1) % 2 ^ 64

/-- `safe_rand_divide` (lines 69-74); `r` is the value the call of `rand()` returns. The
result is `none` when a division by zero is reached. -/
def safe_rand_divide (RAND_MAX r : Int) (range : Nat) : Option Nat :=
  if range = 0 then some 0
  else if rand_divisor RAND_MAX range = 0 then none
  else some (size_t r / rand_divisor RAND_MAX range)

/-- The divisors of the divisions a call of `safe_rand_divide` evaluates, in order. -/
def safe_rand_divide_divisors (RAND_MAX : Int) (range : Nat) : List Nat :=
  if range = 0 then [] else [range, rand_divisor RAND_MAX range]

/-! ## The normalization layer (`normalization_layer.c`) -/

/-- The operator `*` in format `F`. -/
def FP.mul (F : Format) : FP → FP → FP
  | FP.nan, _ => FP.nan
  | _, FP.nan => FP.nan
  | FP.inf a, FP.inf b => FP.inf (a != b)
  | FP.inf a, FP.fin q => if q = 0 then FP.nan else FP.inf (a != decide (q < 0))
  | FP.fin q, FP.inf b => if q = 0 then FP.nan else FP.inf (decide (q < 0) != b)
  | FP.fin a, FP.fin b => F.round (a * b)

/-- The unary operator `-`. -/
def FP.neg : FP → FP
  | FP.nan => FP.nan
  | FP.inf a => FP.inf (!a)
  | FP.fin q => FP.fin (-q)

/-- The arrays of `float`s of a layer and of its network: the host arrays, the device
arrays (`_gpu`), and the temporary host arrays of `backward_normalization_layer_gpu`. -/
inductive Arr where
  | net_input
  | net_delta
  | output
  | delta
  | squared
  | norms
  | net_input_gpu
  | net_delta_gpu
  | output_gpu
  | delta_gpu
  | norms_gpu
  | input_cpu
  | output_cpu
  | delta_in_cpu
  | delta_out_cpu
  | norms_cpu
  deriving DecidableEq

/-- A pointer `float *p = array + off`. -/
structure Ptr where
  arr : Arr
  off : Int

/-- The pointer `p + n`. -/
def Ptr.add (p : Ptr) (n : Int) : Ptr := { arr := p.arr, off := p.off + n }

/-- The memory: the elements of the arrays, and the log of the elements read or written so
far, the latest first. -/
structure Mem where
  val : Arr → Int → FP
  log : List (Arr × Int)

/-- The value of `p[i]`. -/
def Mem.read (m : Mem) (p : Ptr) (i : Int) : FP := m.val p.arr (p.off + i)

/-- A read of `p[i]` is recorded. -/
def Mem.touch (m : Mem) (p : Ptr) (i : Int) : Mem :=
  { val := m.val, log := (p.arr, p.off + i) :: m.log }

/-- The assignment `p[i] = v`. -/
def Mem.write (m : Mem) (p : Ptr) (i : Int) (v : FP) : Mem :=
  { val := fun a j => if a = p.arr ∧ j = p.off + i then v else m.val a j,
    log := (p.arr, p.off + i) :: m.log }

/-- The loop `for(i = 0; i < n; ++i) body`. -/
def loop {σ : Type} : Nat → (Nat → σ → σ) → σ → σ
  | 0, _, s => s
  | n + 1, body, s => body n (loop n body s)

/-- The fields of a `layer` that the normalization layer uses. The `int` products of `w`,
`h`, `c` and `batch` are taken without overflow: they index arrays of `w*h*c*batch`
elements. -/
structure layer where
  batch : Int
  w : Int
  h : Int
  c : Int
  size : Int
  alpha : FP
  beta : FP
  kappa : FP

/-- Modelled from the spec: `scal_cpu` of `blas.c`, which is not under `src/`:
`X[i*INCX] *= ALPHA` for `i < N`. -/
def scal_cpu (N : Int) (ALPHA : FP) (X : Ptr) (INCX : Int) (m : Mem) : Mem :=
  loop N.toNat
    (fun i m => m.write X (i * INCX) (FP.mul binary32 (m.read X (i * INCX)) ALPHA)) m

/-- Modelled from the spec: `pow_cpu` of `blas.c`, which is not under `src/`:
`Y[i*INCY] = pow(X[i*INCX], ALPHA)` for `i < N`. The function `pow` of the C library, on
`double`s, is the parameter `pow`; its result is converted to `float`. -/
def pow_cpu (pow : FP → FP → FP) (N : Int) (ALPHA : FP) (X : Ptr) (INCX : Int) (Y : Ptr)
    (INCY : Int) (m : Mem) : Mem :=
  loop N.toNat
    (fun i m => (m.touch X (i * INCX)).write Y (i * INCY)
      (FP.cast binary32 (pow (m.read X (i * INCX)) ALPHA))) m

/-- Modelled from the spec: `const_cpu` of `blas.c`, which is not under `src/`:
`X[i*INCX] = ALPHA` for `i < N`. -/
def const_cpu (N : Int) (ALPHA : FP) (X : Ptr) (INCX : Int) (m : Mem) : Mem :=
  loop N.toNat (fun i m => m.write X (i * INCX) ALPHA) m

/-- Modelled from the spec: `axpy_cpu` of `blas.c`, which is not under `src/`:
`Y[i*INCY] += ALPHA * X[i*INCX]` for `i < N`. -/
def axpy_cpu (N : Int) (ALPHA : FP) (X : Ptr) (INCX : Int) (Y : Ptr) (INCY : Int)
    (m : Mem) : Mem :=
  loop N.toNat
    (fun i m => (m.touch X (i * INCX)).write Y (i * INCY)
      (FP.add binary32 (m.read Y (i * INCY)) (FP.mul binary32 ALPHA (m.read X (i * INCX)))))
    m

/-- Modelled from the spec: `copy_cpu` of `blas.c`, which is not under `src/`:
`Y[i*INCY] = X[i*INCX]` for `i < N`. -/
def copy_cpu (N : Int) (X : Ptr) (INCX : Int) (Y : Ptr) (INCY : Int) (m : Mem) : Mem :=
  loop N.toNat
    (fun i m => (m.touch X (i * INCX)).write Y (i * INCY) (m.read X (i * INCX))) m

/-- Modelled from the spec: `mul_cpu` of `blas.c`, which is not under `src/`:
`Y[i*INCY] *= X[i*INCX]` for `i < N`. -/
def mul_cpu (N : Int) (X : Ptr) (INCX : Int) (Y : Ptr) (INCY : Int) (m : Mem) : Mem :=
  loop N.toNat
    (fun i m => (m.touch X (i * INCX)).write Y (i * INCY)
      (FP.mul binary32 (m.read Y (i * INCY)) (m.read X (i * INCX)))) m

/-- One turn of the loop over `k` from 1 in `forward_normalization_layer` (lines 86-92).
The `int` differences and the `int` sum in `prev` (line 88) and `next` (line 89) are taken
modulo `2^32`. -/
def forward_channel (L : layer) (squared norms : Ptr) (k : Int) (m : Mem) : Mem :=
  let m1 := copy_cpu (L.w * L.h) (norms.add (L.w * L.h * (k - 1))) 1
    (norms.add (L.w * L.h * k)) 1 m
  let prev := wrap32 (wrap32 (k - (wrap32 (L.size - 1)).tdiv 2) - 1)
  let next := wrap32 (k + L.size.tdiv 2)
  let m2 :=
    if prev ≥ 0 then
      axpy_cpu (L.w * L.h) (FP.neg L.alpha) (squared.add (L.w * L.h * prev)) 1
        (norms.add (L.w * L.h * k)) 1 m1
    else m1
  if next < L.c then
    axpy_cpu (L.w * L.h) L.alpha (squared.add (L.w * L.h * next)) 1
      (norms.add (L.w * L.h * k)) 1 m2
  else m2

/-- One turn of the loop over `b` in `forward_normalization_layer` (lines 75-93). -/
def forward_batch (pow : FP → FP → FP) (L : layer) (b : Int) (m : Mem) : Mem :=
  let squared : Ptr := { arr := Arr.squared, off := L.w * L.h * L.c * b }
  let norms : Ptr := { arr := Arr.norms, off := L.w * L.h * L.c * b }
  let input : Ptr := { arr := Arr.net_input, off := L.w * L.h * L.c * b }
  let m1 := pow_cpu pow (L.w * L.h * L.c) (FP.fin 2) input 1 squared 1 m
  let m2 := const_cpu (L.w * L.h) L.kappa norms 1 m1
  let m3 := loop (L.size.tdiv 2).toNat
    (fun k m => axpy_cpu (L.w * L.h) L.alpha (squared.add (L.w * L.h * k)) 1 norms 1 m) m2
  loop (L.c - 1).toNat (fun j m => forward_channel L squared norms (1 + j) m) m3

/-- `forward_normalization_layer` (lines 67-96). -/
def forward_normalization_layer (pow : FP → FP → FP) (L : layer) (m : Mem) : Mem :=
  let m1 := scal_cpu (L.w * L.h * L.c * L.batch) (FP.fin 0) { arr := Arr.squared, off := 0 } 1 m
  let m2 := loop L.batch.toNat (fun b m => forward_batch pow L b m) m1
  let m3 := pow_cpu pow (L.w * L.h * L.c * L.batch) (FP.neg L.beta)
    { arr := Arr.norms, off := 0 } 1 { arr := Arr.output, off := 0 } 1 m2
  mul_cpu (L.w * L.h * L.c * L.batch) { arr := Arr.net_input, off := 0 } 1
    { arr := Arr.output, off := 0 } 1 m3

/-- The five arrays the loops of the backward pass work on: the host arrays in
`backward_normalization_layer`, the temporary copies in
`backward_normalization_layer_gpu`. -/
structure BackwardArrays where
  input : Arr
  output : Arr
  delta_in : Arr
  delta_out : Arr
  norms : Arr

/-- The lower end `min_c` of the window of channel `k` (lines 120 and 122); the `int`
difference is taken modulo `2^32`. -/
def window_min (L : layer) (k : Int) : Int :=
  if wrap32 (k - L.size.tdiv 2) < 0 then 0 else wrap32 (k - L.size.tdiv 2)

/-- The upper end `max_c` of the window of channel `k` (lines 121 and 123); the `int` sum
is taken modulo `2^32`. -/
def window_max (L : layer) (k : Int) : Int :=
  if wrap32 (k + L.size.tdiv 2) ≥ L.c then L.c - 1 else wrap32 (k + L.size.tdiv 2)

/-- One turn of the loop over `i` (lines 137-141): the new value of `grad`, and the reads
recorded. -/
def backward_window (pow : FP → FP → FP) (L : layer) (output delta_out norms : Ptr)
    (factor : FP) (s i : Int) (st : FP × Mem) : FP × Mem :=
  let idx_i := i * (L.w * L.h) + s
  (FP.cast binary32 (FP.add binary64 st.1
      (FP.mul binary64
        (FP.mul binary32
          (FP.mul binary32 (st.2.read delta_out idx_i) (st.2.read output idx_i)) factor)
        (pow (st.2.read norms idx_i) (FP.fin (-1))))),
    ((st.2.touch delta_out idx_i).touch output idx_i).touch norms idx_i)

/-- The value of `grad` after the loop over `i` (lines 133-141), and the memory with the
reads recorded. -/
def backward_sum (pow : FP → FP → FP) (L : layer) (input output delta_out norms : Ptr)
    (k s : Int) (m : Mem) : FP × Mem :=
  let idx_k := k * (L.w * L.h) + s
  let grad := FP.cast binary32
    (FP.mul binary64 (m.read delta_out idx_k) (pow (m.read norms idx_k) (FP.neg L.beta)))
  let factor := FP.mul binary32
    (FP.mul binary32 (FP.mul binary32 (FP.fin (-2)) L.alpha) L.beta) (m.read input idx_k)
  let m1 := ((m.touch delta_out idx_k).touch norms idx_k).touch input idx_k
  loop (window_max L k - window_min L k + 1).toNat
    (fun j st => backward_window pow L output delta_out norms factor s (window_min L k + j) st)
    (grad, m1)

/-- One turn of the loop over `s` (lines 125-145). -/
def backward_element (pow : FP → FP → FP) (L : layer)
    (input output delta_in delta_out norms : Ptr) (k s : Int) (m : Mem) : Mem :=
  let idx_k := k * (L.w * L.h) + s
  let st := backward_sum pow L input output delta_out norms k s m
  st.2.write delta_in idx_k (FP.add binary32 (st.2.read delta_in idx_k) st.1)

/-- One turn of the loop over `b` (lines 110-147, and lines 207-239 on the temporary
arrays). -/
def backward_batch (pow : FP → FP → FP) (L : layer) (A : BackwardArrays) (b : Int)
    (m : Mem) : Mem :=
  let input : Ptr := { arr := A.input, off := L.w * L.h * L.c * b }
  let output : Ptr := { arr := A.output, off := L.w * L.h * L.c * b }
  let delta_in : Ptr := { arr := A.delta_in, off := L.w * L.h * L.c * b }
  let delta_out : Ptr := { arr := A.delta_out, off := L.w * L.h * L.c * b }
  let norms : Ptr := { arr := A.norms, off := L.w * L.h * L.c * b }
  loop L.c.toNat
    (fun k m => loop (L.w * L.h).toNat
      (fun s m => backward_element pow L input output delta_in delta_out norms k s m) m) m

/-- The loops of the backward pass: lines 110-147 of `backward_normalization_layer`, and,
with the same text, lines 207-239 of `backward_normalization_layer_gpu`. -/
def backward_loops (pow : FP → FP → FP) (L : layer) (A : BackwardArrays) (m : Mem) : Mem :=
  loop L.batch.toNat (fun b m => backward_batch pow L A b m) m

/-- `backward_normalization_layer` (lines 98-148). -/
def backward_normalization_layer (pow : FP → FP → FP) (L : layer) (m : Mem) : Mem :=
  backward_loops pow L
    { input := Arr.net_input, output := Arr.output, delta_in := Arr.net_delta,
      delta_out := Arr.delta, norms := Arr.norms } m

/-- The call `calloc(total_size, sizeof(float))` for the temporary array `x`: a new block
of zeros. -/
def calloc_float (x : Arr) (m : Mem) : Mem :=
  { val := fun a j => if a = x then FP.fin 0 else m.val a j, log := m.log }

/-- Modelled from the spec: `cuda_pull_array` of `cuda.c`, which is not under `src/`: the
copy of `n` elements of the device array `x_gpu` to the host array `x`. -/
def cuda_pull_array (x_gpu x : Arr) (n : Int) (m : Mem) : Mem :=
  copy_cpu n { arr := x_gpu, off := 0 } 1 { arr := x, off := 0 } 1 m

/-- Modelled from the spec: `cuda_push_array` of `cuda.c`, which is not under `src/`: the
copy of `n` elements of the host array `x` to the device array `x_gpu`. -/
def cuda_push_array (x_gpu x : Arr) (n : Int) (m : Mem) : Mem :=
  copy_cpu n { arr := x, off := 0 } 1 { arr := x_gpu, off := 0 } 1 m

/-- The temporary host arrays of `backward_normalization_layer_gpu` and their contents
(lines 195-205): five blocks of zeros, into which the device arrays are copied. -/
def backward_gpu_pull (L : layer) (m : Mem) : Mem :=
  let total_size := L.w * L.h * L.c * L.batch
  let m1 := calloc_float Arr.norms_cpu (calloc_float Arr.delta_out_cpu
    (calloc_float Arr.delta_in_cpu (calloc_float Arr.output_cpu
      (calloc_float Arr.input_cpu m))))
  let m2 := cuda_pull_array Arr.net_input_gpu Arr.input_cpu total_size m1
  let m3 := cuda_pull_array Arr.output_gpu Arr.output_cpu total_size m2
  let m4 := cuda_pull_array Arr.net_delta_gpu Arr.delta_in_cpu total_size m3
  let m5 := cuda_pull_array Arr.delta_gpu Arr.delta_out_cpu total_size m4
  cuda_pull_array Arr.norms_gpu Arr.norms_cpu total_size m5

/-- `backward_normalization_layer_gpu` (lines 182-250). The calls of `free` at the end
release the temporary arrays and change no device array. -/
def backward_normalization_layer_gpu (pow : FP → FP → FP) (L : layer) (m : Mem) : Mem :=
  let m7 := backward_loops pow L
    { input := Arr.input_cpu, output := Arr.output_cpu, delta_in := Arr.delta_in_cpu,
      delta_out := Arr.delta_out_cpu, norms := Arr.norms_cpu } (backward_gpu_pull L m)
  cuda_push_array Arr.net_delta_gpu Arr.delta_in_cpu (L.w * L.h * L.c * L.batch) m7

/-- Two runs of the loops of the backward pass, the one now at memory `a` from `m1` on the
arrays `A1`, the other now at `b` from `m2` on the arrays `A2`, have both passed the
elements below `p` of `delta_in` and no other: the other arrays are as at the start; to
each element below `p` both runs have added the same `float`; the elements from `p` on are
as at the start. -/
def BackwardInv (A1 A2 : BackwardArrays) (m1 m2 : Mem) (p : Int) (a b : Mem) : Prop :=
  (∀ x, x ≠ A1.delta_in → a.val x = m1.val x) ∧
  (∀ x, x ≠ A2.delta_in → b.val x = m2.val x) ∧
  (∀ j, 0 ≤ j → j < p → ∃ g : FP, g.is_float ∧
    a.val A1.delta_in j = FP.add binary32 (m1.val A1.delta_in j) g ∧
    b.val A2.delta_in j = FP.add binary32 (m2.val A2.delta_in j) g) ∧
  (∀ j, (j < 0 ∨ p ≤ j) →
    a.val A1.delta_in j = m1.val A1.delta_in j ∧ b.val A2.delta_in j = m2.val A2.delta_in j)

/-- A layer of two channels of one element each, with a window of size 3. -/
def sample_layer : layer :=
  { batch := 1, w := 1, h := 1, c := 2, size := 3,
    alpha := FP.fin 1, beta := FP.fin 1, kappa := FP.fin 1 }

/-- A memory for `sample_layer`: the input is `(1, t)`, the gradient of the output in
`layer.delta` is `(1, 0)`, every other element is 0, on the host and on the device. -/
def sample_mem (t : ℚ) : Mem :=
  { val := fun a j =>
      if a = Arr.net_input ∨ a = Arr.net_input_gpu then
        (if j = 0 then FP.fin 1 else if j = 1 then FP.fin t else FP.fin 0)
      else if a = Arr.delta ∨ a = Arr.delta_gpu then
        (if j = 0 then FP.fin 1 else FP.fin 0)
      else FP.fin 0,
    log := [] }

/-- The memory `m` with `net.delta` set to zero. -/
def zero_net_delta (m : Mem) : Mem :=
  { val := fun a j => if a = Arr.net_delta then FP.fin 0 else m.val a j, log := m.log }

/-- A function with the values of `pow` at the exponents 2 and -1, where the results are
`x*x` and `1/x` rounded to `double`; it stands for `pow` in the sample computations. -/
def sample_pow (x y : FP) : FP :=
  if y = FP.fin 2 then FP.mul binary64 x x
  else if y = FP.fin (-1) then FP.div binary64 (FP.fin 1) x
  else FP.nan

/-- The loss of `compute_numerical_gradient` (`test_normalization_gradient.c`, lines
32-35): the sum over `i < total_size` of `l.output[i] * output_grad[i]`, added up in
`float`. -/
def loss (total_size : Int) (output output_grad : Ptr) (m : Mem) : FP :=
  loop total_size.toNat
    (fun i acc => FP.add binary32 acc (FP.mul binary32 (m.read output i) (m.read output_grad i)))
    (FP.fin 0)

/-! ## The barrier (`thread_sync.h`, lines 35-39) -/

/-- A participant of a rendezvous: the number of its `wait()` calls that have returned, and
whether it is blocked in a call of `wait()`. Its code after its `n`-th `wait()` runs only
when `n ≤ passed`. -/
structure Participant where
  passed : Nat
  blocked : Bool
  deriving DecidableEq, Repr

/-- The struct `sync_barrier`. Of the `pthread_barrier_t` the model keeps the number of
callers that are blocked in it. -/
structure sync_barrier where
  barrier : Nat
  thread_count : Int
  deriving DecidableEq, Repr

/-- A barrier, its participants, and the number of `wait()` calls invoked so far. -/
structure BarrierSystem where
  b : sync_barrier
  parties : List Participant
  calls : Nat
  deriving DecidableEq, Repr

/-- Modelled from the spec: `create(P)` of the barrier, which is not under `src/` (only
the struct `sync_barrier` is declared there): it fixes the party count. -/
def sync_barrier_create (P : Nat) : sync_barrier := { barrier := 0, thread_count := P }

/-- The release of a rendezvous: every blocked participant returns from `wait()`. -/
def release_all (ps : List Participant) : List Participant :=
  ps.map (fun p => if p.blocked then { passed := p.passed + 1, blocked := false } else p)

/-- Modelled from the spec: `wait()` of the barrier, which is not under `src/`, called by
participant `t`: it blocks every caller until the `P`-th caller arrives, then releases all
`P` in one step. `none`: there is no participant `t`, or it is blocked in `wait()` and can
make no call. -/
def sync_barrier_wait (t : Nat) (s : BarrierSystem) : Option BarrierSystem :=
  match s.parties[t]? with
  | none => none
  | some p =>
    if p.blocked then none
    else if (s.b.barrier : Int) + 1 = s.b.thread_count then
      some { b := { barrier := 0, thread_count := s.b.thread_count },
             parties := release_all (s.parties.set t { passed := p.passed, blocked := true }),
             calls := s.calls + 1 }
    else
      some { b := { barrier := s.b.barrier + 1, thread_count := s.b.thread_count },
             parties := s.parties.set t { passed := p.passed, blocked := true },
             calls := s.calls + 1 }

/-- A barrier created for `P` parties and its `P` participants, none of which has called
`wait()`. -/
def barrier_start (P : Nat) : BarrierSystem :=
  { b := sync_barrier_create P,
    parties := List.replicate P { passed := 0, blocked := false },
    calls := 0 }

/-- An interleaving: the participants call `wait()` in the order of the list. -/
def barrier_run : List Nat → BarrierSystem → Option BarrierSystem
  | [], s => some s
  | t :: ts, s =>
    match sync_barrier_wait t s with
    | none => none
    | some s1 => barrier_run ts s1

/-- The invariant of a barrier of `P` parties: all participants have passed the same number
`g` of rendezvous, the barrier counts the blocked ones, fewer than `P`, and `P * g` calls
of `wait()` were made before the current rendezvous. -/
def BarrierInv (P : Nat) (s : BarrierSystem) : Prop :=
  ∃ g, s.b.thread_count = P ∧ s.parties.length = P ∧ s.b.barrier < P ∧
    (∀ p ∈ s.parties, p.passed = g) ∧
    s.parties.countP (fun p => p.blocked) = s.b.barrier ∧
    s.calls = P * g + s.b.barrier

/-! ## The shutdown of the demo pipeline (`thread_sync.h`, lines 24-33) -/

/-- A layer of one element per channel with `INT_MAX` channels and a window of size 5: it
meets `w, h, c, batch >= 1`, `0 <= size` and `size/2 <= c`, and `w*h*c*batch` fits in an
`int`. -/
def overflow_layer : layer :=
  { batch := 1, w := 1, h := 1, c := 2147483647, size := 5,
    alpha := FP.fin 1, beta := FP.fin 1, kappa := FP.fin 1 }

/-- The sample memory with the input `(1, 1)` and `net.delta` set to 3. -/
def sample_mem_delta : Mem :=
  { val := fun a j => if a = Arr.net_delta then FP.fin 3 else (sample_mem 1).val a j,
    log := [] }

/-! ## Lemmas on the primitives -/

theorem mutex_setMutex_same (s : Shared) (id : LockId) (m0 m : MutexState)
    (h : s.mutex id = some m0) : (s.setMutex id m).mutex id = some m := by
  cases id <;> simp [Shared.mutex, Shared.setMutex] at h ⊢
  case layer i =>
    cases harr : s.net.layer_mutexes with
    | none => simp [harr] at h
    | some arr =>
      simp only [harr] at h
      have hi : i < arr.length := by
        by_contra hcon
        rw [List.getElem?_eq_none (by omega)] at h
        exact absurd h (by simp)
      simp [List.getElem?_set, hi]

theorem mutex_setMutex_other (s : Shared) (id id2 : LockId) (m : MutexState)
    (h : id ≠ id2) : (s.setMutex id m).mutex id2 = s.mutex id2 := by
  cases id <;> cases id2 <;> simp [Shared.mutex, Shared.setMutex] at h ⊢
  case layer.layer i j =>
    cases harr : s.net.layer_mutexes with
    | none => simp
    | some arr => simp [List.getElem?_set, h]

theorem layerFrame_setMutex (s : Shared) (i : Nat) (m : MutexState) :
    LayerFrame i s (s.setMutex (LockId.layer i) m) := by
  refine ⟨?_, rfl, rfl, rfl, rfl, rfl, rfl⟩
  intro j hj
  exact mutex_setMutex_other s _ _ m (by simpa using Ne.symm hj)

theorem lock_some (t : Tid) (id : LockId) (s s1 : Shared)
    (h : pthread_mutex_lock t id s = some s1) :
    s.mutex id = some MutexState.unlocked ∧ s1 = s.setMutex id (MutexState.locked t) := by
  unfold pthread_mutex_lock at h
  split at h
  · rename_i heq
    exact ⟨heq, by simpa using h.symm⟩
  · simp at h

theorem lock_of_free (t : Tid) (id : LockId) (s : Shared)
    (h : s.mutex id = some MutexState.unlocked) :
    pthread_mutex_lock t id s = some (s.setMutex id (MutexState.locked t)) := by
  simp [pthread_mutex_lock, h]

theorem unlock_some (t : Tid) (id : LockId) (s s1 : Shared)
    (h : pthread_mutex_unlock t id s = some s1) :
    s.mutex id = some (MutexState.locked t) ∧ s1 = s.setMutex id MutexState.unlocked := by
  unfold pthread_mutex_unlock at h
  split at h
  · rename_i o heq
    by_cases ho : o = t
    · subst ho
      simp at h
      exact ⟨heq, h.symm⟩
    · simp [ho] at h
  · simp at h

theorem unlock_of_held (t : Tid) (id : LockId) (s : Shared)
    (h : s.mutex id = some (MutexState.locked t)) :
    pthread_mutex_unlock t id s = some (s.setMutex id MutexState.unlocked) := by
  simp [pthread_mutex_unlock, h]

theorem sync_network_update_body (c : network_sync_context) (layer_idx : Int) (f : Work)
    (data : Nat) (h0 : 0 ≤ layer_idx) (h1 : layer_idx < c.num_layers) :
    sync_network_update (some c) layer_idx (some f) data =
      [Stmt.mutex_lock (LockId.layer layer_idx.toNat), Stmt.call f data,
       Stmt.mutex_unlock (LockId.layer layer_idx.toNat)] := by
  have h : ¬ (layer_idx < 0 ∨ layer_idx ≥ c.num_layers) := by omega
  simp [sync_network_update, h]

/-! ## The run-under-lock functions -/

/-- C1: when the context is NULL, the work item is NULL, `layer_idx < 0` or
`layer_idx >= ctx->num_layers`, `sync_network_update` executes no statement at all: no call
of the work item, no lock and no unlock; it returns at once with the local variable and the
whole shared state (every mutex, `num_layers`, `active_threads`, `seen_samples`) as they
were. -/
theorem sync_network_update_rejects (t : Tid) (ctx : Option network_sync_context)
    (layer_idx : Int) (update_func : Option Work) (data : Nat) (reg : Int) (s : Shared)
    (h : ctx = none ∨ update_func = none ∨ layer_idx < 0 ∨
      ∃ c, ctx = some c ∧ layer_idx ≥ c.num_layers) :
    sync_network_update ctx layer_idx update_func data = [] ∧
    call_count (sync_network_update ctx layer_idx update_func data) = 0 ∧
    lock_ops (sync_network_update ctx layer_idx update_func data) = [] ∧
    run t (sync_network_update ctx layer_idx update_func data) reg s = some (reg, s) := by
  have hnil : sync_network_update ctx layer_idx update_func data = [] := by
    cases ctx with
    | none => simp [sync_network_update]
    | some c =>
      cases update_func with
      | none => simp [sync_network_update]
      | some f =>
        have hc : layer_idx < 0 ∨ layer_idx ≥ c.num_layers := by
          rcases h with h | h | h | ⟨c1, hc1, hge⟩
          · simp at h
          · simp at h
          · exact Or.inl h
          · simp at hc1
            subst hc1
            exact Or.inr hge
        simp [sync_network_update, hc]
  rw [hnil]
  exact ⟨rfl, rfl, rfl, rfl⟩

theorem sync_network_update_rejects_witness :
    (5 : Int) ≥ sample_net.num_layers ∧
    sync_network_update (some sample_net) 5 (some update_layer_counter) 0 = [] ∧
    run 0 (sync_network_update (some sample_net) 5 (some update_layer_counter) 0) 7
      sample_shared = some (7, sample_shared) :=
  ⟨by decide,
   (sync_network_update_rejects 0 (some sample_net) 5 (some update_layer_counter) 0 7
      sample_shared (Or.inr (Or.inr (Or.inr ⟨sample_net, rfl, by decide⟩)))).1,
   (sync_network_update_rejects 0 (some sample_net) 5 (some update_layer_counter) 0 7
      sample_shared (Or.inr (Or.inr (Or.inr ⟨sample_net, rfl, by decide⟩)))).2.2.2⟩

/-- C2: for a non-NULL context, a non-NULL work item and `0 <= layer_idx < num_layers`,
`sync_network_update` executes exactly lock `layer_mutexes[layer_idx]`, one call of
`update_func(data)`, unlock `layer_mutexes[layer_idx]`. From a state in which that mutex is
free the lock is taken and the work item starts with the mutex held by the caller; when the
work item hands the mutex back held, the unlock is taken, the call returns, and the mutex
is free on return. -/
theorem sync_network_update_locked_call (t : Tid) (c : network_sync_context)
    (layer_idx : Int) (f : Work) (data : Nat) (reg : Int) (s : Shared)
    (h0 : 0 ≤ layer_idx) (h1 : layer_idx < c.num_layers)
    (hfree : s.mutex (LockId.layer layer_idx.toNat) = some MutexState.unlocked) :
    sync_network_update (some c) layer_idx (some f) data =
      [Stmt.mutex_lock (LockId.layer layer_idx.toNat), Stmt.call f data,
       Stmt.mutex_unlock (LockId.layer layer_idx.toNat)] ∧
    call_count (sync_network_update (some c) layer_idx (some f) data) = 1 ∧
    ∃ s1, pthread_mutex_lock t (LockId.layer layer_idx.toNat) s = some s1 ∧
      s1.mutex (LockId.layer layer_idx.toNat) = some (MutexState.locked t) ∧
      ((run_work (f data) reg s1).2.mutex (LockId.layer layer_idx.toNat)
          = some (MutexState.locked t) →
        ∃ s3, pthread_mutex_unlock t (LockId.layer layer_idx.toNat)
              (run_work (f data) reg s1).2 = some s3 ∧
          s3.mutex (LockId.layer layer_idx.toNat) = some MutexState.unlocked ∧
          run t (sync_network_update (some c) layer_idx (some f) data) reg s
            = some ((run_work (f data) reg s1).1, s3)) := by
  have hbody := sync_network_update_body c layer_idx f data h0 h1
  refine ⟨hbody, by rw [hbody]; rfl, _, lock_of_free t _ s hfree,
    mutex_setMutex_same s _ _ _ hfree, ?_⟩
  intro hkeep
  refine ⟨_, unlock_of_held t _ _ hkeep, mutex_setMutex_same _ _ _ _ hkeep, ?_⟩
  rw [hbody]
  simp [run, lock_of_free t _ s hfree, unlock_of_held t _ _ hkeep]

theorem sync_network_update_locked_call_witness :
    (0 : Int) ≤ 1 ∧ (1 : Int) < sample_net.num_layers ∧
    sample_shared.mutex (LockId.layer 1) = some MutexState.unlocked ∧
    ∃ r, run 0 (sync_network_update (some sample_net) 1 (some update_layer_counter) 0) 0
        sample_shared = some r ∧
      r.2.mutex (LockId.layer 1) = some MutexState.unlocked ∧ r.2.mem 0 = 1 := by
  refine ⟨by decide, by decide, rfl, ?_⟩
  obtain ⟨-, -, s1, hl, -, hrest⟩ :=
    sync_network_update_locked_call 0 sample_net 1 update_layer_counter 0 0 sample_shared
      (by decide) (by decide) rfl
  obtain ⟨-, rfl⟩ := lock_some _ _ _ _ hl
  obtain ⟨s3, hu, hfree, hrun⟩ := hrest rfl
  obtain ⟨-, rfl⟩ := unlock_some _ _ _ _ hu
  exact ⟨_, hrun, hfree, by decide⟩

theorem sync_weight_accumulate_body (sy : sync_mutexes) (f : Work) (data : Nat) :
    sync_weight_accumulate (some sy) (some f) data =
      [Stmt.mutex_lock LockId.weight, Stmt.call f data, Stmt.mutex_unlock LockId.weight] := rfl

theorem held_after_weight_lock (m : sync_mutexes) (t : Tid)
    (h : m.weight_mutex = MutexState.unlocked) :
    sync_mutexes.held { m with weight_mutex := MutexState.locked t } t = m.held t + 1 := by
  simp only [sync_mutexes.held, List.count_cons, List.count_nil, h]
  simp
  omega

/-- C9: for a non-NULL lock set and a non-NULL work item, `sync_weight_accumulate` executes
exactly lock `weight_mutex`, one call of `accumulate_func(data)`, unlock `weight_mutex`. Its
lock operations name `weight_mutex` only, and each statement of its body leaves
`network_mutex`, `data_mutex`, `gpu_mutex` and `stats_mutex` as they were. From a state with
`weight_mutex` free the work item starts with the caller holding one mutex of the set more
than before the call (exactly one when it held none), and when the work item hands
`weight_mutex` back held the call returns with it free. -/
theorem sync_weight_accumulate_locked_call (t : Tid) (sy : sync_mutexes) (f : Work)
    (data : Nat) (reg : Int) (s : Shared)
    (hfree : s.sync.weight_mutex = MutexState.unlocked) :
    sync_weight_accumulate (some sy) (some f) data =
      [Stmt.mutex_lock LockId.weight, Stmt.call f data, Stmt.mutex_unlock LockId.weight] ∧
    call_count (sync_weight_accumulate (some sy) (some f) data) = 1 ∧
    lock_ops (sync_weight_accumulate (some sy) (some f) data) =
      [(true, LockId.weight), (false, LockId.weight)] ∧
    (∀ st ∈ sync_weight_accumulate (some sy) (some f) data,
      ∀ (reg : Int) (rest : List Stmt) (s : Shared) (r : Int × List Stmt × Shared),
        exec t st reg rest s = some r → WeightFrame s r.2.2) ∧
    ∃ s1, pthread_mutex_lock t LockId.weight s = some s1 ∧
      s1.sync.weight_mutex = MutexState.locked t ∧
      s1.sync.held t = s.sync.held t + 1 ∧
      ((run_work (f data) reg s1).2.sync.weight_mutex = MutexState.locked t →
        ∃ s3, pthread_mutex_unlock t LockId.weight (run_work (f data) reg s1).2 = some s3 ∧
          s3.sync.weight_mutex = MutexState.unlocked ∧
          run t (sync_weight_accumulate (some sy) (some f) data) reg s
            = some ((run_work (f data) reg s1).1, s3)) := by
  have hm : s.mutex LockId.weight = some MutexState.unlocked := by
    simp [Shared.mutex, hfree]
  refine ⟨rfl, rfl, rfl, ?_, _, lock_of_free t _ s hm, rfl, ?_, ?_⟩
  · intro st hst reg rest s r hr
    rw [sync_weight_accumulate_body] at hst
    simp only [List.mem_cons, List.mem_singleton, List.not_mem_nil, or_false] at hst
    rcases hst with rfl | rfl | rfl
    · simp only [exec, Option.map_eq_some'] at hr
      obtain ⟨s1, hs1, rfl⟩ := hr
      obtain ⟨-, rfl⟩ := lock_some _ _ _ _ hs1
      exact ⟨rfl, rfl, rfl, rfl, rfl, rfl, rfl⟩
    · simp only [exec, Option.some.injEq] at hr
      subst hr
      exact ⟨rfl, rfl, rfl, rfl, rfl, rfl, rfl⟩
    · simp only [exec, Option.map_eq_some'] at hr
      obtain ⟨s1, hs1, rfl⟩ := hr
      obtain ⟨-, rfl⟩ := unlock_some _ _ _ _ hs1
      exact ⟨rfl, rfl, rfl, rfl, rfl, rfl, rfl⟩
  · exact held_after_weight_lock s.sync t hfree
  · intro hkeep
    have hk : (run_work (f data) reg (s.setMutex LockId.weight (MutexState.locked t))).2.mutex
        LockId.weight = some (MutexState.locked t) := by
      simp [Shared.mutex, hkeep]
    refine ⟨_, unlock_of_held t _ _ hk, rfl, ?_⟩
    rw [sync_weight_accumulate_body]
    simp [run, lock_of_free t _ s hm, unlock_of_held t _ _ hk]

theorem sync_weight_accumulate_locked_call_witness :
    sample_shared.sync.weight_mutex = MutexState.unlocked ∧
    sample_shared.sync.held 0 = 0 ∧
    ∃ s1, pthread_mutex_lock 0 LockId.weight sample_shared = some s1 ∧ s1.sync.held 0 = 1 ∧
      ∃ r, run 0 (sync_weight_accumulate (some sample_sync) (some update_layer_counter) 4) 0
          sample_shared = some r ∧
        r.2.sync = sample_sync ∧ r.2.mem 4 = 1 := by
  refine ⟨rfl, by decide, ?_⟩
  obtain ⟨-, -, -, -, s1, hl, -, hheld, hrest⟩ :=
    sync_weight_accumulate_locked_call 0 sample_sync update_layer_counter 4 0 sample_shared rfl
  have h0 : sample_shared.sync.held 0 = 0 := by decide
  refine ⟨s1, hl, by rw [hheld, h0], ?_⟩
  obtain ⟨-, rfl⟩ := lock_some _ _ _ _ hl
  obtain ⟨s3, hu, -, hrun⟩ := hrest rfl
  obtain ⟨-, rfl⟩ := unlock_some _ _ _ _ hu
  exact ⟨_, hrun, rfl, by decide⟩

/-- C10: a NULL argument makes every entry point a no-op. `init_sync_mutexes(NULL)`,
`destroy_sync_mutexes(NULL)`, `destroy_network_sync_context(NULL)` and
`destroy_demo_sync_context(NULL)` leave the process as it was (no library call logged, no
primitive created, destroyed or freed), and `sync_weight_accumulate` with a NULL lock set or
a NULL work item executes no statement (no lock operation, no call of the work item) and
returns with the state unchanged. -/
theorem null_arguments_are_no_ops (os : OS) (t : Tid) (reg : Int) (s : Shared)
    (sy : Option sync_mutexes) (f : Option Work) (data : Nat) :
    init_sync_mutexes none os = (none, os) ∧
    destroy_sync_mutexes none os = (none, os) ∧
    destroy_network_sync_context none os = os ∧
    destroy_demo_sync_context none os = os ∧
    sync_weight_accumulate none f data = [] ∧
    sync_weight_accumulate sy none data = [] ∧
    lock_ops (sync_weight_accumulate none f data) = [] ∧
    lock_ops (sync_weight_accumulate sy none data) = [] ∧
    call_count (sync_weight_accumulate none f data) = 0 ∧
    call_count (sync_weight_accumulate sy none data) = 0 ∧
    run t (sync_weight_accumulate none f data) reg s = some (reg, s) ∧
    run t (sync_weight_accumulate sy none data) reg s = some (reg, s) := by
  have h1 : sync_weight_accumulate none f data = [] := by
    simp [sync_weight_accumulate]
  have h2 : sync_weight_accumulate sy none data = [] := by
    cases sy <;> simp [sync_weight_accumulate]
  rw [h1, h2]
  exact ⟨rfl, rfl, rfl, rfl, rfl, rfl, rfl, rfl, rfl, rfl, rfl, rfl⟩

/-! ## Lifecycle: the two loops -/

theorem next_result_ok (l : List Bool) (n : Nat) (h : ∀ b ∈ l.take (n + 1), b = true) :
    (next_result l).1 = true ∧ ∀ b ∈ (next_result l).2.take n, b = true := by
  cases l with
  | nil => simp [next_result]
  | cons a rest =>
    simp only [List.take_succ_cons, List.mem_cons, forall_eq_or_imp] at h
    exact ⟨h.1, h.2⟩

theorem init_layer_mutexes_below (n i : Nat) (arr : List MutexState) (os : OS) (j : Nat)
    (h : j < i) : (init_layer_mutexes i n arr os).1[j]? = arr[j]? := by
  induction n generalizing i arr os with
  | zero => rfl
  | succ n ih =>
    simp only [init_layer_mutexes]
    rw [ih (i + 1) _ _ (by omega), List.getElem?_set_ne (by omega)]

theorem init_layer_mutexes_frame (n i : Nat) (arr : List MutexState) (os : OS) :
    (init_layer_mutexes i n arr os).2.blocks = os.blocks ∧
    (init_layer_mutexes i n arr os).2.conds = os.conds ∧
    (init_layer_mutexes i n arr os).2.calloc_results = os.calloc_results ∧
    (init_layer_mutexes i n arr os).2.cond_init_results = os.cond_init_results := by
  induction n generalizing i arr os with
  | zero => exact ⟨rfl, rfl, rfl, rfl⟩
  | succ n ih =>
    simp only [init_layer_mutexes]
    obtain ⟨h1, h2, h3, h4⟩ := ih (i + 1) (arr.set i
      (pthread_mutex_init (LockId.layer i) (arr.getD i MutexState.uninit) os).1)
      (pthread_mutex_init (LockId.layer i) (arr.getD i MutexState.uninit) os).2
    exact ⟨h1, h2, h3, h4⟩

theorem init_layer_mutexes_all_ok (n i : Nat) (arr : List MutexState) (os : OS)
    (hok : ∀ b ∈ os.mutex_init_results.take n, b = true) :
    (init_layer_mutexes i n arr os).2.mutexes = os.mutexes + n ∧
    ∀ j, (init_layer_mutexes i n arr os).1[j]? =
      if i ≤ j ∧ j < i + n then (arr[j]?).map (fun _ => MutexState.unlocked) else arr[j]? := by
  induction n generalizing i arr os with
  | zero =>
    refine ⟨rfl, fun j => ?_⟩
    rw [if_neg (by omega)]
    rfl
  | succ n ih =>
    obtain ⟨h1, h2⟩ := next_result_ok _ n hok
    have hr1 : (pthread_mutex_init (LockId.layer i) (arr.getD i MutexState.uninit) os).1
        = MutexState.unlocked := by simp [pthread_mutex_init, h1]
    have hr2 : (pthread_mutex_init (LockId.layer i) (arr.getD i MutexState.uninit) os).2.mutexes
        = os.mutexes + 1 := by simp [pthread_mutex_init, h1]
    obtain ⟨ihm, ihg⟩ := ih (i + 1) (arr.set i
      (pthread_mutex_init (LockId.layer i) (arr.getD i MutexState.uninit) os).1)
      (pthread_mutex_init (LockId.layer i) (arr.getD i MutexState.uninit) os).2
      (by simpa [pthread_mutex_init] using h2)
    simp only [init_layer_mutexes]
    refine ⟨by rw [ihm, hr2]; omega, fun j => ?_⟩
    rw [ihg j, hr1]
    by_cases hji : j = i
    · subst hji
      have hc1 : ¬ (j + 1 ≤ j ∧ j < j + 1 + n) := by omega
      have hc2 : j ≤ j ∧ j < j + (n + 1) := by omega
      rw [if_neg hc1, if_pos hc2, List.getElem?_set_self']
      rfl
    · rw [List.getElem?_set_ne (Ne.symm hji)]
      by_cases hc : i ≤ j ∧ j < i + (n + 1)
      · have hc1 : i + 1 ≤ j ∧ j < i + 1 + n := by omega
        simp [hc, hc1]
      · have hc1 : ¬ (i + 1 ≤ j ∧ j < i + 1 + n) := by omega
        simp [hc, hc1]

theorem free_mutexes_in_set (arr : List MutexState) (i k n : Nat) (m : MutexState)
    (h : i < k) : free_mutexes_in (arr.set i m) k n = free_mutexes_in arr k n := by
  induction n generalizing k with
  | zero => rfl
  | succ n ih =>
    simp only [free_mutexes_in]
    rw [ih (k + 1) (by omega)]
    have : (arr.set i m).getD k MutexState.uninit = arr.getD k MutexState.uninit := by
      simp [List.getD_eq_getElem?_getD, List.getElem?_set_ne (Nat.ne_of_lt h)]
    rw [this]

theorem init_layer_mutexes_count (n i : Nat) (arr : List MutexState) (os : OS)
    (hlen : i + n ≤ arr.length)
    (hraw : ∀ j, i ≤ j → j < i + n → arr[j]? ≠ some MutexState.unlocked) :
    (init_layer_mutexes i n arr os).2.mutexes =
      os.mutexes + free_mutexes_in (init_layer_mutexes i n arr os).1 i n := by
  induction n generalizing i arr os with
  | zero => rfl
  | succ n ih =>
    simp only [init_layer_mutexes, free_mutexes_in]
    have hi : i < arr.length := by omega
    have hrec := ih (i + 1) (arr.set i
      (pthread_mutex_init (LockId.layer i) (arr.getD i MutexState.uninit) os).1)
      (pthread_mutex_init (LockId.layer i) (arr.getD i MutexState.uninit) os).2
      (by simp; omega)
      (fun j h1 h2 => by
        rw [List.getElem?_set_ne (by omega)]
        exact hraw j (by omega) (by omega))
    rw [hrec]
    have hbelow := init_layer_mutexes_below n (i + 1) (arr.set i
      (pthread_mutex_init (LockId.layer i) (arr.getD i MutexState.uninit) os).1)
      (pthread_mutex_init (LockId.layer i) (arr.getD i MutexState.uninit) os).2 i (by omega)
    rw [List.getElem?_set_self hi] at hbelow
    have hget : (init_layer_mutexes (i + 1) n (arr.set i
        (pthread_mutex_init (LockId.layer i) (arr.getD i MutexState.uninit) os).1)
        (pthread_mutex_init (LockId.layer i) (arr.getD i MutexState.uninit) os).2).1.getD i
          MutexState.uninit
        = (pthread_mutex_init (LockId.layer i) (arr.getD i MutexState.uninit) os).1 := by
      rw [List.getD_eq_getElem?_getD, hbelow]
      rfl
    simp only [hget]
    have hne : arr.getD i MutexState.uninit ≠ MutexState.unlocked := by
      intro hcon
      apply hraw i (Nat.le_refl i) (by omega)
      rw [List.getD_eq_getElem?_getD, List.getElem?_eq_getElem hi] at hcon
      rw [List.getElem?_eq_getElem hi]
      simpa using hcon
    by_cases hok : (next_result os.mutex_init_results).1 = true
    · simp [pthread_mutex_init, hok]
      omega
    · simp [pthread_mutex_init, hok]
      simpa [List.getD_eq_getElem?_getD] using hne

theorem pthread_mutex_destroy_effect (id : LockId) (m : MutexState) (os : OS) :
    (pthread_mutex_destroy id m os).2.blocks = os.blocks ∧
    (pthread_mutex_destroy id m os).2.conds = os.conds ∧
    (pthread_mutex_destroy id m os).2.mutexes =
      os.mutexes - (if m = MutexState.unlocked then 1 else 0) ∧
    (pthread_mutex_destroy id m os).2.log = os.log ++ [Event.mutex_destroy id] := by
  refine ⟨rfl, rfl, ?_, rfl⟩
  by_cases h : m = MutexState.unlocked <;> simp [pthread_mutex_destroy, h]

theorem destroy_layer_mutexes_frame (n i : Nat) (arr : List MutexState) (os : OS) :
    (destroy_layer_mutexes i n arr os).2.blocks = os.blocks ∧
    (destroy_layer_mutexes i n arr os).2.conds = os.conds ∧
    (destroy_layer_mutexes i n arr os).2.mutexes = os.mutexes - free_mutexes_in arr i n ∧
    (destroy_layer_mutexes i n arr os).2.log =
      os.log ++ (List.range' i n).map (fun j => Event.mutex_destroy (LockId.layer j)) := by
  induction n generalizing i arr os with
  | zero => simp [destroy_layer_mutexes, free_mutexes_in]
  | succ n ih =>
    obtain ⟨h1, h2, h3, h4⟩ := ih (i + 1) (arr.set i
      (pthread_mutex_destroy (LockId.layer i) (arr.getD i MutexState.uninit) os).1)
      (pthread_mutex_destroy (LockId.layer i) (arr.getD i MutexState.uninit) os).2
    simp only [destroy_layer_mutexes, free_mutexes_in]
    obtain ⟨e1, e2, e3, e4⟩ :=
      pthread_mutex_destroy_effect (LockId.layer i) (arr.getD i MutexState.uninit) os
    rw [h1, h2, h3, h4, free_mutexes_in_set _ _ _ _ _ (by omega : i < i + 1), e1, e2, e3, e4]
    refine ⟨rfl, rfl, by omega, ?_⟩
    simp [List.range'_succ]

/-! ## Lifecycle: creation and destruction -/

theorem calloc_effect (b : Block) (nmemb : Int) (os : OS) :
    (calloc b nmemb os).2.mutexes = os.mutexes ∧
    (calloc b nmemb os).2.conds = os.conds ∧
    (calloc b nmemb os).2.mutex_init_results = os.mutex_init_results ∧
    (calloc b nmemb os).2.log = os.log ++ [Event.calloc b (calloc b nmemb os).1] ∧
    (calloc b nmemb os).2.blocks = os.blocks + (if (calloc b nmemb os).1 then 1 else 0) := by
  refine ⟨rfl, rfl, rfl, rfl, ?_⟩
  by_cases h : (calloc b nmemb os).1 = true
  · have h2 := h
    simp only [calloc] at h2
    simp [calloc, h2]
  · have h2 := h
    simp only [calloc] at h2
    simp [calloc, h2]

/-- C4: for every `N >= 0`, when both allocations and the `N` mutex initialisations
succeed, `create_network_sync_context(N)` returns a non-NULL context with
`num_layers = N`, an array of exactly `N` initialised free mutexes, `active_threads = 0`
and `seen_samples = 0`; the process then holds `N` mutexes and two heap blocks more than
before. -/
theorem create_network_sync_context_ok (N : Int) (os : OS) (_hN : 0 ≤ N)
    (hctx : (calloc Block.net_ctx 1 os).1 = true)
    (harr : (calloc Block.layer_array N (calloc Block.net_ctx 1 os).2).1 = true)
    (hinit : ∀ b ∈ os.mutex_init_results.take N.toNat, b = true) :
    ∃ ctx, (create_network_sync_context N os).1 = some ctx ∧
      ctx.num_layers = N ∧
      ctx.layer_mutexes = some (List.replicate N.toNat MutexState.unlocked) ∧
      ctx.active_threads = 0 ∧ ctx.seen_samples = 0 ∧
      (create_network_sync_context N os).2.mutexes = os.mutexes + N.toNat ∧
      (create_network_sync_context N os).2.blocks = os.blocks + 2 := by
  have hres : (calloc Block.layer_array N (calloc Block.net_ctx 1 os).2).2.mutex_init_results
      = os.mutex_init_results := rfl
  obtain ⟨hm, hg⟩ := init_layer_mutexes_all_ok N.toNat 0
    (List.replicate N.toNat MutexState.uninit)
    (calloc Block.layer_array N (calloc Block.net_ctx 1 os).2).2 (by rw [hres]; exact hinit)
  obtain ⟨hb, -, -, -⟩ := init_layer_mutexes_frame N.toNat 0
    (List.replicate N.toNat MutexState.uninit)
    (calloc Block.layer_array N (calloc Block.net_ctx 1 os).2).2
  have hlist : (init_layer_mutexes 0 N.toNat (List.replicate N.toNat MutexState.uninit)
      (calloc Block.layer_array N (calloc Block.net_ctx 1 os).2).2).1
      = List.replicate N.toNat MutexState.unlocked := by
    apply List.ext_getElem?
    intro j
    rw [hg j]
    by_cases hj : j < N.toNat
    · have hc : 0 ≤ j ∧ j < 0 + N.toNat := by omega
      simp [hc, List.getElem?_replicate, hj]
    · have hc : ¬ (0 ≤ j ∧ j < 0 + N.toNat) := by omega
      simp [hc, List.getElem?_replicate, hj]
  refine ⟨{ layer_mutexes := some (List.replicate N.toNat MutexState.unlocked),
            num_layers := N, active_threads := 0, seen_samples := 0 }, ?_, rfl, rfl, rfl, rfl,
          ?_, ?_⟩
  · simp [create_network_sync_context, hctx, harr, hlist]
  · simp only [create_network_sync_context, hctx, harr, Bool.not_true, Bool.false_eq_true,
      if_false]
    rw [hm]
    rfl
  · simp only [create_network_sync_context, hctx, harr, Bool.not_true, Bool.false_eq_true,
      if_false]
    rw [hb, (calloc_effect _ _ _).2.2.2.2, (calloc_effect _ _ _).2.2.2.2, hctx, harr]
    simp

theorem create_network_sync_context_ok_witness :
    (0 : Int) ≤ 3 ∧
    (calloc Block.net_ctx 1 fresh_os).1 = true ∧
    (calloc Block.layer_array 3 (calloc Block.net_ctx 1 fresh_os).2).1 = true ∧
    ∃ ctx, (create_network_sync_context 3 fresh_os).1 = some ctx ∧ ctx = sample_net := by
  refine ⟨by decide, by decide, by decide, ?_⟩
  obtain ⟨ctx, h1, h2, h3, h4, h5, -⟩ :=
    create_network_sync_context_ok 3 fresh_os (by decide) (by decide) (by decide)
      (by simp [fresh_os])
  refine ⟨ctx, h1, ?_⟩
  cases ctx
  simp only [sample_net] at *
  simp_all

theorem create_failure_effect (N : Int) (os : OS)
    (h : (calloc Block.net_ctx 1 os).1 = false ∨
      (calloc Block.layer_array N (calloc Block.net_ctx 1 os).2).1 = false) :
    (create_network_sync_context N os).1 = none ∧
    (create_network_sync_context N os).2.blocks = os.blocks ∧
    (create_network_sync_context N os).2.mutexes = os.mutexes ∧
    (create_network_sync_context N os).2.conds = os.conds ∧
    (create_network_sync_context N os).2.mutex_init_results = os.mutex_init_results ∧
    ((create_network_sync_context N os).2.log = os.log ++ [Event.calloc Block.net_ctx false] ∨
     (create_network_sync_context N os).2.log = os.log ++
      [Event.calloc Block.net_ctx true, Event.calloc Block.layer_array false,
       Event.free Block.net_ctx]) := by
  by_cases hctx : (calloc Block.net_ctx 1 os).1 = true
  · have harr : (calloc Block.layer_array N (calloc Block.net_ctx 1 os).2).1 = false := by
      rcases h with h | h
      · rw [hctx] at h
        exact absurd h (by simp)
      · exact h
    have e1 := calloc_effect Block.net_ctx 1 os
    have e2 := calloc_effect Block.layer_array N (calloc Block.net_ctx 1 os).2
    rw [hctx] at e1
    rw [harr] at e2
    have hc : create_network_sync_context N os =
        (none, free Block.net_ctx (calloc Block.layer_array N (calloc Block.net_ctx 1 os).2).2) := by
      simp [create_network_sync_context, hctx, harr]
    rw [hc]
    refine ⟨rfl, ?_, ?_, ?_, ?_, Or.inr ?_⟩
    · simp only [free]
      rw [e2.2.2.2.2, e1.2.2.2.2]
      simp
    · simp only [free]
      rw [e2.1, e1.1]
    · simp only [free]
      rw [e2.2.1, e1.2.1]
    · rfl
    · simp only [free]
      rw [e2.2.2.2.1, e1.2.2.2.1]
      simp
  · have hf : (calloc Block.net_ctx 1 os).1 = false := by simpa using hctx
    have e1 := calloc_effect Block.net_ctx 1 os
    rw [hf] at e1
    have hc : create_network_sync_context N os = (none, (calloc Block.net_ctx 1 os).2) := by
      simp [create_network_sync_context, hf]
    rw [hc]
    exact ⟨rfl, by rw [e1.2.2.2.2]; simp, e1.1, e1.2.1, rfl, Or.inl e1.2.2.2.1⟩

/-- C5, as the code has it: when the allocation of the context or of the mutex array fails,
`create_network_sync_context` returns NULL and leaves nothing behind: the process holds as
many heap blocks, mutexes and condition variables as before, a context allocated before the
failed array allocation is freed, and no `pthread_mutex_init` has been called. -/
theorem create_network_sync_context_alloc_failure (N : Int) (os : OS)
    (h : (calloc Block.net_ctx 1 os).1 = false ∨
      (calloc Block.layer_array N (calloc Block.net_ctx 1 os).2).1 = false) :
    (create_network_sync_context N os).1 = none ∧
    (create_network_sync_context N os).2.blocks = os.blocks ∧
    (create_network_sync_context N os).2.mutexes = os.mutexes ∧
    (create_network_sync_context N os).2.conds = os.conds ∧
    (create_network_sync_context N os).2.mutex_init_results = os.mutex_init_results ∧
    ((create_network_sync_context N os).2.log = os.log ++ [Event.calloc Block.net_ctx false] ∨
     (create_network_sync_context N os).2.log = os.log ++
      [Event.calloc Block.net_ctx true, Event.calloc Block.layer_array false,
       Event.free Block.net_ctx]) :=
  create_failure_effect N os h

theorem create_network_sync_context_alloc_failure_witness :
    (calloc Block.layer_array 2 (calloc Block.net_ctx 1 os_array_fails).2).1 = false ∧
    (create_network_sync_context 2 os_array_fails).1 = none ∧
    (create_network_sync_context 2 os_array_fails).2.blocks = os_array_fails.blocks :=
  ⟨by decide,
   (create_network_sync_context_alloc_failure 2 os_array_fails (Or.inr (by decide))).1,
   (create_network_sync_context_alloc_failure 2 os_array_fails (Or.inr (by decide))).2.1⟩

/-- C5, counterexample to the claim as stated: the initialisation of the only layer mutex
fails (the log records the failed `pthread_mutex_init`), and `create_network_sync_context(1)`
still returns a non-NULL context, its mutex not initialised, with both heap blocks left
allocated. -/
theorem create_network_sync_context_init_failure_undetected :
    Event.mutex_init (LockId.layer 0) false ∈ (create_network_sync_context 1 os_init_fails).2.log ∧
    (create_network_sync_context 1 os_init_fails).1 =
      some { layer_mutexes := some [MutexState.uninit], num_layers := 1,
             active_threads := 0, seen_samples := 0 } ∧
    (create_network_sync_context 1 os_init_fails).2.blocks = 2 := by
  decide

theorem destroy_log (c : network_sync_context) (arr : List MutexState) (os : OS)
    (harr : c.layer_mutexes = some arr) :
    (destroy_network_sync_context (some c) os).log = os.log ++ destroy_events c.num_layers.toNat := by
  simp only [destroy_network_sync_context, harr, free, destroy_events]
  rw [(destroy_layer_mutexes_frame _ 0 arr os).2.2.2, List.range_eq_range']
  simp

/-- C6: for a non-NULL context with `num_layers = N` and its mutex array,
`destroy_network_sync_context` makes exactly these library calls, in this order:
`pthread_mutex_destroy` on the layer mutexes `0, 1, ..., N-1`, then `free` of the mutex
array, then `free` of the context. Each layer mutex below `N` is destroyed exactly once and
no other mutex is destroyed. On a NULL context the function does nothing. -/
theorem destroy_network_sync_context_order (c : network_sync_context)
    (arr : List MutexState) (os : OS) (N : Nat)
    (hN : c.num_layers = N) (harr : c.layer_mutexes = some arr) :
    (destroy_network_sync_context (some c) os).log =
      os.log ++ ((List.range N).map (fun i => Event.mutex_destroy (LockId.layer i))
        ++ [Event.free Block.layer_array, Event.free Block.net_ctx]) ∧
    (∀ i, i < N →
      ((List.range N).map (fun i => Event.mutex_destroy (LockId.layer i))
        ++ [Event.free Block.layer_array, Event.free Block.net_ctx]).count
          (Event.mutex_destroy (LockId.layer i)) = 1) ∧
    (∀ m, (∀ i, i < N → m ≠ LockId.layer i) →
      ((List.range N).map (fun i => Event.mutex_destroy (LockId.layer i))
        ++ [Event.free Block.layer_array, Event.free Block.net_ctx]).count
          (Event.mutex_destroy m) = 0) ∧
    destroy_network_sync_context none os = os := by
  have hinj : Function.Injective (fun i => Event.mutex_destroy (LockId.layer i)) := by
    intro a b hab
    simpa using hab
  refine ⟨?_, ?_, ?_, rfl⟩
  · rw [destroy_log c arr os harr, hN]
    rfl
  · intro i hi
    rw [List.count_append, List.count_map_of_injective _ _ hinj,
      List.count_eq_one_of_mem (List.nodup_range N) (List.mem_range.mpr hi)]
    simp
  · intro m hm
    apply List.count_eq_zero_of_not_mem
    simp only [List.mem_append, List.mem_map, List.mem_range, List.mem_cons,
      List.mem_singleton, List.not_mem_nil, or_false, not_or]
    refine ⟨?_, by simp, by simp⟩
    rintro ⟨i, hi, heq⟩
    exact hm i hi (by simpa using heq.symm)

theorem destroy_network_sync_context_order_witness :
    sample_net.num_layers = (3 : Nat) ∧
    (destroy_network_sync_context (some sample_net) fresh_os).log =
      [Event.mutex_destroy (LockId.layer 0), Event.mutex_destroy (LockId.layer 1),
       Event.mutex_destroy (LockId.layer 2), Event.free Block.layer_array,
       Event.free Block.net_ctx] :=
  ⟨rfl, (destroy_network_sync_context_order sample_net _ fresh_os 3 rfl rfl).1⟩

/-! ## Lifecycle: resource balance -/

theorem network_cycle_balance (N : Int) (os : OS) :
    (network_cycle N os).blocks = os.blocks ∧
    (network_cycle N os).mutexes = os.mutexes ∧
    (network_cycle N os).conds = os.conds := by
  by_cases hok : (calloc Block.net_ctx 1 os).1 = true ∧
      (calloc Block.layer_array N (calloc Block.net_ctx 1 os).2).1 = true
  · obtain ⟨hctx, harr⟩ := hok
    have e1 := calloc_effect Block.net_ctx 1 os
    have e2 := calloc_effect Block.layer_array N (calloc Block.net_ctx 1 os).2
    rw [hctx] at e1
    rw [harr] at e2
    have hc : create_network_sync_context N os =
        (some { layer_mutexes := some (init_layer_mutexes 0 N.toNat
                  (List.replicate N.toNat MutexState.uninit)
                  (calloc Block.layer_array N (calloc Block.net_ctx 1 os).2).2).1,
                num_layers := N, active_threads := 0, seen_samples := 0 },
         (init_layer_mutexes 0 N.toNat (List.replicate N.toNat MutexState.uninit)
            (calloc Block.layer_array N (calloc Block.net_ctx 1 os).2).2).2) := by
      simp [create_network_sync_context, hctx, harr]
    have hi := init_layer_mutexes_frame N.toNat 0 (List.replicate N.toNat MutexState.uninit)
      (calloc Block.layer_array N (calloc Block.net_ctx 1 os).2).2
    have hcount := init_layer_mutexes_count N.toNat 0
      (List.replicate N.toNat MutexState.uninit)
      (calloc Block.layer_array N (calloc Block.net_ctx 1 os).2).2 (by simp)
      (fun j _ _ => by
        rw [List.getElem?_replicate]
        split <;> simp)
    have hd := destroy_layer_mutexes_frame N.toNat 0
      (init_layer_mutexes 0 N.toNat (List.replicate N.toNat MutexState.uninit)
        (calloc Block.layer_array N (calloc Block.net_ctx 1 os).2).2).1
      (init_layer_mutexes 0 N.toNat (List.replicate N.toNat MutexState.uninit)
        (calloc Block.layer_array N (calloc Block.net_ctx 1 os).2).2).2
    simp only [network_cycle, hc, destroy_network_sync_context, free]
    rw [hd.1, hd.2.1, hd.2.2.1, hi.1, hi.2.1, hcount, e2.2.2.2.2, e2.1, e2.2.1,
      e1.2.2.2.2, e1.1, e1.2.1]
    simp
  · have hfail : (calloc Block.net_ctx 1 os).1 = false ∨
        (calloc Block.layer_array N (calloc Block.net_ctx 1 os).2).1 = false := by
      by_cases h1 : (calloc Block.net_ctx 1 os).1 = true
      · right
        simpa using fun h2 => hok ⟨h1, h2⟩
      · left
        simpa using h1
    obtain ⟨h1, h2, h3, h4, -, -⟩ := create_failure_effect N os hfail
    simp only [network_cycle, h1, destroy_network_sync_context]
    exact ⟨h2, h3, h4⟩

theorem iterate_balance (f : OS → OS)
    (hf : ∀ os, (f os).blocks = os.blocks ∧ (f os).mutexes = os.mutexes ∧
      (f os).conds = os.conds) (n : Nat) (os : OS) :
    (f^[n] os).blocks = os.blocks ∧ (f^[n] os).mutexes = os.mutexes ∧
    (f^[n] os).conds = os.conds := by
  induction n with
  | zero => exact ⟨rfl, rfl, rfl⟩
  | succ n ih =>
    rw [Function.iterate_succ_apply']
    obtain ⟨h1, h2, h3⟩ := hf (f^[n] os)
    exact ⟨h1.trans ih.1, h2.trans ih.2.1, h3.trans ih.2.2⟩

theorem pthread_mutex_init_effect (id : LockId) (m : MutexState) (os : OS)
    (hm : m.live = false) :
    (pthread_mutex_init id m os).2.blocks = os.blocks ∧
    (pthread_mutex_init id m os).2.conds = os.conds ∧
    (pthread_mutex_init id m os).2.mutexes =
      os.mutexes + (if (pthread_mutex_init id m os).1 = MutexState.unlocked then 1 else 0) ∧
    (pthread_mutex_init id m os).2.log =
      os.log ++ [Event.mutex_init id (next_result os.mutex_init_results).1] ∧
    ∀ os1, (pthread_mutex_destroy id (pthread_mutex_init id m os).1 os1).1.live = false := by
  refine ⟨rfl, rfl, ?_, rfl, fun os1 => ?_⟩
  · by_cases h : (next_result os.mutex_init_results).1 = true
    · simp [pthread_mutex_init, h]
    · have hne : m ≠ MutexState.unlocked := by
        intro hcon
        rw [hcon] at hm
        exact absurd hm (by decide)
      simp [pthread_mutex_init, h, hne]
  · by_cases h : (next_result os.mutex_init_results).1 = true
    · simp [pthread_mutex_init, pthread_mutex_destroy, h, MutexState.live]
    · have hne : m ≠ MutexState.unlocked := by
        intro hcon
        rw [hcon] at hm
        exact absurd hm (by decide)
      simp [pthread_mutex_init, pthread_mutex_destroy, h, hne, hm]

theorem pthread_cond_effect (id : CondId) (os os1 : OS) :
    (pthread_cond_init id CondState.uninit os).2.blocks = os.blocks ∧
    (pthread_cond_init id CondState.uninit os).2.mutexes = os.mutexes ∧
    (pthread_cond_init id CondState.uninit os).2.conds =
      os.conds + (if (pthread_cond_init id CondState.uninit os).1 = CondState.ready
        then 1 else 0) ∧
    (pthread_cond_destroy id (pthread_cond_init id CondState.uninit os).1 os1).2.conds =
      os1.conds - (if (pthread_cond_init id CondState.uninit os).1 = CondState.ready
        then 1 else 0) := by
  refine ⟨rfl, rfl, ?_, ?_⟩
  · by_cases h : (next_result os.cond_init_results).1 = true <;> simp [pthread_cond_init, h]
  · by_cases h : (next_result os.cond_init_results).1 = true <;>
      simp [pthread_cond_init, pthread_cond_destroy, h]

theorem pthread_cond_destroy_effect (id : CondId) (c : CondState) (os : OS) :
    (pthread_cond_destroy id c os).2.blocks = os.blocks ∧
    (pthread_cond_destroy id c os).2.mutexes = os.mutexes ∧
    (pthread_cond_destroy id c os).2.conds =
      os.conds - (if c = CondState.ready then 1 else 0) := by
  refine ⟨rfl, rfl, ?_⟩
  by_cases h : c = CondState.ready <;> simp [pthread_cond_destroy, h]

theorem demo_cycle_balance (os : OS) :
    (demo_cycle os).blocks = os.blocks ∧
    (demo_cycle os).mutexes = os.mutexes ∧
    (demo_cycle os).conds = os.conds := by
  have e1 := calloc_effect Block.demo_ctx 1 os
  by_cases hctx : (calloc Block.demo_ctx 1 os).1 = true
  · rw [hctx] at e1
    obtain ⟨em, ec, -, -, eb⟩ := e1
    have hu : MutexState.uninit.live = false := rfl
    simp only [demo_cycle, create_demo_sync_context, destroy_demo_sync_context, hctx,
      Bool.not_true, Bool.false_eq_true, if_false, free]
    generalize (calloc Block.demo_ctx 1 os).2 = o0 at em ec eb ⊢
    obtain ⟨a1, a2, a3, -, -⟩ := pthread_mutex_init_effect LockId.buffer MutexState.uninit o0 hu
    generalize pthread_mutex_init LockId.buffer MutexState.uninit o0 = r1 at a1 a2 a3 ⊢
    obtain ⟨b1, b2, b3, -, -⟩ :=
      pthread_mutex_init_effect LockId.prediction MutexState.uninit r1.2 hu
    generalize pthread_mutex_init LockId.prediction MutexState.uninit r1.2 = r2 at b1 b2 b3 ⊢
    obtain ⟨c1, c2, c3, -, -⟩ :=
      pthread_mutex_init_effect LockId.display MutexState.uninit r2.2 hu
    generalize pthread_mutex_init LockId.display MutexState.uninit r2.2 = r3 at c1 c2 c3 ⊢
    obtain ⟨d1, d2, d3, -⟩ := pthread_cond_effect CondId.buffer_ready r3.2 r3.2
    generalize pthread_cond_init CondId.buffer_ready CondState.uninit r3.2 = r4 at d1 d2 d3 ⊢
    obtain ⟨f1, f2, f3, -⟩ := pthread_cond_effect CondId.detection_done r4.2 r4.2
    generalize pthread_cond_init CondId.detection_done CondState.uninit r4.2 = r5 at f1 f2 f3 ⊢
    obtain ⟨g1, g2, g3, -⟩ := pthread_mutex_destroy_effect LockId.buffer r1.1 r5.2
    generalize pthread_mutex_destroy LockId.buffer r1.1 r5.2 = q1 at g1 g2 g3 ⊢
    obtain ⟨h1, h2, h3, -⟩ := pthread_mutex_destroy_effect LockId.prediction r2.1 q1.2
    generalize pthread_mutex_destroy LockId.prediction r2.1 q1.2 = q2 at h1 h2 h3 ⊢
    obtain ⟨k1, k2, k3, -⟩ := pthread_mutex_destroy_effect LockId.display r3.1 q2.2
    generalize pthread_mutex_destroy LockId.display r3.1 q2.2 = q3 at k1 k2 k3 ⊢
    obtain ⟨l1, l2, l3⟩ := pthread_cond_destroy_effect CondId.buffer_ready r4.1 q3.2
    generalize pthread_cond_destroy CondId.buffer_ready r4.1 q3.2 = q4 at l1 l2 l3 ⊢
    obtain ⟨m1, m2, m3⟩ := pthread_cond_destroy_effect CondId.detection_done r5.1 q4.2
    generalize pthread_cond_destroy CondId.detection_done r5.1 q4.2 = q5 at m1 m2 m3 ⊢
    simp only [if_true] at eb
    refine ⟨by omega, by omega, by omega⟩
  · have hf : (calloc Block.demo_ctx 1 os).1 = false := by simpa using hctx
    rw [hf] at e1
    simp only [demo_cycle, create_demo_sync_context, hf, Bool.not_false, if_true,
      destroy_demo_sync_context]
    exact ⟨by rw [e1.2.2.2.2]; simp, e1.1, e1.2.1⟩

theorem sync_live_zero (sy : sync_mutexes) :
    sy.live = 0 ↔ sy.network_mutex.live = false ∧ sy.weight_mutex.live = false ∧
      sy.data_mutex.live = false ∧ sy.gpu_mutex.live = false ∧ sy.stats_mutex.live = false := by
  simp [sync_mutexes.live, List.countP_eq_zero]

theorem sync_cycle_balance (sy : sync_mutexes) (os : OS) (h : sy.live = 0) :
    ∃ sy1, (sync_cycle (some sy, os)).1 = some sy1 ∧ sy1.live = 0 ∧
      (sync_cycle (some sy, os)).2.blocks = os.blocks ∧
      (sync_cycle (some sy, os)).2.mutexes = os.mutexes ∧
      (sync_cycle (some sy, os)).2.conds = os.conds := by
  obtain ⟨hn, hw, hd, hg, hs⟩ := (sync_live_zero sy).mp h
  simp only [sync_cycle, init_sync_mutexes, destroy_sync_mutexes]
  refine ⟨_, rfl, ?_, ?_⟩
  · rw [sync_live_zero]
    exact ⟨(pthread_mutex_init_effect LockId.network _ _ hn).2.2.2.2 os,
      (pthread_mutex_init_effect LockId.weight _ _ hw).2.2.2.2 os,
      (pthread_mutex_init_effect LockId.data _ _ hd).2.2.2.2 os,
      (pthread_mutex_init_effect LockId.gpu _ _ hg).2.2.2.2 os,
      (pthread_mutex_init_effect LockId.stats _ _ hs).2.2.2.2 os⟩
  · obtain ⟨a1, a2, a3, -, -⟩ := pthread_mutex_init_effect LockId.network _ os hn
    generalize pthread_mutex_init LockId.network sy.network_mutex os = r1 at a1 a2 a3 ⊢
    obtain ⟨b1, b2, b3, -, -⟩ := pthread_mutex_init_effect LockId.weight _ r1.2 hw
    generalize pthread_mutex_init LockId.weight sy.weight_mutex r1.2 = r2 at b1 b2 b3 ⊢
    obtain ⟨c1, c2, c3, -, -⟩ := pthread_mutex_init_effect LockId.data _ r2.2 hd
    generalize pthread_mutex_init LockId.data sy.data_mutex r2.2 = r3 at c1 c2 c3 ⊢
    obtain ⟨d1, d2, d3, -, -⟩ := pthread_mutex_init_effect LockId.gpu _ r3.2 hg
    generalize pthread_mutex_init LockId.gpu sy.gpu_mutex r3.2 = r4 at d1 d2 d3 ⊢
    obtain ⟨f1, f2, f3, -, -⟩ := pthread_mutex_init_effect LockId.stats _ r4.2 hs
    generalize pthread_mutex_init LockId.stats sy.stats_mutex r4.2 = r5 at f1 f2 f3 ⊢
    obtain ⟨g1, g2, g3, -⟩ := pthread_mutex_destroy_effect LockId.network r1.1 r5.2
    generalize pthread_mutex_destroy LockId.network r1.1 r5.2 = q1 at g1 g2 g3 ⊢
    obtain ⟨h1, h2, h3, -⟩ := pthread_mutex_destroy_effect LockId.weight r2.1 q1.2
    generalize pthread_mutex_destroy LockId.weight r2.1 q1.2 = q2 at h1 h2 h3 ⊢
    obtain ⟨k1, k2, k3, -⟩ := pthread_mutex_destroy_effect LockId.data r3.1 q2.2
    generalize pthread_mutex_destroy LockId.data r3.1 q2.2 = q3 at k1 k2 k3 ⊢
    obtain ⟨l1, l2, l3, -⟩ := pthread_mutex_destroy_effect LockId.gpu r4.1 q3.2
    generalize pthread_mutex_destroy LockId.gpu r4.1 q3.2 = q4 at l1 l2 l3 ⊢
    obtain ⟨m1, m2, m3, -⟩ := pthread_mutex_destroy_effect LockId.stats r5.1 q4.2
    generalize pthread_mutex_destroy LockId.stats r5.1 q4.2 = q5 at m1 m2 m3 ⊢
    refine ⟨by omega, by omega, by omega⟩

theorem sync_cycle_iterate (n : Nat) (sy : sync_mutexes) (os : OS) (h : sy.live = 0) :
    ∃ sy1, (sync_cycle^[n] (some sy, os)).1 = some sy1 ∧ sy1.live = 0 ∧
      (sync_cycle^[n] (some sy, os)).2.blocks = os.blocks ∧
      (sync_cycle^[n] (some sy, os)).2.mutexes = os.mutexes ∧
      (sync_cycle^[n] (some sy, os)).2.conds = os.conds := by
  induction n with
  | zero => exact ⟨sy, rfl, h, rfl, rfl, rfl⟩
  | succ n ih =>
    obtain ⟨sy1, e1, hl, hb, hm, hc⟩ := ih
    rw [Function.iterate_succ_apply']
    have hp : sync_cycle^[n] (some sy, os) = (some sy1, (sync_cycle^[n] (some sy, os)).2) := by
      rw [← e1]
    rw [hp]
    obtain ⟨sy2, e2, hl2, hb2, hm2, hc2⟩ :=
      sync_cycle_balance sy1 (sync_cycle^[n] (some sy, os)).2 hl
    exact ⟨sy2, e2, hl2, hb2.trans hb, hm2.trans hm, hc2.trans hc⟩

theorem demo_cycle_log (os : OS) (hctx : (calloc Block.demo_ctx 1 os).1 = true) :
    (demo_cycle os).log = os.log ++
      [Event.calloc Block.demo_ctx true,
       Event.mutex_init LockId.buffer (next_result os.mutex_init_results).1,
       Event.mutex_init LockId.prediction (next_result (next_result os.mutex_init_results).2).1,
       Event.mutex_init LockId.display
        (next_result (next_result (next_result os.mutex_init_results).2).2).1,
       Event.cond_init CondId.buffer_ready (next_result os.cond_init_results).1,
       Event.cond_init CondId.detection_done
        (next_result (next_result os.cond_init_results).2).1,
       Event.mutex_destroy LockId.buffer, Event.mutex_destroy LockId.prediction,
       Event.mutex_destroy LockId.display,
       Event.cond_destroy CondId.buffer_ready, Event.cond_destroy CondId.detection_done,
       Event.free Block.demo_ctx] := by
  have e1 := (calloc_effect Block.demo_ctx 1 os).2.2.2.1
  rw [hctx] at e1
  simp only [demo_cycle, create_demo_sync_context, destroy_demo_sync_context, hctx,
    Bool.not_true, Bool.false_eq_true, if_false, free, pthread_mutex_init,
    pthread_mutex_destroy, pthread_cond_init, pthread_cond_destroy, e1, List.append_assoc,
    List.cons_append, List.nil_append]
  rfl

theorem sync_cycle_log (sy : sync_mutexes) (os : OS) :
    (sync_cycle (some sy, os)).2.log = os.log ++
      [Event.mutex_init LockId.network (next_result os.mutex_init_results).1,
       Event.mutex_init LockId.weight (next_result (next_result os.mutex_init_results).2).1,
       Event.mutex_init LockId.data
        (next_result (next_result (next_result os.mutex_init_results).2).2).1,
       Event.mutex_init LockId.gpu
        (next_result (next_result (next_result (next_result os.mutex_init_results).2).2).2).1,
       Event.mutex_init LockId.stats
        (next_result (next_result (next_result (next_result
          (next_result os.mutex_init_results).2).2).2).2).1,
       Event.mutex_destroy LockId.network, Event.mutex_destroy LockId.weight,
       Event.mutex_destroy LockId.data, Event.mutex_destroy LockId.gpu,
       Event.mutex_destroy LockId.stats] := by
  simp only [sync_cycle, init_sync_mutexes, destroy_sync_mutexes, pthread_mutex_init,
    pthread_mutex_destroy, List.append_assoc, List.cons_append, List.nil_append]

/-- C7: resource balance. Starting from a process with no live heap block, mutex or
condition variable, any number `n` of rounds of `create_network_sync_context(N)` followed by
`destroy_network_sync_context` leaves none live, whatever `N` and whatever the outcomes of
the allocations and initialisations; the same holds for rounds of
`create_demo_sync_context`/`destroy_demo_sync_context` and for rounds of
`init_sync_mutexes`/`destroy_sync_mutexes` on a lock set with no live mutex. A round on a
demo context whose allocation succeeds makes exactly one `pthread_mutex_init` and one
`pthread_mutex_destroy` call on each of its three mutexes and one `pthread_cond_init` and
one `pthread_cond_destroy` call on each of its two condition variables, then frees the
context; a round on the lock set makes one init and one destroy call on each of its five
mutexes. -/
theorem lifecycle_balance (N : Int) (n : Nat) (os : OS) (sy : sync_mutexes)
    (hb : os.blocks = 0) (hm : os.mutexes = 0) (hc : os.conds = 0) (hsy : sy.live = 0) :
    (((network_cycle N)^[n] os).blocks = 0 ∧ ((network_cycle N)^[n] os).mutexes = 0 ∧
      ((network_cycle N)^[n] os).conds = 0) ∧
    ((demo_cycle^[n] os).blocks = 0 ∧ (demo_cycle^[n] os).mutexes = 0 ∧
      (demo_cycle^[n] os).conds = 0) ∧
    ((sync_cycle^[n] (some sy, os)).2.blocks = 0 ∧
      (sync_cycle^[n] (some sy, os)).2.mutexes = 0 ∧
      (sync_cycle^[n] (some sy, os)).2.conds = 0 ∧
      ∃ sy1, (sync_cycle^[n] (some sy, os)).1 = some sy1 ∧ sy1.live = 0) ∧
    ((calloc Block.demo_ctx 1 os).1 = true →
      (demo_cycle os).log = os.log ++
        [Event.calloc Block.demo_ctx true,
         Event.mutex_init LockId.buffer (next_result os.mutex_init_results).1,
         Event.mutex_init LockId.prediction
          (next_result (next_result os.mutex_init_results).2).1,
         Event.mutex_init LockId.display
          (next_result (next_result (next_result os.mutex_init_results).2).2).1,
         Event.cond_init CondId.buffer_ready (next_result os.cond_init_results).1,
         Event.cond_init CondId.detection_done
          (next_result (next_result os.cond_init_results).2).1,
         Event.mutex_destroy LockId.buffer, Event.mutex_destroy LockId.prediction,
         Event.mutex_destroy LockId.display,
         Event.cond_destroy CondId.buffer_ready, Event.cond_destroy CondId.detection_done,
         Event.free Block.demo_ctx]) ∧
    (sync_cycle (some sy, os)).2.log = os.log ++
      [Event.mutex_init LockId.network (next_result os.mutex_init_results).1,
       Event.mutex_init LockId.weight (next_result (next_result os.mutex_init_results).2).1,
       Event.mutex_init LockId.data
        (next_result (next_result (next_result os.mutex_init_results).2).2).1,
       Event.mutex_init LockId.gpu
        (next_result (next_result (next_result (next_result os.mutex_init_results).2).2).2).1,
       Event.mutex_init LockId.stats
        (next_result (next_result (next_result (next_result
          (next_result os.mutex_init_results).2).2).2).2).1,
       Event.mutex_destroy LockId.network, Event.mutex_destroy LockId.weight,
       Event.mutex_destroy LockId.data, Event.mutex_destroy LockId.gpu,
       Event.mutex_destroy LockId.stats] := by
  obtain ⟨n1, n2, n3⟩ := iterate_balance (network_cycle N) (network_cycle_balance N) n os
  obtain ⟨d1, d2, d3⟩ := iterate_balance demo_cycle demo_cycle_balance n os
  obtain ⟨sy1, e1, hl, s1, s2, s3⟩ := sync_cycle_iterate n sy os hsy
  exact ⟨⟨n1.trans hb, n2.trans hm, n3.trans hc⟩, ⟨d1.trans hb, d2.trans hm, d3.trans hc⟩,
    ⟨s1.trans hb, s2.trans hm, s3.trans hc, sy1, e1, hl⟩, demo_cycle_log os,
    sync_cycle_log sy os⟩

theorem lifecycle_balance_witness :
    fresh_os.blocks = 0 ∧ fresh_os.mutexes = 0 ∧ fresh_os.conds = 0 ∧ raw_sync.live = 0 ∧
    ((network_cycle 32)^[1000] fresh_os).blocks = 0 ∧
    ((network_cycle 32)^[1000] fresh_os).mutexes = 0 ∧
    (demo_cycle^[1000] fresh_os).conds = 0 ∧
    (sync_cycle^[1000] (some raw_sync, fresh_os)).2.mutexes = 0 :=
  ⟨rfl, rfl, rfl, by decide,
   (lifecycle_balance 32 1000 fresh_os raw_sync rfl rfl rfl (by decide)).1.1,
   (lifecycle_balance 32 1000 fresh_os raw_sync rfl rfl rfl (by decide)).1.2.1,
   (lifecycle_balance 32 1000 fresh_os raw_sync rfl rfl rfl (by decide)).2.1.2.2,
   (lifecycle_balance 32 1000 fresh_os raw_sync rfl rfl rfl (by decide)).2.2.1.2.1⟩

/-! ## The test process: termination -/

theorem sum_map_set {α : Type} (f : α → Nat) (l : List α) (t : Nat) (x y : α)
    (h : l[t]? = some y) :
    ((l.set t x).map f).sum + f y = (l.map f).sum + f x := by
  induction l generalizing t with
  | nil => simp at h
  | cons a rest ih =>
    cases t with
    | zero =>
      simp only [List.getElem?_cons_zero, Option.some.injEq] at h
      subst h
      simp only [List.set_cons_zero, List.map_cons, List.sum_cons]
      omega
    | succ t =>
      simp only [List.getElem?_cons_succ] at h
      have := ih t h
      simp only [List.set_cons_succ, List.map_cons, List.sum_cons]
      omega

theorem stmt_size_micro (ms : List Micro) :
    ((ms.map Stmt.micro).map Stmt.size).sum = ms.length := by
  induction ms with
  | nil => rfl
  | cons a rest ih =>
    simp only [List.map_cons, List.sum_cons, ih, Stmt.size, List.length_cons]
    omega

theorem thread_step_size (t : Tid) (sys sys1 : System) (h : thread_step t sys = some sys1) :
    sys1.size < sys.size := by
  unfold thread_step at h
  cases hth : sys.threads[t]? with
  | none => simp [hth] at h
  | some th =>
    simp only [hth] at h
    have key : ∀ th1 : Thread, th1.size < th.size →
        ({ shared := sys1.shared, threads := sys.threads.set t th1 } : System).size
          < sys.size := by
      intro th1 hlt
      have := sum_map_set Thread.size sys.threads t th1 th hth
      simp only [System.size]
      omega
    cases hcont : th.cont with
    | cons st rest =>
      simp only [hcont] at h
      cases hex : exec t st th.reg rest sys.shared with
      | none => simp [hex] at h
      | some r =>
        simp only [hex, Option.some.injEq] at h
        subst h
        apply key
        cases st with
        | mutex_lock m =>
          simp only [exec, Option.map_eq_some'] at hex
          obtain ⟨s1, -, rfl⟩ := hex
          simp [Thread.size, hcont, Stmt.size]
        | mutex_unlock m =>
          simp only [exec, Option.map_eq_some'] at hex
          obtain ⟨s1, -, rfl⟩ := hex
          simp [Thread.size, hcont, Stmt.size]
        | call f data =>
          simp only [exec, Option.some.injEq] at hex
          subst hex
          simp only [Thread.size, hcont, List.map_append, List.sum_append, List.map_cons,
            List.sum_cons, stmt_size_micro, Stmt.size]
          omega
        | micro a =>
          simp only [exec, Option.some.injEq] at hex
          subst hex
          simp [Thread.size, hcont, Stmt.size]
    | nil =>
      simp only [hcont] at h
      cases hcalls : th.calls with
      | nil => simp [hcalls] at h
      | cons c cs =>
        simp only [hcalls, Option.some.injEq] at h
        subst h
        apply key
        simp only [Thread.size, hcont, hcalls, List.map_nil, List.sum_nil, List.map_cons,
          List.sum_cons, Nat.zero_add, Call.size]
        cases hf : c.update_func with
        | none =>
          have : sync_network_update (if c.ctx = true then some sys.shared.net else none)
              c.layer_idx none c.data = [] := by
            cases (if c.ctx = true then some sys.shared.net else none) <;>
              simp [sync_network_update]
          simp [this]
        | some f =>
          cases hc : (if c.ctx = true then some sys.shared.net else none) with
          | none => simp [sync_network_update]
          | some n =>
            by_cases hg : c.layer_idx < 0 ∨ c.layer_idx ≥ n.num_layers
            · simp [sync_network_update, hg]
            · simp [sync_network_update, hg, Stmt.size]
              omega

/-! ## The test process: the invariant -/

theorem writing_holds (i counter : Nat) (th : Thread)
    (h : th.cont = Phase.writing.cont i counter) : th.holds = true := by
  simp [Thread.holds, h, Phase.cont, update_layer_counter]

theorem threadOk_of_not_holding (layer_id : Int) (counter : Nat) (sh sh1 : Shared) (t : Tid)
    (th : Thread) (hok : ThreadOk layer_id counter sh t th) (hh : th.holds = false) :
    ThreadOk layer_id counter sh1 t th := by
  obtain ⟨⟨p, hp, -⟩, hk, -⟩ := hok
  refine ⟨⟨p, hp, ?_⟩, hk, ?_⟩
  · intro hpw
    subst hpw
    have := writing_holds _ _ _ hp
    rw [hh] at this
    cases this
  · intro h
    rw [hh] at h
    cases h

theorem not_holding_of_mutex (layer_id : Int) (counter : Nat) (sh : Shared) (t : Tid)
    (th : Thread) (m : MutexState) (hok : ThreadOk layer_id counter sh t th)
    (hm : sh.mutex (LockId.layer layer_id.toNat) = some m) (hne : m ≠ MutexState.locked t) :
    th.holds = false := by
  by_contra hcon
  have hh : th.holds = true := by simpa using hcon
  have := hok.2.2 hh
  rw [hm] at this
  exact hne (by simpa using this)

theorem testInv_update (layer_id : Int) (counter : Nat) (N c0 : Int) (total : Nat)
    (sys : System) (t : Tid) (th th1 : Thread) (sh1 : Shared)
    (hinv : TestInv layer_id counter N c0 total sys)
    (hth : sys.threads[t]? = some th)
    (hself : ThreadOk layer_id counter sh1 t th1)
    (hothers : ∀ u th2, u ≠ t → sys.threads[u]? = some th2 →
      ThreadOk layer_id counter sh1 u th2)
    (hholder : sh1.mutex (LockId.layer layer_id.toNat) = some MutexState.unlocked ∨
      (th1.holds = true ∧
        sh1.mutex (LockId.layer layer_id.toNat) = some (MutexState.locked t)) ∨
      ∃ u th2, u ≠ t ∧ sys.threads[u]? = some th2 ∧ th2.holds = true ∧
        sh1.mutex (LockId.layer layer_id.toNat) = some (MutexState.locked u))
    (hN : sh1.net.num_layers = N) (hlo : c0 ≤ sh1.mem counter)
    (hsum : sh1.mem counter + (th1.pending : Int) = sys.shared.mem counter + (th.pending : Int)) :
    TestInv layer_id counter N c0 total
      { shared := sh1, threads := sys.threads.set t th1 } := by
  have htlen : t < sys.threads.length := by
    by_contra hcon
    rw [List.getElem?_eq_none (Nat.le_of_not_lt hcon)] at hth
    cases hth
  refine ⟨?_, ?_, hN, hlo, ?_⟩
  · intro u th2 hu
    simp only [List.getElem?_set] at hu
    by_cases hut : t = u
    · subst hut
      simp only [if_true, htlen] at hu
      cases hu
      exact hself
    · simp only [hut, if_false] at hu
      exact hothers u th2 (Ne.symm hut) hu
  · rcases hholder with h | ⟨h1, h2⟩ | ⟨u, th2, hne, hu, hh, hm⟩
    · exact Or.inl h
    · refine Or.inr ⟨t, th1, ?_, h1, h2⟩
      simp [List.getElem?_set, htlen]
    · refine Or.inr ⟨u, th2, ?_, hh, hm⟩
      simp only [List.getElem?_set, Ne.symm hne, if_false]
      exact hu
  · have h5 := hinv.2.2.2.2
    have hs := sum_map_set Thread.pending sys.threads t th1 th hth
    simp only at h5 ⊢
    have hs2 : (((sys.threads.set t th1).map Thread.pending).sum : Int) + (th.pending : Int)
        = ((sys.threads.map Thread.pending).sum : Int) + (th1.pending : Int) := by
      exact_mod_cast hs
    omega

theorem wrap32_id (x : Int) (h1 : -2 ^ 31 ≤ x) (h2 : x < 2 ^ 31) : wrap32 x = x := by
  unfold wrap32
  omega

theorem pending_le_sum (l : List Thread) (t : Nat) (th : Thread) (h : l[t]? = some th) :
    th.pending ≤ (l.map Thread.pending).sum := by
  have := sum_map_set Thread.pending l t { reg := 0, cont := [], calls := [] } th h
  simp only [Thread.pending, Thread.owes, List.length_nil] at this ⊢
  omega

theorem testInv_step (layer_id : Int) (counter : Nat) (N c0 : Int) (total : Nat)
    (h0 : 0 ≤ layer_id) (h1 : layer_id < N) (hmin : -2 ^ 31 ≤ c0)
    (hmax : c0 + total < 2 ^ 31) (sys sys1 : System) (t : Tid)
    (hinv : TestInv layer_id counter N c0 total sys)
    (hstep : thread_step t sys = some sys1) :
    TestInv layer_id counter N c0 total sys1 := by
  obtain ⟨hA, hC, hN, hge, hsum⟩ := hinv
  have hinv : TestInv layer_id counter N c0 total sys := ⟨hA, hC, hN, hge, hsum⟩
  unfold thread_step at hstep
  cases hth : sys.threads[t]? with
  | none => simp [hth] at hstep
  | some th =>
    simp only [hth] at hstep
    obtain ⟨⟨p, hp, hw⟩, ⟨k, hk⟩, hhold⟩ := hA t th hth
    have hothers_same : ∀ u th2, u ≠ t → sys.threads[u]? = some th2 →
        ThreadOk layer_id counter sys.shared u th2 := fun u th2 _ hu => hA u th2 hu
    have hothers_idle : ∀ (m : MutexState) (sh1 : Shared),
        sys.shared.mutex (LockId.layer layer_id.toNat) = some m →
        (m = MutexState.unlocked ∨ m = MutexState.locked t) →
        ∀ u th2, u ≠ t → sys.threads[u]? = some th2 →
          ThreadOk layer_id counter sh1 u th2 := by
      intro m sh1 hm hcases u th2 hut hu
      apply threadOk_of_not_holding layer_id counter sys.shared sh1 u th2 (hA u th2 hu)
      apply not_holding_of_mutex layer_id counter sys.shared u th2 m (hA u th2 hu) hm
      rcases hcases with rfl | rfl
      · simp
      · simpa using Ne.symm hut
    cases p with
    | idle =>
      simp only [Phase.cont] at hp
      simp only [hp] at hstep
      cases k with
      | zero => simp [hk] at hstep
      | succ k =>
        simp only [hk, List.replicate_succ, Option.some.injEq] at hstep
        subst hstep
        have hbody := sync_network_update_body sys.shared.net layer_id update_layer_counter
          counter h0 (by rw [hN]; exact h1)
        have hnh : th.holds = false := by simp [Thread.holds, hp]
        refine testInv_update layer_id counter N c0 total sys t th _ _ hinv hth
          ⟨⟨Phase.entered, ?_, by simp⟩, ⟨k, rfl⟩, ?_⟩ hothers_same ?_ hN hge ?_
        · simp only [test_call, if_true, hbody, Phase.cont]
        · simp [test_call, hbody, Thread.holds]
        · rcases hC with h | ⟨u, th2, hu, hh, hm⟩
          · exact Or.inl h
          · refine Or.inr (Or.inr ⟨u, th2, ?_, hu, hh, hm⟩)
            rintro rfl
            rw [hth] at hu
            cases hu
            rw [hnh] at hh
            cases hh
        · simp [Thread.pending, Thread.owes, hp, hk, test_call, hbody]
    | entered =>
      simp only [Phase.cont] at hp
      simp only [hp, exec] at hstep
      cases hl : pthread_mutex_lock t (LockId.layer layer_id.toNat) sys.shared with
      | none => simp [hl] at hstep
      | some s1 =>
        simp only [hl, Option.map_some', Option.some.injEq] at hstep
        subst hstep
        obtain ⟨hfree, rfl⟩ := lock_some _ _ _ _ hl
        have hfr := layerFrame_setMutex sys.shared layer_id.toNat (MutexState.locked t)
        refine testInv_update layer_id counter N c0 total sys t th _ _ hinv hth
          ⟨⟨Phase.locked, rfl, by simp⟩, ⟨k, hk⟩, ?_⟩
          (hothers_idle _ _ hfree (Or.inl rfl)) ?_ (hfr.2.1.trans hN) ?_ ?_
        · intro _
          exact mutex_setMutex_same _ _ _ _ hfree
        · exact Or.inr (Or.inl ⟨by simp [Thread.holds], mutex_setMutex_same _ _ _ _ hfree⟩)
        · rw [hfr.2.2.2.2.2.2]
          exact hge
        · rw [hfr.2.2.2.2.2.2]
          simp [Thread.pending, Thread.owes, hp]
    | locked =>
      simp only [Phase.cont] at hp
      simp only [hp, exec, Option.some.injEq] at hstep
      subst hstep
      have hh : th.holds = true := by simp [Thread.holds, hp]
      refine testInv_update layer_id counter N c0 total sys t th _ _ hinv hth
        ⟨⟨Phase.reading, rfl, by simp⟩, ⟨k, hk⟩, fun _ => hhold hh⟩ hothers_same
        (Or.inr (Or.inl ⟨by simp [Thread.holds, update_layer_counter], hhold hh⟩)) hN hge ?_
      simp [Thread.pending, Thread.owes, hp, update_layer_counter]
    | reading =>
      simp only [Phase.cont, update_layer_counter, List.map_cons, List.map_nil,
        List.cons_append, List.nil_append] at hp
      simp only [hp, exec, Option.some.injEq] at hstep
      subst hstep
      have hh : th.holds = true := by simp [Thread.holds, hp]
      refine testInv_update layer_id counter N c0 total sys t th _ _ hinv hth
        ⟨⟨Phase.writing, ?_, fun _ => rfl⟩, ⟨k, hk⟩, fun _ => hhold hh⟩ hothers_same
        (Or.inr (Or.inl ⟨by simp [Thread.holds], hhold hh⟩)) hN hge ?_
      · simp [Phase.cont, update_layer_counter]
      · simp [Thread.pending, Thread.owes, hp]
    | writing =>
      have hreg := hw rfl
      simp only [Phase.cont, update_layer_counter, List.map_cons, List.map_nil,
        List.cons_append, List.nil_append, List.drop_succ_cons, List.drop_zero] at hp
      simp only [hp, exec, Option.some.injEq] at hstep
      subst hstep
      have hh : th.holds = true := by simp [Thread.holds, hp]
      have hpend : th.pending = th.calls.length + 1 := by
        simp [Thread.pending, Thread.owes, hp]
      have hle := pending_le_sum sys.threads t th hth
      have hval : wrap32 (th.reg + 1) = sys.shared.mem counter + 1 := by
        rw [hreg]
        apply wrap32_id <;> omega
      refine testInv_update layer_id counter N c0 total sys t th _ _ hinv hth
        ⟨⟨Phase.unlocking, rfl, by simp⟩, ⟨k, hk⟩, fun _ => hhold hh⟩
        (hothers_idle _ _ (hhold hh) (Or.inr rfl))
        (Or.inr (Or.inl ⟨by simp [Thread.holds], hhold hh⟩)) hN ?_ ?_
      · simp only [Function.update_same, hval]
        omega
      · simp only [Function.update_same, hval, hpend]
        simp [Thread.pending, Thread.owes]
        omega
    | unlocking =>
      simp only [Phase.cont] at hp
      simp only [hp, exec] at hstep
      have hh : th.holds = true := by simp [Thread.holds, hp]
      cases hl : pthread_mutex_unlock t (LockId.layer layer_id.toNat) sys.shared with
      | none => simp [hl] at hstep
      | some s1 =>
        simp only [hl, Option.map_some', Option.some.injEq] at hstep
        subst hstep
        obtain ⟨hheld, rfl⟩ := unlock_some _ _ _ _ hl
        have hfr := layerFrame_setMutex sys.shared layer_id.toNat MutexState.unlocked
        refine testInv_update layer_id counter N c0 total sys t th _ _ hinv hth
          ⟨⟨Phase.idle, rfl, by simp⟩, ⟨k, hk⟩, ?_⟩
          (hothers_idle _ _ hheld (Or.inr rfl)) ?_ (hfr.2.1.trans hN) ?_ ?_
        · intro hcon
          simp [Thread.holds] at hcon
        · exact Or.inl (mutex_setMutex_same _ _ _ _ hheld)
        · rw [hfr.2.2.2.2.2.2]
          exact hge
        · rw [hfr.2.2.2.2.2.2]
          simp [Thread.pending, Thread.owes, hp]

theorem testInv_init (s : Shared) (layer_id : Int) (counter : Nat) (K M : Nat)
    (hfree : s.mutex (LockId.layer layer_id.toNat) = some MutexState.unlocked) :
    TestInv layer_id counter s.net.num_layers (s.mem counter) (K * M)
      (test_system s layer_id counter K M) := by
  refine ⟨?_, Or.inl hfree, rfl, le_refl _, ?_⟩
  · intro t th hth
    simp only [test_system, List.getElem?_replicate] at hth
    split at hth
    · cases hth
      exact ⟨⟨Phase.idle, rfl, by simp⟩, ⟨M, rfl⟩, by simp [Thread.holds, test_layer_update_thread]⟩
    · cases hth
  · simp [test_system, List.map_replicate, List.sum_replicate, Thread.pending, Thread.owes,
      test_layer_update_thread]

theorem testInv_reachable (layer_id : Int) (counter : Nat) (N c0 : Int) (total : Nat)
    (h0 : 0 ≤ layer_id) (h1 : layer_id < N) (hmin : -2 ^ 31 ≤ c0)
    (hmax : c0 + total < 2 ^ 31) (a b : System)
    (hinv : TestInv layer_id counter N c0 total a) (hreach : Reachable a b) :
    TestInv layer_id counter N c0 total b := by
  induction hreach with
  | refl => exact hinv
  | tail _ hstep ih =>
    obtain ⟨t, ht⟩ := hstep
    exact testInv_step layer_id counter N c0 total h0 h1 hmin hmax _ _ t ih ht

theorem testInv_finished (layer_id : Int) (counter : Nat) (N c0 : Int) (total : Nat)
    (sys : System) (hinv : TestInv layer_id counter N c0 total sys) (hfin : Finished sys) :
    sys.shared.mem counter = c0 + total := by
  have hz : (sys.threads.map Thread.pending).sum = 0 := by
    apply List.sum_eq_zero
    intro x hx
    obtain ⟨th, hth, rfl⟩ := List.mem_map.mp hx
    obtain ⟨hc, hk⟩ := hfin th hth
    simp [Thread.pending, Thread.owes, hc, hk]
  have := hinv.2.2.2.2
  rw [hz] at this
  simpa using this

theorem test_step_enabled (layer_id : Int) (counter : Nat) (sys : System)
    (t : Tid) (th : Thread) (hth : sys.threads[t]? = some th)
    (hok : ThreadOk layer_id counter sys.shared t th)
    (h : th.holds = true ∨
      (sys.shared.mutex (LockId.layer layer_id.toNat) = some MutexState.unlocked ∧
        ¬ (th.cont = [] ∧ th.calls = []))) :
    ∃ sys1, thread_step t sys = some sys1 := by
  obtain ⟨⟨p, hp, -⟩, ⟨k, hk⟩, hhold⟩ := hok
  cases p with
  | idle =>
    simp only [Phase.cont] at hp
    rcases h with h | ⟨-, h⟩
    · simp [Thread.holds, hp] at h
    · cases k with
      | zero => exact absurd ⟨hp, by simpa using hk⟩ h
      | succ k => simp [thread_step, hth, hp, hk, List.replicate_succ]
  | entered =>
    simp only [Phase.cont] at hp
    rcases h with h | ⟨hfree, -⟩
    · simp [Thread.holds, hp] at h
    · simp [thread_step, hth, hp, exec, lock_of_free t _ _ hfree]
  | locked =>
    simp only [Phase.cont] at hp
    simp [thread_step, hth, hp, exec]
  | reading =>
    simp only [Phase.cont, update_layer_counter, List.map_cons, List.map_nil,
      List.cons_append, List.nil_append] at hp
    simp [thread_step, hth, hp, exec]
  | writing =>
    simp only [Phase.cont, update_layer_counter, List.map_cons, List.map_nil,
      List.cons_append, List.nil_append, List.drop_succ_cons, List.drop_zero] at hp
    simp [thread_step, hth, hp, exec]
  | unlocking =>
    simp only [Phase.cont] at hp
    have hh : th.holds = true := by simp [Thread.holds, hp]
    simp [thread_step, hth, hp, exec, unlock_of_held t _ _ (hhold hh)]

theorem testInv_progress (layer_id : Int) (counter : Nat) (N c0 : Int) (total : Nat)
    (sys : System)
    (hinv : TestInv layer_id counter N c0 total sys) (hfin : ¬ Finished sys) :
    ∃ sys1, Step sys sys1 := by
  obtain ⟨hA, hC, -, -, -⟩ := hinv
  rcases hC with hfree | ⟨u, th, hu, hh, -⟩
  · simp only [Finished, not_forall] at hfin
    obtain ⟨th, hmem, hnot⟩ := hfin
    obtain ⟨t, hth⟩ := List.getElem?_of_mem hmem
    obtain ⟨sys1, hs⟩ := test_step_enabled layer_id counter sys t th hth
      (hA t th hth) (Or.inr ⟨hfree, hnot⟩)
    exact ⟨sys1, t, hs⟩
  · obtain ⟨sys1, hs⟩ := test_step_enabled layer_id counter sys u th hu
      (hA u th hu) (Or.inl hh)
    exact ⟨sys1, u, hs⟩

theorem reachable_of_schedule (l : List Tid) (a b : System) (h : run_schedule l a = some b) :
    Reachable a b := by
  induction l generalizing a with
  | nil =>
    simp only [run_schedule, Option.some.injEq] at h
    subst h
    exact Relation.ReflTransGen.refl
  | cons t rest ih =>
    simp only [run_schedule, Option.bind_eq_some] at h
    obtain ⟨c, hc, hrest⟩ := h
    exact Relation.ReflTransGen.head ⟨t, hc⟩ (ih c hrest)

theorem finished_of_check (sys : System) (h : finished_check sys = true) : Finished sys := by
  intro th hth
  simp only [finished_check, List.all_eq_true, Bool.and_eq_true, List.isEmpty_iff] at h
  exact h th hth

/-- C3: `K` threads each make `M` calls of `sync_network_update` on the same valid layer
index with the work item that increments one shared plain `int` counter (a read, then a
write of the value read plus one), starting with the layer mutex free and with the counter
at a value from which `K * M` increments do not overflow `int`. In every state that some
interleaving of the threads reaches: if all threads have returned, the counter is exactly
its initial value plus `K * M`; if not, some thread can take a step (no deadlock); and every
step strictly decreases the number of steps left, so every interleaving ends, and it ends
with all threads returned. -/
theorem concurrent_layer_updates_exact (K M : Nat) (s : Shared) (layer_id : Int)
    (counter : Nat) (_hK : 1 ≤ K)
    (h0 : 0 ≤ layer_id) (h1 : layer_id < s.net.num_layers)
    (hfree : s.mutex (LockId.layer layer_id.toNat) = some MutexState.unlocked)
    (hmin : -2 ^ 31 ≤ s.mem counter) (hmax : s.mem counter + (K * M : Nat) < 2 ^ 31)
    (sys : System) (hreach : Reachable (test_system s layer_id counter K M) sys) :
    (Finished sys → sys.shared.mem counter = s.mem counter + (K * M : Nat)) ∧
    (¬ Finished sys → ∃ sys1, Step sys sys1) ∧
    (∀ sys1, Step sys sys1 → sys1.size < sys.size) := by
  have hinv := testInv_reachable layer_id counter s.net.num_layers (s.mem counter) (K * M)
    h0 h1 hmin hmax _ sys (testInv_init s layer_id counter K M hfree) hreach
  refine ⟨testInv_finished _ _ _ _ _ sys hinv, testInv_progress _ _ _ _ _ sys hinv, ?_⟩
  rintro sys1 ⟨t, ht⟩
  exact thread_step_size t sys sys1 ht

theorem concurrent_layer_updates_exact_witness :
    (0 : Int) ≤ 1 ∧ (1 : Int) < sample_shared.net.num_layers ∧
    sample_shared.mutex (LockId.layer 1) = some MutexState.unlocked ∧
    ∃ sys, run_schedule [0, 1, 0, 0, 0, 0, 0, 1, 1, 1, 1, 1]
        (test_system sample_shared 1 0 2 1) = some sys ∧
      Finished sys ∧ sys.shared.mem 0 = 2 := by
  refine ⟨by decide, by decide, rfl, ?_⟩
  have hsome : (run_schedule [0, 1, 0, 0, 0, 0, 0, 1, 1, 1, 1, 1]
      (test_system sample_shared 1 0 2 1)).isSome = true := rfl
  obtain ⟨sys, hsys⟩ := Option.isSome_iff_exists.mp hsome
  have hfin : finished_check sys = true := by
    have : (run_schedule [0, 1, 0, 0, 0, 0, 0, 1, 1, 1, 1, 1]
      (test_system sample_shared 1 0 2 1)).all finished_check = true := rfl
    rw [hsys] at this
    exact this
  have hF := finished_of_check sys hfin
  have key := (concurrent_layer_updates_exact 2 1 sample_shared 1 0 (by decide) (by decide)
    (by decide) rfl (by decide) (by decide) sys (reachable_of_schedule _ _ _ hsys)).1 hF
  refine ⟨sys, hsys, hF, ?_⟩
  rw [key]
  decide

theorem overlap_schedule (s : Shared) (i j : Int) (f g : Work) (d1 d2 : Nat)
    (hi0 : 0 ≤ i) (hi1 : i < s.net.num_layers) (hj0 : 0 ≤ j) (hj1 : j < s.net.num_layers)
    (hij : j ≠ i)
    (hfi : s.mutex (LockId.layer i.toNat) = some MutexState.unlocked)
    (hfj : s.mutex (LockId.layer j.toNat) = some MutexState.unlocked) :
    ∃ sys, run_schedule [0, 0, 1, 1]
        { shared := s,
          threads := [
            { reg := 0, cont := [],
              calls := [{ ctx := true, layer_idx := i, update_func := some f, data := d1 }] },
            { reg := 0, cont := [],
              calls := [{ ctx := true, layer_idx := j, update_func := some g, data := d2 }] }] }
        = some sys ∧
      sys.shared.mutex (LockId.layer i.toNat) = some (MutexState.locked 0) ∧
      sys.shared.mutex (LockId.layer j.toNat) = some (MutexState.locked 1) ∧
      (∀ th ∈ sys.threads, th.holds = true) := by
  have hne : LockId.layer i.toNat ≠ LockId.layer j.toNat := by
    simp only [ne_eq, LockId.layer.injEq]
    omega
  have hbi := sync_network_update_body s.net i f d1 hi0 hi1
  have hs1 : (s.setMutex (LockId.layer i.toNat) (MutexState.locked 0)).net.num_layers
      = s.net.num_layers := (layerFrame_setMutex s _ _).2.1
  have hbj := sync_network_update_body
    (s.setMutex (LockId.layer i.toNat) (MutexState.locked 0)).net j g d2 hj0
    (by rw [hs1]; exact hj1)
  have hfj1 : (s.setMutex (LockId.layer i.toNat) (MutexState.locked 0)).mutex
      (LockId.layer j.toNat) = some MutexState.unlocked := by
    rw [mutex_setMutex_other s _ _ _ hne]
    exact hfj
  refine ⟨{ shared := (s.setMutex (LockId.layer i.toNat) (MutexState.locked 0)).setMutex
              (LockId.layer j.toNat) (MutexState.locked 1),
            threads := [
              { reg := 0,
                cont := [Stmt.call f d1, Stmt.mutex_unlock (LockId.layer i.toNat)],
                calls := [] },
              { reg := 0,
                cont := [Stmt.call g d2, Stmt.mutex_unlock (LockId.layer j.toNat)],
                calls := [] }] }, ?_, ?_, ?_, ?_⟩
  · simp only [run_schedule, thread_step, List.getElem?_cons_zero, List.getElem?_cons_succ,
      if_true, hbi, hbj, exec, lock_of_free 0 _ _ hfi, lock_of_free 1 _ _ hfj1,
      Option.map_some', Option.some_bind, List.set_cons_zero, List.set_cons_succ]
  · rw [mutex_setMutex_other _ _ _ _ (Ne.symm hne)]
    exact mutex_setMutex_same _ _ _ _ hfi
  · exact mutex_setMutex_same _ _ _ _ hfj1
  · intro th hth
    simp only [List.mem_cons, List.mem_singleton, List.not_mem_nil, or_false] at hth
    rcases hth with rfl | rfl <;> rfl

/-- C8: a call of `sync_network_update` on a valid index `i` locks and unlocks
`layer_mutexes[i]` and nothing else: each statement of its body (the lock, the entry into
the work item, the unlock) leaves every layer mutex `j != i`, `num_layers`, both counters,
the other structs and the memory as they were, so only the steps of the work item itself
can change them. A lock of a layer mutex `j != i` is enabled exactly when mutex `j` is free,
whatever the state of mutex `i` and whoever holds it; and from a state with both mutexes
free, a thread calling on `i` and a thread calling on `j != i` can be inside their locked
regions at the same time. -/
theorem sync_network_update_frame (t : Tid) (c : network_sync_context) (layer_idx : Int)
    (f : Work) (data : Nat) (h0 : 0 ≤ layer_idx) (h1 : layer_idx < c.num_layers) :
    lock_ops (sync_network_update (some c) layer_idx (some f) data) =
      [(true, LockId.layer layer_idx.toNat), (false, LockId.layer layer_idx.toNat)] ∧
    (∀ st ∈ sync_network_update (some c) layer_idx (some f) data,
      ∀ (reg : Int) (rest : List Stmt) (s : Shared) (r : Int × List Stmt × Shared),
        exec t st reg rest s = some r → LayerFrame layer_idx.toNat s r.2.2) ∧
    (∀ (u : Tid) (j : Nat) (s : Shared) (m : MutexState), j ≠ layer_idx.toNat →
      ((pthread_mutex_lock u (LockId.layer j)
          (s.setMutex (LockId.layer layer_idx.toNat) m)).isSome
        ↔ s.mutex (LockId.layer j) = some MutexState.unlocked)) ∧
    (∀ (s : Shared) (j : Int) (g : Work) (d2 : Nat), s.net = c →
      0 ≤ j → j < c.num_layers → j ≠ layer_idx →
      s.mutex (LockId.layer layer_idx.toNat) = some MutexState.unlocked →
      s.mutex (LockId.layer j.toNat) = some MutexState.unlocked →
      ∃ sys, run_schedule [0, 0, 1, 1]
          { shared := s,
            threads := [
              { reg := 0, cont := [],
                calls := [{ ctx := true, layer_idx := layer_idx, update_func := some f,
                            data := data }] },
              { reg := 0, cont := [],
                calls := [{ ctx := true, layer_idx := j, update_func := some g,
                            data := d2 }] }] }
          = some sys ∧
        sys.shared.mutex (LockId.layer layer_idx.toNat) = some (MutexState.locked 0) ∧
        sys.shared.mutex (LockId.layer j.toNat) = some (MutexState.locked 1) ∧
        (∀ th ∈ sys.threads, th.holds = true)) := by
  have hbody := sync_network_update_body c layer_idx f data h0 h1
  refine ⟨by rw [hbody]; rfl, ?_, ?_, ?_⟩
  · intro st hst reg rest s r hr
    rw [hbody] at hst
    simp only [List.mem_cons, List.mem_singleton, List.not_mem_nil, or_false] at hst
    rcases hst with rfl | rfl | rfl
    · simp only [exec, Option.map_eq_some'] at hr
      obtain ⟨s1, hs1, rfl⟩ := hr
      obtain ⟨-, rfl⟩ := lock_some _ _ _ _ hs1
      exact layerFrame_setMutex s _ _
    · simp only [exec, Option.some.injEq] at hr
      subst hr
      exact ⟨fun _ _ => rfl, rfl, rfl, rfl, rfl, rfl, rfl⟩
    · simp only [exec, Option.map_eq_some'] at hr
      obtain ⟨s1, hs1, rfl⟩ := hr
      obtain ⟨-, rfl⟩ := unlock_some _ _ _ _ hs1
      exact layerFrame_setMutex s _ _
  · intro u j s m hj
    have hne : LockId.layer layer_idx.toNat ≠ LockId.layer j := by
      simpa using Ne.symm hj
    constructor
    · intro h
      obtain ⟨s1, hs1⟩ := Option.isSome_iff_exists.mp h
      have := (lock_some _ _ _ _ hs1).1
      rwa [mutex_setMutex_other s _ _ m hne] at this
    · intro h
      rw [lock_of_free u _ _ (by rw [mutex_setMutex_other s _ _ m hne]; exact h)]
      rfl
  · intro s j g d2 hs hj0 hj1 hji hfi hfj
    subst hs
    exact overlap_schedule s layer_idx j f g data d2 h0 h1 hj0 hj1 hji hfi hfj

theorem sync_network_update_frame_witness :
    (0 : Int) ≤ 1 ∧ (1 : Int) < sample_net.num_layers ∧
    ((pthread_mutex_lock 1 (LockId.layer 2)
        (sample_shared.setMutex (LockId.layer 1) (MutexState.locked 0))).isSome
      ↔ sample_shared.mutex (LockId.layer 2) = some MutexState.unlocked) ∧
    ∃ sys, run_schedule [0, 0, 1, 1]
        { shared := sample_shared,
          threads := [
            { reg := 0, cont := [],
              calls := [{ ctx := true, layer_idx := 1,
                          update_func := some update_layer_counter, data := 0 }] },
            { reg := 0, cont := [],
              calls := [{ ctx := true, layer_idx := 2,
                          update_func := some update_layer_counter, data := 1 }] }] }
        = some sys ∧
      sys.shared.mutex (LockId.layer 1) = some (MutexState.locked 0) ∧
      sys.shared.mutex (LockId.layer 2) = some (MutexState.locked 1) := by
  have h := sync_network_update_frame 0 sample_net 1 update_layer_counter 0 (by decide)
    (by decide)
  refine ⟨by decide, by decide, h.2.2.1 1 2 sample_shared (MutexState.locked 0) (by decide), ?_⟩
  obtain ⟨sys, h1, h2, h3, -⟩ := h.2.2.2 sample_shared 2 update_layer_counter 1 rfl
    (by decide) (by decide) (by decide) rfl rfl
  exact ⟨sys, h1, h2, h3⟩

/-! ## The operations of the lock set -/

theorem body_lock_ops (op : WorkOp) (s : Shared) (f : Work) (data : Nat) :
    ∀ x ∈ lock_ops (op.body s f data), x.2 = LockId.weight ∨ ∃ i, x.2 = LockId.layer i := by
  intro x hx
  cases op with
  | weight_accumulate =>
    simp only [WorkOp.body, sync_weight_accumulate, lock_ops, List.mem_cons,
      List.mem_singleton, List.not_mem_nil, or_false] at hx
    rcases hx with rfl | rfl <;> exact Or.inl rfl
  | network_update layer_idx =>
    by_cases hg : layer_idx < 0 ∨ layer_idx ≥ s.net.num_layers
    · simp [WorkOp.body, sync_network_update, hg, lock_ops] at hx
    · simp only [WorkOp.body, sync_network_update, hg, if_false, lock_ops, List.mem_cons,
        List.mem_singleton, List.not_mem_nil, or_false] at hx
      rcases hx with rfl | rfl <;> exact Or.inr ⟨_, rfl⟩

theorem not_runs_under (m : LockId) (hw : m ≠ LockId.weight) (hl : ∀ i, m ≠ LockId.layer i) :
    ¬ RunsUnder m := by
  rintro ⟨op, h⟩
  have hmem : (true, m) ∈ lock_ops (op.body sample_shared update_layer_counter 0) := by
    rw [h]
    simp
  rcases body_lock_ops op _ _ _ _ hmem with h1 | ⟨i, h1⟩
  · exact hw h1
  · exact hl i h1

/-- C11, as the code has it: of the five mutexes of the lock set only `weight_mutex` has a
run-exclusively operation. `sync_weight_accumulate` takes a work item and its argument and
executes lock `weight_mutex`, the call, unlock `weight_mutex`; no operation of the header
that takes a work item locks `network_mutex`, `data_mutex`, `gpu_mutex` or `stats_mutex`:
every lock operation of such an operation is on `weight_mutex` or on a layer mutex. -/
theorem run_exclusively_weight_only :
    RunsUnder LockId.weight ∧
    (∀ (s : Shared) (f : Work) (data : Nat),
      WorkOp.weight_accumulate.body s f data =
        [Stmt.mutex_lock LockId.weight, Stmt.call f data, Stmt.mutex_unlock LockId.weight]) ∧
    (∀ (op : WorkOp) (s : Shared) (f : Work) (data : Nat),
      ∀ x ∈ lock_ops (op.body s f data), x.2 = LockId.weight ∨ ∃ i, x.2 = LockId.layer i) ∧
    (∀ m, RunsUnder m → m = LockId.weight ∨ ∃ i, m = LockId.layer i) := by
  refine ⟨⟨WorkOp.weight_accumulate, fun _ _ _ => rfl⟩, fun _ _ _ => rfl, body_lock_ops, ?_⟩
  intro m hm
  by_contra hcon
  simp only [not_or, not_exists] at hcon
  exact not_runs_under m hcon.1 hcon.2 hm

/-- C11, counterexample to the claim as stated: the header has no operation that runs a
work item under `network_mutex`, none for `data_mutex`, none for `gpu_mutex` and none for
`stats_mutex`. -/
theorem run_exclusively_missing :
    ¬ RunsUnder LockId.network ∧ ¬ RunsUnder LockId.data ∧ ¬ RunsUnder LockId.gpu ∧
    ¬ RunsUnder LockId.stats :=
  ⟨not_runs_under _ (by decide) (by intro i; exact LockId.noConfusion),
   not_runs_under _ (by decide) (by intro i; exact LockId.noConfusion),
   not_runs_under _ (by decide) (by intro i; exact LockId.noConfusion),
   not_runs_under _ (by decide) (by intro i; exact LockId.noConfusion)⟩

/-! ## The counters of a layer context -/

theorem create_some_counters (N : Int) (os : OS) (ctx : network_sync_context)
    (h : (create_network_sync_context N os).1 = some ctx) :
    ctx.active_threads = 0 ∧ ctx.seen_samples = 0 ∧ ctx.num_layers = N := by
  unfold create_network_sync_context at h
  by_cases h1 : (calloc Block.net_ctx 1 os).1 = true
  · by_cases h2 : (calloc Block.layer_array N (calloc Block.net_ctx 1 os).2).1 = true
    · simp only [h1, h2, Bool.not_true, Bool.false_eq_true, if_false, Option.some.injEq] at h
      subst h
      exact ⟨rfl, rfl, rfl⟩
    · simp [h1, h2] at h
  · simp [h1] at h

theorem wrap64_id (x : Int) (h1 : -2 ^ 63 ≤ x) (h2 : x < 2 ^ 63) : wrap64 x = x := by
  unfold wrap64
  omega

theorem ctx_step_counters (a : CtxAction) (s s1 : Shared) (hd : a.disciplined s)
    (hs : ctx_step a s = some s1)
    (ha : 0 ≤ s.net.active_threads ∧ s.net.active_threads < 2 ^ 31)
    (hn : 0 ≤ s.net.seen_samples ∧ s.net.seen_samples < 2 ^ 63) :
    (0 ≤ s1.net.active_threads ∧ s1.net.active_threads < 2 ^ 31) ∧
    (0 ≤ s1.net.seen_samples ∧ s1.net.seen_samples < 2 ^ 63) ∧
    s.net.seen_samples ≤ s1.net.seen_samples := by
  cases a with
  | lock t i =>
    obtain ⟨-, rfl⟩ := lock_some _ _ _ _ hs
    have hf := layerFrame_setMutex s i (MutexState.locked t)
    rw [hf.2.2.1, hf.2.2.2.1]
    exact ⟨ha, hn, le_refl _⟩
  | unlock t i =>
    obtain ⟨-, rfl⟩ := unlock_some _ _ _ _ hs
    have hf := layerFrame_setMutex s i MutexState.unlocked
    rw [hf.2.2.1, hf.2.2.2.1]
    exact ⟨ha, hn, le_refl _⟩
  | active op =>
    simp only [ctx_step, Option.some.injEq] at hs
    subst hs
    refine ⟨?_, hn, le_refl _⟩
    cases op with
    | fetch_add v =>
      simp only [CtxAction.disciplined] at hd
      simp only [AtomicOp.apply]
      rw [wrap32_id _ (by omega) (by omega)]
      omega
    | fetch_sub v =>
      simp only [CtxAction.disciplined] at hd
      simp only [AtomicOp.apply]
      rw [wrap32_id _ (by omega) (by omega)]
      omega
    | load => exact ha
    | store v =>
      simp only [CtxAction.disciplined] at hd
      simp only [AtomicOp.apply]
      rw [wrap32_id _ (by omega) (by omega)]
      omega
  | seen op =>
    simp only [ctx_step, Option.some.injEq] at hs
    subst hs
    refine ⟨ha, ?_⟩
    cases op with
    | fetch_add v =>
      simp only [CtxAction.disciplined] at hd
      simp only [AtomicOp.apply]
      rw [wrap64_id _ (by omega) (by omega)]
      omega
    | fetch_sub v =>
      simp only [CtxAction.disciplined] at hd
      subst hd
      simp only [AtomicOp.apply, sub_zero]
      rw [wrap64_id _ (by omega) (by omega)]
      omega
    | load => exact ⟨hn, le_refl _⟩
    | store v =>
      simp only [CtxAction.disciplined] at hd
      simp only [AtomicOp.apply]
      rw [wrap64_id _ (by omega) (by omega)]
      omega

theorem ctx_run_counters (l : List CtxAction) (s s1 : Shared) (hd : disciplined_run l s)
    (hs : ctx_run l s = some s1)
    (ha : 0 ≤ s.net.active_threads ∧ s.net.active_threads < 2 ^ 31)
    (hn : 0 ≤ s.net.seen_samples ∧ s.net.seen_samples < 2 ^ 63) :
    (0 ≤ s1.net.active_threads ∧ s1.net.active_threads < 2 ^ 31) ∧
    (0 ≤ s1.net.seen_samples ∧ s1.net.seen_samples < 2 ^ 63) ∧
    s.net.seen_samples ≤ s1.net.seen_samples := by
  induction l generalizing s with
  | nil =>
    simp only [ctx_run, Option.some.injEq] at hs
    subst hs
    exact ⟨ha, hn, le_refl _⟩
  | cons a rest ih =>
    simp only [ctx_run, Option.bind_eq_some] at hs
    obtain ⟨s0, h0, hrest⟩ := hs
    simp only [disciplined_run, h0] at hd
    obtain ⟨a1, n1, m1⟩ := ctx_step_counters a s s0 hd.1 h0 ha hn
    obtain ⟨a2, n2, m2⟩ := ih s0 hd.2 hrest a1 n1
    exact ⟨a2, n2, le_trans m1 m2⟩

theorem disciplined_run_append (l1 l2 : List CtxAction) (s s1 : Shared)
    (hd : disciplined_run (l1 ++ l2) s) (hs : ctx_run l1 s = some s1) :
    disciplined_run l1 s ∧ disciplined_run l2 s1 := by
  induction l1 generalizing s with
  | nil =>
    simp only [ctx_run, Option.some.injEq] at hs
    subst hs
    exact ⟨trivial, hd⟩
  | cons a rest ih =>
    simp only [ctx_run, Option.bind_eq_some] at hs
    obtain ⟨s0, h0, hrest⟩ := hs
    simp only [List.cons_append, disciplined_run, h0] at hd ⊢
    obtain ⟨i1, i2⟩ := ih s0 hd.2 hrest
    exact ⟨⟨hd.1, i1⟩, i2⟩

/-- C12, as the code has it: `create_network_sync_context` leaves both counters at 0, and
the lock and unlock of `sync_network_update` never change them; the code puts no bound on
what callers do with the two atomics. Along every run from a created context in which every
atomic operation is disciplined (loads, fetch-adds of non-negative amounts that do not
overflow, on `active_threads` fetch-subs of at most the current value and stores of
non-negative values, on `seen_samples` stores of values not below the current one),
`active_threads >= 0` holds in every state and `seen_samples` is never smaller than it was
in an earlier state. -/
theorem counters_invariant (N : Int) (os : OS) (s s1 s2 : Shared) (l1 l2 : List CtxAction)
    (hc : (create_network_sync_context N os).1 = some s.net)
    (hd : disciplined_run (l1 ++ l2) s)
    (h1 : ctx_run l1 s = some s1) (h2 : ctx_run l2 s1 = some s2) :
    s.net.active_threads = 0 ∧ s.net.seen_samples = 0 ∧
    0 ≤ s1.net.active_threads ∧ 0 ≤ s2.net.active_threads ∧
    s.net.seen_samples ≤ s1.net.seen_samples ∧
    s1.net.seen_samples ≤ s2.net.seen_samples ∧
    (∀ (t : Tid) (i : Nat) (a b : Shared),
      (ctx_step (CtxAction.lock t i) a = some b ∨ ctx_step (CtxAction.unlock t i) a = some b) →
      b.net.active_threads = a.net.active_threads ∧
      b.net.seen_samples = a.net.seen_samples) := by
  obtain ⟨ha, hn, -⟩ := create_some_counters N os s.net hc
  obtain ⟨d1, d2⟩ := disciplined_run_append l1 l2 s s1 hd h1
  obtain ⟨a1, n1, m1⟩ := ctx_run_counters l1 s s1 d1 h1 (by rw [ha]; decide) (by rw [hn]; decide)
  obtain ⟨a2, n2, m2⟩ := ctx_run_counters l2 s1 s2 d2 h2 a1 n1
  refine ⟨ha, hn, a1.1, a2.1, m1, m2, ?_⟩
  intro t i a b hab
  rcases hab with h | h
  · obtain ⟨-, rfl⟩ := lock_some _ _ _ _ h
    exact ⟨(layerFrame_setMutex a i _).2.2.1, (layerFrame_setMutex a i _).2.2.2.1⟩
  · obtain ⟨-, rfl⟩ := unlock_some _ _ _ _ h
    exact ⟨(layerFrame_setMutex a i _).2.2.1, (layerFrame_setMutex a i _).2.2.2.1⟩

theorem counters_invariant_witness :
    (create_network_sync_context 3 fresh_os).1 = some sample_shared.net ∧
    disciplined_run
      ([CtxAction.active (AtomicOp.fetch_add 5), CtxAction.active AtomicOp.load,
        CtxAction.active (AtomicOp.fetch_sub 3)] ++
       [CtxAction.seen (AtomicOp.fetch_add 1000), CtxAction.seen AtomicOp.load])
      sample_shared ∧
    ∃ s1 s2,
      ctx_run [CtxAction.active (AtomicOp.fetch_add 5), CtxAction.active AtomicOp.load,
        CtxAction.active (AtomicOp.fetch_sub 3)] sample_shared = some s1 ∧
      ctx_run [CtxAction.seen (AtomicOp.fetch_add 1000), CtxAction.seen AtomicOp.load] s1
        = some s2 ∧
      s1.net.active_threads = 2 ∧ s2.net.seen_samples = 1000 ∧
      0 ≤ s2.net.active_threads ∧ s1.net.seen_samples ≤ s2.net.seen_samples := by
  have hc : (create_network_sync_context 3 fresh_os).1 = some sample_shared.net := by decide
  have hd : disciplined_run
      ([CtxAction.active (AtomicOp.fetch_add 5), CtxAction.active AtomicOp.load,
        CtxAction.active (AtomicOp.fetch_sub 3)] ++
       [CtxAction.seen (AtomicOp.fetch_add 1000), CtxAction.seen AtomicOp.load])
      sample_shared := by
    simp only [List.cons_append, List.nil_append, disciplined_run, ctx_step,
      CtxAction.disciplined, AtomicOp.apply, sample_shared, sample_net, wrap32, wrap64]
    norm_num
  refine ⟨hc, hd, _, _, rfl, rfl, by decide, by decide, ?_⟩
  have h := counters_invariant 3 fresh_os sample_shared _ _ _ _ hc hd rfl rfl
  exact ⟨h.2.2.2.1, h.2.2.2.2.2.1⟩

/-- C12, counterexample to the claim as stated: from the context `create` returns, one
`atomic_fetch_sub(&active_threads, 1)` leaves `active_threads = -1`, and an
`atomic_store(&seen_samples, 0)` after `atomic_fetch_add(&seen_samples, 1000)` takes
`seen_samples` from 1000 back to 0. -/
theorem counters_invariant_broken :
    (create_network_sync_context 3 fresh_os).1 = some sample_shared.net ∧
    (ctx_run [CtxAction.active (AtomicOp.fetch_sub 1)] sample_shared).map
      (fun s => s.net.active_threads) = some (-1) ∧
    (ctx_run [CtxAction.seen (AtomicOp.fetch_add 1000)] sample_shared).map
      (fun s => s.net.seen_samples) = some 1000 ∧
    (ctx_run [CtxAction.seen (AtomicOp.fetch_add 1000), CtxAction.seen (AtomicOp.store 0)]
      sample_shared).map (fun s => s.net.seen_samples) = some 0 := by
  refine ⟨by decide, by decide, by decide, by decide⟩

/-! ## Creation of the demo context -/

/-- C13: when the allocation, the three `pthread_mutex_init` calls and the two
`pthread_cond_init` calls succeed, `create_demo_sync_context` returns a non-NULL context
whose three mutexes (buffer, prediction, display) are initialised and free and whose two
condition variables (buffer_ready, detection_done) are initialised, with
`buffer_index = 0` and `demo_running = true`; the process then holds exactly three mutexes,
two condition variables and one heap block more than before. -/
theorem create_demo_sync_context_ok (os : OS)
    (hctx : (calloc Block.demo_ctx 1 os).1 = true)
    (hm : ∀ b ∈ os.mutex_init_results.take 3, b = true)
    (hcv : ∀ b ∈ os.cond_init_results.take 2, b = true) :
    (create_demo_sync_context os).1 =
      some { buffer_mutex := MutexState.unlocked, prediction_mutex := MutexState.unlocked,
             display_mutex := MutexState.unlocked, buffer_ready := CondState.ready,
             detection_done := CondState.ready, buffer_index := 0, demo_running := true } ∧
    (create_demo_sync_context os).2.mutexes = os.mutexes + 3 ∧
    (create_demo_sync_context os).2.conds = os.conds + 2 ∧
    (create_demo_sync_context os).2.blocks = os.blocks + 1 := by
  obtain ⟨m1, hm1⟩ := next_result_ok _ 2 hm
  obtain ⟨m2, hm2⟩ := next_result_ok _ 1 hm1
  obtain ⟨m3, -⟩ := next_result_ok _ 0 hm2
  obtain ⟨c1, hc1⟩ := next_result_ok _ 1 hcv
  obtain ⟨c2, -⟩ := next_result_ok _ 0 hc1
  have e1 := calloc_effect Block.demo_ctx 1 os
  rw [hctx] at e1
  have er : (calloc Block.demo_ctx 1 os).2.cond_init_results = os.cond_init_results := rfl
  obtain ⟨em, ec, ei, -, eb⟩ := e1
  simp only [create_demo_sync_context, hctx, Bool.not_true, Bool.false_eq_true, if_false,
    pthread_mutex_init, pthread_cond_init, ei, er, m1, m2, m3, c1, c2, if_true, em, ec, eb]
  exact ⟨trivial, trivial, trivial, trivial⟩

theorem create_demo_sync_context_ok_witness :
    (calloc Block.demo_ctx 1 fresh_os).1 = true ∧
    (create_demo_sync_context fresh_os).1 = some sample_demo ∧
    (create_demo_sync_context fresh_os).2.mutexes = 3 ∧
    (create_demo_sync_context fresh_os).2.conds = 2 := by
  have h := create_demo_sync_context_ok fresh_os (by decide) (by simp [fresh_os])
    (by simp [fresh_os])
  exact ⟨by decide, h.1, h.2.1, h.2.2.1⟩

/-! ## Rounding to the nearest integer -/

theorem rne_char (x : ℚ) :
    |x - rne x| < 1 / 2 ∨ (|x - rne x| = 1 / 2 ∧ rne x % 2 = 0) := by
  have h1 := Int.floor_le x
  have h2 := Int.lt_floor_add_one x
  unfold rne
  split_ifs with ha hb hc
  · left
    rw [abs_lt]
    constructor <;> linarith
  · left
    push_cast
    rw [abs_lt]
    constructor <;> linarith
  · right
    have he : x - ⌊x⌋ = 1 / 2 := le_antisymm (not_lt.mp hb) (not_lt.mp ha)
    refine ⟨?_, hc⟩
    rw [he]
    norm_num
  · right
    have he : x - ⌊x⌋ = 1 / 2 := le_antisymm (not_lt.mp hb) (not_lt.mp ha)
    constructor
    · push_cast
      have : x - (⌊x⌋ + 1) = -(1 / 2) := by linarith
      rw [this]
      norm_num
    · omega

theorem rne_spec (x : ℚ) : (rne x : ℚ) - 1 / 2 ≤ x ∧ x ≤ rne x + 1 / 2 := by
  rcases rne_char x with h | ⟨h, -⟩
  · rw [abs_lt] at h
    constructor <;> linarith [h.1, h.2]
  · have := abs_le.mp (le_of_eq h)
    constructor <;> linarith [this.1, this.2]

theorem rne_unique (x : ℚ) (m : ℤ)
    (h : |x - m| < 1 / 2 ∨ (|x - m| = 1 / 2 ∧ m % 2 = 0)) : rne x = m := by
  have hs := rne_spec x
  by_contra hne
  have hcases : rne x + 1 ≤ m ∨ m + 1 ≤ rne x := by omega
  rcases h with h | ⟨h, hm⟩
  · rw [abs_lt] at h
    rcases hcases with hc | hc
    · have : (rne x : ℚ) + 1 ≤ m := by exact_mod_cast hc
      linarith [h.1, h.2, hs.1, hs.2]
    · have : (m : ℚ) + 1 ≤ rne x := by exact_mod_cast hc
      linarith [h.1, h.2, hs.1, hs.2]
  · have hb := abs_le.mp (le_of_eq h)
    rcases rne_char x with hr | ⟨hr, hev⟩
    · rw [abs_lt] at hr
      rcases hcases with hc | hc
      · have : (rne x : ℚ) + 1 ≤ m := by exact_mod_cast hc
        linarith [hb.1, hb.2, hr.1, hr.2]
      · have : (m : ℚ) + 1 ≤ rne x := by exact_mod_cast hc
        linarith [hb.1, hb.2, hr.1, hr.2]
    · have hrb := abs_le.mp (le_of_eq hr)
      have hclose : (m : ℚ) - rne x ≤ 1 ∧ (rne x : ℚ) - m ≤ 1 := by
        constructor <;> linarith [hb.1, hb.2, hrb.1, hrb.2]
      have h1 : m - rne x ≤ 1 := by exact_mod_cast hclose.1
      have h2 : rne x - m ≤ 1 := by exact_mod_cast hclose.2
      omega

theorem rne_eq_of_lt (x : ℚ) (m : ℤ) (h1 : (m : ℚ) - 1 / 2 < x) (h2 : x < m + 1 / 2) :
    rne x = m := by
  apply rne_unique
  left
  rw [abs_lt]
  constructor <;> linarith

theorem rne_intCast (m : ℤ) : rne (m : ℚ) = m :=
  rne_eq_of_lt _ _ (by linarith) (by linarith)

theorem rne_zero : rne 0 = 0 := by
  have := rne_intCast 0
  simpa using this

theorem rne_neg (x : ℚ) : rne (-x) = -rne x := by
  apply rne_unique
  rcases rne_char x with h | ⟨h, hev⟩
  · left
    push_cast
    rw [show -x - -(rne x : ℚ) = -(x - rne x) by ring, abs_neg]
    exact h
  · right
    push_cast
    rw [show -x - -(rne x : ℚ) = -(x - rne x) by ring, abs_neg]
    exact ⟨h, by omega⟩

theorem rne_mono (x y : ℚ) (h : x ≤ y) : rne x ≤ rne y := by
  by_contra hlt
  have hc : rne y + 1 ≤ rne x := by omega
  have hq : (rne y : ℚ) + 1 ≤ rne x := by exact_mod_cast hc
  have hx := rne_spec x
  have hy := rne_spec y
  have hxy : x = y := le_antisymm h (by linarith [hx.1, hy.2])
  rw [hxy] at hlt
  exact hlt (le_refl _)

theorem rne_le_of_le (x : ℚ) (m : ℤ) (h : x ≤ m) : rne x ≤ m := by
  have := rne_mono x m h
  rwa [rne_intCast] at this

theorem rne_ge_of_ge (x : ℚ) (m : ℤ) (h : (m : ℚ) ≤ x) : m ≤ rne x := by
  have := rne_mono m x h
  rwa [rne_intCast] at this

/-! ## Rounding to a format -/

theorem log_bounds (x : ℚ) (hx : 0 < x) :
    (2 : ℚ) ^ Int.log 2 x ≤ x ∧ x < (2 : ℚ) ^ (Int.log 2 x + 1) := by
  have h1 := Int.zpow_log_le_self (b := 2) (by norm_num) hx
  have h2 := Int.lt_zpow_succ_log_self (b := 2) (by norm_num) x
  exact ⟨by simpa using h1, by simpa using h2⟩

theorem le_log_of_pow_le (x : ℚ) (j : ℤ) (hx : 0 < x) (h : (2 : ℚ) ^ j ≤ x) :
    j ≤ Int.log 2 x := by
  have := (Int.zpow_le_iff_le_log (b := 2) (by norm_num) hx (x := j)).mp (by simpa using h)
  exact this

theorem log_lt_of_lt_pow (x : ℚ) (j : ℤ) (hx : 0 < x) (h : x < (2 : ℚ) ^ j) :
    Int.log 2 x < j := by
  have := (Int.lt_zpow_iff_log_lt (b := 2) (by norm_num) hx (x := j)).mp (by simpa using h)
  exact this

theorem log_le_of_le_pow (x : ℚ) (j : ℤ) (hx : 0 < x) (h : x ≤ (2 : ℚ) ^ j) :
    Int.log 2 x ≤ j := by
  have h2 : x < (2 : ℚ) ^ (j + 1) := by
    refine lt_of_le_of_lt h ?_
    exact zpow_lt_zpow_right₀ (by norm_num) (by omega)
  have := log_lt_of_lt_pow x (j + 1) hx h2
  omega

theorem log_eq_of_bounds (x : ℚ) (m : ℤ) (h1 : (2 : ℚ) ^ m ≤ x) (h2 : x < (2 : ℚ) ^ (m + 1)) :
    Int.log 2 x = m := by
  have hx : 0 < x := lt_of_lt_of_le (by positivity) h1
  have a := le_log_of_pow_le x m hx h1
  have b := log_lt_of_lt_pow x (m + 1) hx h2
  omega

theorem two_zpow_cast (k : ℤ) (hk : 0 ≤ k) : (((2 : ℤ) ^ k.toNat : ℤ) : ℚ) = (2 : ℚ) ^ k := by
  lift k to ℕ using hk
  simp

theorem quantum_ge (F : Format) (x : ℚ) : F.qmin ≤ F.quantum x := le_max_right _ _

theorem quantum_neg (F : Format) (x : ℚ) : F.quantum (-x) = F.quantum x := by
  simp [Format.quantum]

theorem nearest_zero (F : Format) : F.nearest 0 = 0 := by
  simp [Format.nearest, rne_zero]

theorem nearest_neg (F : Format) (x : ℚ) : F.nearest (-x) = -F.nearest x := by
  simp only [Format.nearest, quantum_neg, neg_div, rne_neg]
  push_cast
  ring

theorem pow_split (e j : ℤ) (h : e ≤ j) :
    (2 : ℚ) ^ j = (2 : ℚ) ^ (j - e).toNat * (2 : ℚ) ^ e := by
  rw [← zpow_natCast, ← zpow_add₀ (by norm_num)]
  congr 1
  omega

theorem nearest_le_grid (F : Format) (x : ℚ) (m j : ℤ) (hq : F.quantum x ≤ j)
    (h : x ≤ m * (2 : ℚ) ^ j) : F.nearest x ≤ m * (2 : ℚ) ^ j := by
  have hpos : (0 : ℚ) < 2 ^ F.quantum x := by positivity
  have hsplit := pow_split _ _ hq
  have hle : x / 2 ^ F.quantum x ≤ ((m * (2 : ℤ) ^ (j - F.quantum x).toNat : ℤ) : ℚ) := by
    rw [div_le_iff₀ hpos]
    push_cast
    rw [mul_assoc, ← hsplit]
    exact h
  have hr := rne_le_of_le _ _ hle
  have hr2 : (rne (x / 2 ^ F.quantum x) : ℚ) ≤
      ((m * (2 : ℤ) ^ (j - F.quantum x).toNat : ℤ) : ℚ) := by
    exact_mod_cast hr
  unfold Format.nearest
  calc (rne (x / 2 ^ F.quantum x) : ℚ) * 2 ^ F.quantum x
      ≤ ((m * (2 : ℤ) ^ (j - F.quantum x).toNat : ℤ) : ℚ) * 2 ^ F.quantum x :=
        mul_le_mul_of_nonneg_right hr2 hpos.le
    _ = m * (2 : ℚ) ^ j := by
        push_cast
        rw [mul_assoc, ← hsplit]

theorem nearest_ge_grid (F : Format) (x : ℚ) (m j : ℤ) (hq : F.quantum x ≤ j)
    (h : m * (2 : ℚ) ^ j ≤ x) : m * (2 : ℚ) ^ j ≤ F.nearest x := by
  have h1 := nearest_le_grid F (-x) (-m) j (by rw [quantum_neg]; exact hq)
    (by push_cast; linarith)
  rw [nearest_neg] at h1
  push_cast at h1
  linarith

theorem nearest_eq_grid (F : Format) (x : ℚ) (m j : ℤ) (hq : F.quantum x ≤ j)
    (h : x = m * (2 : ℚ) ^ j) : F.nearest x = x := by
  apply le_antisymm
  · rw [h] at hq ⊢
    exact nearest_le_grid F _ m j hq (le_refl _)
  · rw [h] at hq ⊢
    exact nearest_ge_grid F _ m j hq (le_refl _)

theorem quantum_le_log (F : Format) (x : ℚ) (hp : 1 ≤ F.prec)
    (h : F.qmin ≤ Int.log 2 |x|) : F.quantum x ≤ Int.log 2 |x| := by
  unfold Format.quantum
  have : (1 : ℤ) ≤ F.prec := by exact_mod_cast hp
  exact max_le (by omega) h

theorem quantum_le_of_abs_lt (F : Format) (x : ℚ) (j : ℤ) (hx : x ≠ 0) (hj : F.qmin ≤ j)
    (h : |x| < (2 : ℚ) ^ (j + F.prec)) : F.quantum x ≤ j := by
  unfold Format.quantum
  have hl := log_lt_of_lt_pow |x| _ (abs_pos.mpr hx) h
  exact max_le (by omega) hj

theorem nearest_ge_pow (F : Format) (hp : 1 ≤ F.prec) (x : ℚ) (j : ℤ) (hj : F.qmin ≤ j)
    (h : (2 : ℚ) ^ j ≤ x) : (2 : ℚ) ^ j ≤ F.nearest x := by
  have hx : 0 < x := lt_of_lt_of_le (by positivity) h
  have hjl := le_log_of_pow_le x j hx h
  have hq := quantum_le_log F x hp (by rw [abs_of_pos hx]; omega)
  rw [abs_of_pos hx] at hq
  have := nearest_ge_grid F x 1 (Int.log 2 x) hq (by simpa using (log_bounds x hx).1)
  calc (2 : ℚ) ^ j ≤ 2 ^ Int.log 2 x := zpow_le_zpow_right₀ (by norm_num) hjl
    _ ≤ F.nearest x := by simpa using this

theorem nearest_le_pow (F : Format) (hp : 1 ≤ F.prec) (x : ℚ) (j : ℤ) (hj : F.qmin ≤ j)
    (hx : 0 < x) (h : x ≤ (2 : ℚ) ^ j) : F.nearest x ≤ (2 : ℚ) ^ j := by
  have hl := log_le_of_le_pow x j hx h
  have hq : F.quantum x ≤ j := by
    unfold Format.quantum
    rw [abs_of_pos hx]
    have : (1 : ℤ) ≤ F.prec := by exact_mod_cast hp
    exact max_le (by omega) hj
  simpa using nearest_le_grid F x 1 j hq (by simpa using h)

theorem nearest_nonneg (F : Format) (x : ℚ) (hx : 0 ≤ x) : 0 ≤ F.nearest x := by
  unfold Format.nearest
  have : 0 ≤ rne (x / 2 ^ F.quantum x) :=
    rne_ge_of_ge (x / 2 ^ F.quantum x) 0 (by push_cast; positivity)
  have h2 : (0 : ℚ) ≤ rne (x / 2 ^ F.quantum x) := by exact_mod_cast this
  positivity

theorem nearest_nonpos (F : Format) (x : ℚ) (hx : x ≤ 0) : F.nearest x ≤ 0 := by
  have := nearest_nonneg F (-x) (by linarith)
  rw [nearest_neg] at this
  linarith

theorem nearest_exact (F : Format) (x : ℚ) (m j : ℤ) (hj : F.qmin ≤ j)
    (hm : |(m : ℚ)| < 2 ^ F.prec) (h : x = m * (2 : ℚ) ^ j) : F.nearest x = x := by
  by_cases hx : x = 0
  · rw [hx, nearest_zero]
  · apply nearest_eq_grid F x m j _ h
    apply quantum_le_of_abs_lt F x j hx hj
    rw [h, abs_mul, abs_of_pos (by positivity : (0 : ℚ) < 2 ^ j), add_comm,
      zpow_add₀ (by norm_num), zpow_natCast]
    exact mul_lt_mul_of_pos_right hm (by positivity)

theorem nearest_abs_le_grid (F : Format) (x : ℚ) (m j : ℤ) (hq : F.quantum x ≤ j)
    (h : |x| ≤ m * (2 : ℚ) ^ j) : |F.nearest x| ≤ m * (2 : ℚ) ^ j := by
  rw [abs_le] at h ⊢
  constructor
  · have := nearest_ge_grid F x (-m) j hq (by push_cast; linarith [h.1])
    push_cast at this
    linarith
  · exact nearest_le_grid F x m j hq h.2

theorem fmax_lt (F : Format) : F.fmax < (2 : ℚ) ^ (F.qmax + F.prec) := by
  unfold Format.fmax
  rw [add_comm, zpow_add₀ (by norm_num), zpow_natCast]
  have : (0 : ℚ) < 2 ^ F.qmax := by positivity
  exact mul_lt_mul_of_pos_right (by linarith) this

theorem fmax_nonneg (F : Format) : 0 ≤ F.fmax := by
  unfold Format.fmax
  have : (1 : ℚ) ≤ 2 ^ F.prec := one_le_pow₀ (by norm_num)
  have h2 : (0 : ℚ) < 2 ^ F.qmax := by positivity
  have h3 : (0 : ℚ) ≤ 2 ^ F.prec - 1 := by linarith
  positivity

theorem nearest_abs_le_fmax (F : Format) (hq : F.qmin ≤ F.qmax) (x : ℚ) (h : |x| ≤ F.fmax) :
    |F.nearest x| ≤ F.fmax := by
  by_cases hx : x = 0
  · rw [hx, nearest_zero, abs_zero]
    exact fmax_nonneg F
  · have hlt : |x| < (2 : ℚ) ^ (F.qmax + F.prec) := lt_of_le_of_lt h (fmax_lt F)
    have hq2 := quantum_le_of_abs_lt F x F.qmax hx hq hlt
    have := nearest_abs_le_grid F x (2 ^ F.prec - 1) F.qmax hq2
      (by unfold Format.fmax at h; push_cast; exact h)
    unfold Format.fmax
    push_cast at this
    exact this

theorem quantum_mono_pos (F : Format) (x y : ℚ) (hx : 0 < x) (h : x ≤ y) :
    F.quantum x ≤ F.quantum y := by
  unfold Format.quantum
  rw [abs_of_pos hx, abs_of_pos (lt_of_lt_of_le hx h)]
  have := Int.log_mono_right (b := 2) hx h
  exact max_le_max (by omega) (le_refl _)

theorem nearest_mono_pos (F : Format) (hp : 1 ≤ F.prec) (x y : ℚ) (hx : 0 < x) (h : x ≤ y) :
    F.nearest x ≤ F.nearest y := by
  have hy : 0 < y := lt_of_lt_of_le hx h
  have hp2 : (1 : ℤ) ≤ F.prec := by exact_mod_cast hp
  rcases (quantum_mono_pos F x y hx h).lt_or_eq with hlt | heq
  · have hqx := quantum_ge F x
    have hL : F.qmin < Int.log 2 y - (F.prec - 1) := by
      by_contra hc
      have : F.quantum y = F.qmin := by
        unfold Format.quantum
        rw [abs_of_pos hy]
        exact max_eq_right (by omega)
      omega
    have hlog : Int.log 2 x < Int.log 2 y := by
      by_contra hc
      have h1 : F.quantum y ≤ F.quantum x := by
        unfold Format.quantum
        rw [abs_of_pos hx, abs_of_pos hy]
        exact max_le_max (by omega) (le_refl _)
      omega
    have hxlt : x ≤ (2 : ℚ) ^ Int.log 2 y := by
      have h1 := (log_bounds x hx).2
      have h2 : (2 : ℚ) ^ (Int.log 2 x + 1) ≤ 2 ^ Int.log 2 y :=
        zpow_le_zpow_right₀ (by norm_num) (by omega)
      linarith
    have h1 := nearest_le_pow F hp x (Int.log 2 y) (by omega) hx hxlt
    have h2 := nearest_ge_pow F hp y (Int.log 2 y) (by omega) (log_bounds y hy).1
    linarith
  · unfold Format.nearest
    rw [heq]
    have hpos : (0 : ℚ) < 2 ^ F.quantum y := by positivity
    have hr := rne_mono (x / 2 ^ F.quantum y) (y / 2 ^ F.quantum y)
      (div_le_div_of_nonneg_right h hpos.le)
    have hr2 : (rne (x / 2 ^ F.quantum y) : ℚ) ≤ rne (y / 2 ^ F.quantum y) := by
      exact_mod_cast hr
    exact mul_le_mul_of_nonneg_right hr2 hpos.le

theorem nearest_mono (F : Format) (hp : 1 ≤ F.prec) (x y : ℚ) (h : x ≤ y) :
    F.nearest x ≤ F.nearest y := by
  rcases lt_trichotomy 0 x with hx | hx | hx
  · exact nearest_mono_pos F hp x y hx h
  · rw [← hx, nearest_zero]
    exact nearest_nonneg F y (by linarith)
  · rcases le_or_lt 0 y with hy | hy
    · exact le_trans (nearest_nonpos F x hx.le) (nearest_nonneg F y hy)
    · have := nearest_mono_pos F hp (-y) (-x) (by linarith) (by linarith)
      rw [nearest_neg, nearest_neg] at this
      linarith

theorem quantum_ge_of_pow_le (F : Format) (x : ℚ) (l : ℤ) (h : (2 : ℚ) ^ l ≤ |x|) :
    l - (F.prec - 1) ≤ F.quantum x := by
  have hx : 0 < |x| := lt_of_lt_of_le (by positivity) h
  have := le_log_of_pow_le |x| l hx h
  unfold Format.quantum
  exact le_max_of_le_left (by omega)

theorem fix_scaled (F : Format) (x : ℚ) (j : ℤ) (h : F.nearest x = x) (hj : j ≤ F.quantum x) :
    ∃ k : ℤ, x = k * (2 : ℚ) ^ j := by
  refine ⟨rne (x / 2 ^ F.quantum x) * 2 ^ (F.quantum x - j).toNat, ?_⟩
  have hs := pow_split j (F.quantum x) hj
  push_cast
  rw [mul_assoc, ← hs]
  exact h.symm

theorem fix_repr (F : Format) (x : ℚ) (h : F.nearest x = x) :
    ∃ m j : ℤ, x = m * (2 : ℚ) ^ j ∧ |(m : ℚ)| < 2 ^ F.prec ∧ F.qmin ≤ j := by
  by_cases hx : x = 0
  · exact ⟨0, F.qmin, by simp [hx], by simp, le_refl _⟩
  · refine ⟨rne (x / 2 ^ F.quantum x), F.quantum x, h.symm, ?_, quantum_ge F x⟩
    have hpos : (0 : ℚ) < 2 ^ F.quantum x := by positivity
    have hm : (rne (x / 2 ^ F.quantum x) : ℚ) = x / 2 ^ F.quantum x := by
      rw [eq_div_iff (ne_of_gt hpos)]
      exact h
    rw [hm, abs_div, abs_of_pos hpos, div_lt_iff₀ hpos]
    have hb := (log_bounds |x| (abs_pos.mpr hx)).2
    have hq : Int.log 2 |x| + 1 ≤ F.prec + F.quantum x := by
      have : Int.log 2 |x| - (F.prec - 1) ≤ F.quantum x := le_max_left _ _
      omega
    calc |x| < (2 : ℚ) ^ (Int.log 2 |x| + 1) := hb
      _ ≤ 2 ^ ((F.prec : ℤ) + F.quantum x) := zpow_le_zpow_right₀ (by norm_num) hq
      _ = 2 ^ F.prec * 2 ^ F.quantum x := by
          rw [zpow_add₀ (by norm_num), zpow_natCast]

theorem nearest_widen (F G : Format) (hp : F.prec ≤ G.prec) (hq : G.qmin ≤ F.qmin) (x : ℚ)
    (h : F.nearest x = x) : G.nearest x = x := by
  obtain ⟨m, j, hx, hm, hj⟩ := fix_repr F x h
  apply nearest_exact G x m j (by omega) _ hx
  calc |(m : ℚ)| < 2 ^ F.prec := hm
    _ ≤ 2 ^ G.prec := pow_le_pow_right₀ (by norm_num) hp

theorem nearest_idem (F : Format) (hp : 1 ≤ F.prec) (x : ℚ) :
    F.nearest (F.nearest x) = F.nearest x := by
  by_cases hx : x = 0
  · rw [hx, nearest_zero, nearest_zero]
  · have hpos : (0 : ℚ) < 2 ^ F.quantum x := by positivity
    have hb := (log_bounds |x| (abs_pos.mpr hx)).2
    have hq : Int.log 2 |x| + 1 ≤ F.prec + F.quantum x := by
      have : Int.log 2 |x| - (F.prec - 1) ≤ F.quantum x := le_max_left _ _
      omega
    have habs : |x| ≤ ((2 ^ F.prec : ℤ) : ℚ) * 2 ^ F.quantum x := by
      push_cast
      calc |x| ≤ (2 : ℚ) ^ (Int.log 2 |x| + 1) := hb.le
        _ ≤ 2 ^ ((F.prec : ℤ) + F.quantum x) := zpow_le_zpow_right₀ (by norm_num) hq
        _ = 2 ^ F.prec * 2 ^ F.quantum x := by
            rw [zpow_add₀ (by norm_num), zpow_natCast]
    have hn := nearest_abs_le_grid F x (2 ^ F.prec) (F.quantum x) (le_refl _) habs
    have hk : |(rne (x / 2 ^ F.quantum x) : ℚ)| ≤ 2 ^ F.prec := by
      unfold Format.nearest at hn
      rw [abs_mul, abs_of_pos hpos] at hn
      push_cast at hn
      exact le_of_mul_le_mul_right hn hpos
    rcases hk.lt_or_eq with hlt | heq
    · exact nearest_exact F _ _ (F.quantum x) (quantum_ge F x) hlt rfl
    · have h1 : (1 : ℚ) < 2 ^ F.prec := one_lt_pow₀ (by norm_num) (by omega)
      rcases abs_eq (by positivity : (0 : ℚ) ≤ 2 ^ F.prec) |>.mp heq with he | he
      · apply nearest_exact F _ 1 (F.quantum x + F.prec) (by have := quantum_ge F x; omega)
          (by simpa using h1)
        unfold Format.nearest
        rw [he, zpow_add₀ (by norm_num), zpow_natCast]
        push_cast
        ring
      · apply nearest_exact F _ (-1) (F.quantum x + F.prec) (by have := quantum_ge F x; omega)
          (by simpa using h1)
        unfold Format.nearest
        rw [he, zpow_add₀ (by norm_num), zpow_natCast]
        push_cast
        ring

/-! ## Values of a format -/

theorem round_eq_fin (F : Format) (x : ℚ) (h : |F.nearest x| ≤ F.fmax) :
    F.round x = FP.fin (F.nearest x) := by
  unfold Format.round
  rw [if_neg (not_lt.mpr h)]

theorem round_eq_inf (F : Format) (x : ℚ) (h : F.fmax < |F.nearest x|) :
    F.round x = FP.inf (decide (x < 0)) := by
  unfold Format.round
  rw [if_pos h]

theorem round_cases (F : Format) (x : ℚ) :
    (F.round x = FP.fin (F.nearest x) ∧ |F.nearest x| ≤ F.fmax) ∨
    (F.round x = FP.inf (decide (x < 0)) ∧ F.fmax < |F.nearest x|) := by
  rcases le_or_lt |F.nearest x| F.fmax with h | h
  · exact Or.inl ⟨round_eq_fin F x h, h⟩
  · exact Or.inr ⟨round_eq_inf F x h, h⟩

theorem round_of_abs_le (F : Format) (hq : F.qmin ≤ F.qmax) (x : ℚ) (h : |x| ≤ F.fmax) :
    F.round x = FP.fin (F.nearest x) :=
  round_eq_fin F x (nearest_abs_le_fmax F hq x h)

theorem lt_abs_of_round_inf (F : Format) (hq : F.qmin ≤ F.qmax) (x : ℚ) (s : Bool)
    (h : F.round x = FP.inf s) : F.fmax < |x| ∧ s = decide (x < 0) := by
  rcases round_cases F x with ⟨h1, _⟩ | ⟨h1, h2⟩
  · rw [h1] at h
    exact FP.noConfusion h
  · rw [h1] at h
    refine ⟨?_, (FP.inf.inj h).symm⟩
    by_contra hc
    have := nearest_abs_le_fmax F hq x (not_lt.mp hc)
    linarith

theorem round_ne_nan (F : Format) (x : ℚ) : F.round x ≠ FP.nan := by
  rcases round_cases F x with ⟨h1, _⟩ | ⟨h1, _⟩ <;> rw [h1] <;> exact FP.noConfusion

theorem grid_abs_le_fmax (F : Format) (m j : ℤ) (hj : j ≤ F.qmax)
    (hm : |(m : ℚ)| < 2 ^ F.prec) : |(m : ℚ) * (2 : ℚ) ^ j| ≤ F.fmax := by
  have hm2 : |m| < 2 ^ F.prec := by
    have : ((|m| : ℤ) : ℚ) < ((2 ^ F.prec : ℤ) : ℚ) := by
      push_cast
      exact hm
    exact_mod_cast this
  have hm3 : |(m : ℚ)| ≤ 2 ^ F.prec - 1 := by
    have : |m| ≤ 2 ^ F.prec - 1 := by omega
    have h2 : ((|m| : ℤ) : ℚ) ≤ ((2 ^ F.prec - 1 : ℤ) : ℚ) := by exact_mod_cast this
    push_cast at h2
    exact h2
  have hpos : (0 : ℚ) < 2 ^ j := by positivity
  rw [abs_mul, abs_of_pos hpos]
  unfold Format.fmax
  exact mul_le_mul hm3 (zpow_le_zpow_right₀ (by norm_num) hj) hpos.le
    (by linarith [abs_nonneg (m : ℚ)])

theorem round_exact (F : Format) (x : ℚ) (m j : ℤ) (hj : F.qmin ≤ j) (hj2 : j ≤ F.qmax)
    (hm : |(m : ℚ)| < 2 ^ F.prec) (h : x = m * (2 : ℚ) ^ j) : F.round x = FP.fin x := by
  have hn := nearest_exact F x m j hj hm h
  have := round_eq_fin F x (by rw [hn, h]; exact grid_abs_le_fmax F m j hj2 hm)
  rw [this, hn]

theorem is_float_fin_iff (b : ℚ) :
    (FP.fin b).is_float ↔ binary32.nearest b = b ∧ |b| ≤ binary32.fmax := by
  show binary32.round b = FP.fin b ↔ _
  constructor
  · intro h
    rcases round_cases binary32 b with ⟨h1, h2⟩ | ⟨h1, _⟩
    · rw [h1] at h
      have hb := FP.fin.inj h
      rw [hb] at h2
      exact ⟨hb, h2⟩
    · rw [h1] at h
      exact FP.noConfusion h
  · rintro ⟨h1, h2⟩
    rw [round_eq_fin binary32 b (by rw [h1]; exact h2), h1]

theorem is_float_of_grid (m j : ℤ) (hj : -149 ≤ j) (hj2 : j ≤ 104) (hm : |(m : ℚ)| < 2 ^ 24) :
    (FP.fin (m * (2 : ℚ) ^ j)).is_float :=
  round_exact binary32 _ m j hj hj2 hm rfl

theorem is_float_zero : (FP.fin 0).is_float := by
  have := is_float_of_grid 0 0 (by norm_num) (by norm_num) (by norm_num)
  simpa using this

theorem is_float_nan : FP.nan.is_float := rfl

theorem is_float_inf (s : Bool) : (FP.inf s).is_float := rfl

theorem cast_is_float (x : FP) : (FP.cast binary32 x).is_float := by
  cases x with
  | nan => rfl
  | inf s => rfl
  | fin q =>
    show (binary32.round q).is_float
    rcases round_cases binary32 q with ⟨h1, h2⟩ | ⟨h1, _⟩
    · rw [h1, is_float_fin_iff]
      exact ⟨nearest_idem binary32 (by decide) q, h2⟩
    · rw [h1]
      rfl

theorem double_of_float (b : ℚ) (h : (FP.fin b).is_float) : binary64.nearest b = b :=
  nearest_widen binary32 binary64 (by decide) (by decide) b ((is_float_fin_iff b).mp h).1

/-- A `float` in a binade is a multiple of the unit in the last place there. -/
theorem float_scaled (b : ℚ) (l : ℤ) (h : (FP.fin b).is_float) (hl : (2 : ℚ) ^ l ≤ |b|) :
    ∃ k : ℤ, b = k * (2 : ℚ) ^ (l - 23) := by
  have h1 := ((is_float_fin_iff b).mp h).1
  have h2 := quantum_ge_of_pow_le binary32 b l hl
  exact fix_scaled binary32 b (l - 23) h1 (by simpa [binary32] using h2)

/-- No `float` lies between one ten-billionth and the `double` nearest to it. -/
theorem float_gap (b : ℚ) (h : (FP.fin b).is_float) (h1 : 1 / 10 ^ 10 ≤ |b|) :
    7737125245533627 / 2 ^ 86 < |b| := by
  by_contra hc
  rw [not_lt] at hc
  obtain ⟨k, hk⟩ := float_scaled b (-34) h (le_trans (by norm_num) h1)
  have hpos : (0 : ℚ) < 2 ^ (-34 - 23 : ℤ) := by positivity
  rw [hk, abs_mul, abs_of_pos hpos] at h1 hc
  have e1 : (14411518 : ℚ) < |(k : ℚ)| := by
    have : (14411518 : ℚ) * 2 ^ (-34 - 23 : ℤ) < 1 / 10 ^ 10 := by norm_num
    by_contra hcc
    rw [not_lt] at hcc
    have := mul_le_mul_of_nonneg_right hcc hpos.le
    linarith
  have e2 : |(k : ℚ)| < 14411519 := by
    have : (7737125245533627 : ℚ) / 2 ^ 86 < 14411519 * 2 ^ (-34 - 23 : ℤ) := by norm_num
    by_contra hcc
    rw [not_lt] at hcc
    have := mul_le_mul_of_nonneg_right hcc hpos.le
    linarith
  have e3 : (14411518 : ℤ) < |k| := by
    have : ((14411518 : ℤ) : ℚ) < ((|k| : ℤ) : ℚ) := by
      push_cast
      exact e1
    exact_mod_cast this
  have e4 : |k| < (14411519 : ℤ) := by
    have : ((|k| : ℤ) : ℚ) < ((14411519 : ℤ) : ℚ) := by
      push_cast
      exact e2
    exact_mod_cast this
  omega

/-! ## `safe_divide` -/

theorem fabs_lt_epsilon (b : ℚ) :
    ((FP.fin b).fabs).lt SAFE_DIV_EPSILON = decide (|b| < 7737125245533627 / 2 ^ 86) := by
  simp only [FP.fabs, SAFE_DIV_EPSILON, FP.lt]

theorem safe_divide_nan (n dflt : FP) : safe_divide n FP.nan dflt = dflt := by
  unfold safe_divide
  simp only [FP.isfinite, Bool.not_false, Bool.true_or, if_true]

theorem safe_divide_inf (n dflt : FP) (s : Bool) : safe_divide n (FP.inf s) dflt = dflt := by
  unfold safe_divide
  simp only [FP.isfinite, Bool.not_false, Bool.true_or, if_true]

theorem safe_divide_small (n dflt : FP) (b : ℚ) (h : |b| < 7737125245533627 / 2 ^ 86) :
    safe_divide n (FP.fin b) dflt = dflt := by
  unfold safe_divide
  simp only [FP.isfinite, fabs_lt_epsilon, h, decide_True, Bool.or_true, if_true]

theorem safe_divide_large (n dflt : FP) (b : ℚ) (h : 7737125245533627 / 2 ^ 86 ≤ |b|) :
    safe_divide n (FP.fin b) dflt =
      if !n.isfinite then dflt else FP.div binary32 n (FP.fin b) := by
  unfold safe_divide
  simp only [FP.isfinite, fabs_lt_epsilon, not_lt.mpr h, decide_False, Bool.not_true,
    Bool.or_false, Bool.false_eq_true, if_false]

theorem safe_divide_fin (a b : ℚ) (dflt : FP) (h : 7737125245533627 / 2 ^ 86 ≤ |b|) :
    safe_divide (FP.fin a) (FP.fin b) dflt = binary32.round (a / b) := by
  have hb : b ≠ 0 := by
    intro hb
    rw [hb, abs_zero] at h
    norm_num at h
  rw [safe_divide_large _ _ _ h]
  simp only [FP.isfinite, Bool.not_true, Bool.false_eq_true, if_false, FP.div, hb]

theorem safe_divide_reference_small (n dflt : FP) (b : ℚ) (h : |b| < 1 / 10 ^ 10) :
    safe_divide_reference n (FP.fin b) dflt = dflt := by
  show (if |b| < 1 / 10 ^ 10 then dflt else _) = _
  rw [if_pos h]

theorem safe_divide_reference_large (n dflt : FP) (b : ℚ) (h : 1 / 10 ^ 10 ≤ |b|) :
    safe_divide_reference n (FP.fin b) dflt =
      if !n.isfinite then dflt else FP.div binary32 n (FP.fin b) := by
  have e : safe_divide_reference n (FP.fin b) dflt =
      if |b| < 1 / 10 ^ 10 then dflt
      else (match n with
        | FP.fin _ => FP.div binary32 n (FP.fin b)
        | _ => dflt) := rfl
  rw [e, if_neg (not_lt.mpr h)]
  cases n <;> rfl

theorem is_float_intro (x : ℚ) (m j : ℤ) (hj : -149 ≤ j) (hj2 : j ≤ 104)
    (hm : |(m : ℚ)| < 2 ^ 24) (h : x = m * (2 : ℚ) ^ j) : (FP.fin x).is_float :=
  round_exact binary32 x m j hj hj2 hm h

theorem is_float_two : (FP.fin 2).is_float :=
  is_float_intro 2 1 1 (by norm_num) (by norm_num) (by norm_num) (by norm_num)

theorem is_float_half : (FP.fin (1 / 2)).is_float :=
  is_float_intro _ 1 (-1) (by norm_num) (by norm_num) (by norm_num) (by norm_num)

theorem fmax32_eq : binary32.fmax = ((2 ^ 24 - 1 : ℤ) : ℚ) * (2 : ℚ) ^ (104 : ℤ) := by
  norm_num [Format.fmax, binary32]

theorem is_float_fmax : (FP.fin binary32.fmax).is_float :=
  is_float_intro _ (2 ^ 24 - 1) 104 (by norm_num) (by norm_num) (by norm_num) fmax32_eq

theorem epsilon_le_two : (7737125245533627 : ℚ) / 2 ^ 86 ≤ |(2 : ℚ)| := by
  rw [abs_of_pos (by norm_num)]
  norm_num

theorem safe_divide_ten_two : safe_divide (FP.fin 10) (FP.fin 2) (FP.fin 0) = FP.fin 5 := by
  rw [safe_divide_fin 10 2 _ epsilon_le_two]
  have e : (10 : ℚ) / 2 = 5 := by norm_num
  rw [e]
  exact round_exact binary32 5 5 0 (by decide) (by decide) (by norm_num [binary32])
    (by norm_num)

theorem nearest_abs_ge_pow (F : Format) (hp : 1 ≤ F.prec) (x : ℚ) (j : ℤ) (hj : F.qmin ≤ j)
    (h : (2 : ℚ) ^ j ≤ |x|) : (2 : ℚ) ^ j ≤ |F.nearest x| := by
  rcases le_or_lt 0 x with hx | hx
  · rw [abs_of_nonneg hx] at h
    exact le_trans (nearest_ge_pow F hp x j hj h) (le_abs_self _)
  · rw [abs_of_neg hx] at h
    have := nearest_ge_pow F hp (-x) j hj h
    rw [nearest_neg] at this
    exact le_trans this (neg_le_abs _)

theorem round_le (F : Format) (hp : 1 ≤ F.prec) (x u : ℚ) (hu : F.nearest u = u)
    (hu2 : |u| ≤ F.fmax) (h : x ≤ u) : (F.round x).le (FP.fin u) = true := by
  have hm := nearest_mono F hp x u h
  rw [hu] at hm
  rcases round_cases F x with ⟨h1, _⟩ | ⟨h1, h2⟩
  · rw [h1]
    simp only [FP.le]
    exact decide_eq_true hm
  · rw [h1]
    by_cases hx : x < 0
    · simp only [FP.le, hx, decide_True]
    · exfalso
      have h0 := nearest_nonneg F x (not_lt.mp hx)
      rw [abs_of_nonneg h0] at h2
      have := le_trans hm (le_trans (le_abs_self u) hu2)
      linarith

theorem round_ge (F : Format) (hp : 1 ≤ F.prec) (x u : ℚ) (hu : F.nearest u = u)
    (hu2 : |u| ≤ F.fmax) (h : u ≤ x) : (FP.fin u).le (F.round x) = true := by
  have hm := nearest_mono F hp u x h
  rw [hu] at hm
  rcases round_cases F x with ⟨h1, _⟩ | ⟨h1, h2⟩
  · rw [h1]
    simp only [FP.le]
    exact decide_eq_true hm
  · rw [h1]
    by_cases hx : x < 0
    · exfalso
      have h0 := nearest_nonpos F x hx.le
      rw [abs_of_nonpos h0] at h2
      have := le_trans (le_trans (neg_le_abs u) hu2) (le_refl _)
      linarith
    · simp only [FP.le, hx, decide_False, Bool.not_false]

theorem lt_of_le_of_neg (v : FP) (u : ℚ) (hu : u < 0) (h : v.le (FP.fin u) = true) :
    v.lt (FP.fin 0) = true := by
  cases v with
  | nan => exact h
  | inf s => exact h
  | fin q =>
    simp only [FP.le, FP.lt, decide_eq_true_eq] at h ⊢
    linarith

/-! ## `safe_divide_eps` -/

theorem is_float_neg_min : (FP.fin (-(2 : ℚ) ^ (-149 : ℤ))).is_float :=
  is_float_intro _ (-1) (-149) (by norm_num) (by norm_num) (by norm_num) (by norm_num)

theorem divisor_grid (b : ℚ) (hb : (FP.fin b).is_float) :
    ∃ m : ℤ, m ≠ 0 ∧ b + 7737125245533627 / 2 ^ 86 = m * (2 : ℚ) ^ (-149 : ℤ) := by
  have h1 := ((is_float_fin_iff b).mp hb).1
  obtain ⟨k, hk⟩ := fix_scaled binary32 b (-149) h1 (quantum_ge binary32 b)
  refine ⟨k + 7737125245533627 * 2 ^ 63, ?_, ?_⟩
  · intro h0
    have hk2 : (k : ℚ) = -(7737125245533627 * 2 ^ 63) := by
      have : ((k + 7737125245533627 * 2 ^ 63 : ℤ) : ℚ) = 0 := by exact_mod_cast h0
      push_cast at this
      linarith
    have hbe : b = -(7737125245533627 / 2 ^ 86) := by
      rw [hk, hk2]
      norm_num
    have habs : |b| = 7737125245533627 / 2 ^ 86 := by
      rw [hbe, abs_neg, abs_of_pos (by norm_num)]
    have := float_gap b hb (by rw [habs]; norm_num)
    rw [habs] at this
    exact lt_irrefl _ this
  · rw [hk]
    push_cast
    norm_num
    ring

theorem divisor_spec (b : ℚ) (hb : (FP.fin b).is_float) :
    FP.add binary64 (FP.fin b) SAFE_DIV_EPSILON =
      FP.fin (binary64.nearest (b + 7737125245533627 / 2 ^ 86)) ∧
    (2 : ℚ) ^ (-149 : ℤ) ≤ |binary64.nearest (b + 7737125245533627 / 2 ^ 86)| := by
  constructor
  · show binary64.round (b + 7737125245533627 / 2 ^ 86) = _
    apply round_of_abs_le binary64 (by decide)
    have h1 := ((is_float_fin_iff b).mp hb).2
    have h2 : |b + 7737125245533627 / 2 ^ 86| ≤ |b| + 7737125245533627 / 2 ^ 86 := by
      refine le_trans (abs_add _ _) ?_
      rw [abs_of_pos (by norm_num : (0 : ℚ) < 7737125245533627 / 2 ^ 86)]
    have h3 : binary32.fmax + 7737125245533627 / 2 ^ 86 ≤ binary64.fmax := by
      norm_num [Format.fmax, binary32, binary64]
    linarith
  · obtain ⟨m, hm, he⟩ := divisor_grid b hb
    apply nearest_abs_ge_pow binary64 (by decide) _ _ (by decide)
    rw [he, abs_mul, abs_of_pos (by positivity : (0 : ℚ) < 2 ^ (-149 : ℤ))]
    have h1 : (1 : ℤ) ≤ |m| := Int.one_le_abs hm
    have h2 : ((1 : ℤ) : ℚ) ≤ ((|m| : ℤ) : ℚ) := by exact_mod_cast h1
    push_cast at h2
    have hpos : (0 : ℚ) < 2 ^ (-149 : ℤ) := by positivity
    nlinarith

theorem divisor_ne_zero (b : ℚ) (hb : (FP.fin b).is_float) :
    binary64.nearest (b + 7737125245533627 / 2 ^ 86) ≠ 0 := by
  intro h
  have := (divisor_spec b hb).2
  rw [h, abs_zero] at this
  have hpos : (0 : ℚ) < 2 ^ (-149 : ℤ) := by positivity
  linarith

theorem safe_divide_eps_fin (a b : ℚ) (hb : (FP.fin b).is_float) :
    safe_divide_eps (FP.fin a) (FP.fin b) =
      FP.cast binary32
        (binary64.round (a / binary64.nearest (b + 7737125245533627 / 2 ^ 86))) := by
  unfold safe_divide_eps
  simp only [FP.isfinite, Bool.not_true, Bool.false_eq_true, if_false]
  rw [(divisor_spec b hb).1]
  simp only [FP.div, divisor_ne_zero b hb, if_false]

theorem safe_divide_eps_not_finite (n d : FP) (h : n.isfinite = false ∨ d.isfinite = false) :
    safe_divide_eps n d = FP.fin 0 := by
  unfold safe_divide_eps
  rcases h with h | h
  · simp only [h, Bool.not_false, if_true]
  · cases hn : n.isfinite
    · simp only [Bool.not_false, if_true]
    · simp only [h, Bool.not_true, Bool.false_eq_true, if_false, Bool.not_false, if_true]

theorem nearest_abs_le_of_fix (F : Format) (hp : 1 ≤ F.prec) (x u : ℚ) (hu : F.nearest u = u)
    (h : |x| ≤ u) : |F.nearest x| ≤ u := by
  rw [abs_le] at h ⊢
  constructor
  · have := nearest_mono F hp (-u) x h.1
    rw [nearest_neg, hu] at this
    exact this
  · have := nearest_mono F hp x u h.2
    rw [hu] at this
    exact this

/-- Evaluation of a rounding: `x` in the binade of `2 ^ l`, and `m` the integer nearest to
`x` in units of the last place. -/
theorem nearest_eval (F : Format) (x : ℚ) (l m : ℤ) (h1 : (2 : ℚ) ^ l ≤ |x|)
    (h2 : |x| < (2 : ℚ) ^ (l + 1)) (hq : F.qmin ≤ l - (F.prec - 1))
    (hm1 : (m : ℚ) - 1 / 2 < x / 2 ^ (l - (F.prec - 1)))
    (hm2 : x / 2 ^ (l - (F.prec - 1)) < m + 1 / 2) :
    F.nearest x = m * (2 : ℚ) ^ (l - (F.prec - 1)) := by
  have hl := log_eq_of_bounds |x| l h1 h2
  have hquant : F.quantum x = l - (F.prec - 1) := by
    unfold Format.quantum
    rw [hl]
    exact max_eq_left hq
  unfold Format.nearest
  rw [hquant, rne_eq_of_lt _ m hm1 hm2]

/-- A `double` result whose magnitude exceeds `FLT_MAX` is the only one that converts to an
infinite `float`; no result converts to NaN. -/
theorem cast_round_cases (x : ℚ) :
    (FP.cast binary32 (binary64.round x)).isfinite = true ∨
    (binary32.fmax < |x| ∧ FP.cast binary32 (binary64.round x) = FP.inf (decide (x < 0))) := by
  rcases round_cases binary64 x with ⟨h1, _⟩ | ⟨h1, _⟩
  · rw [h1]
    show (binary32.round _).isfinite = true ∨ _ ∧ binary32.round _ = _
    rcases round_cases binary32 (binary64.nearest x) with ⟨h3, _⟩ | ⟨h3, h4⟩
    · left
      rw [h3]
      rfl
    · right
      have h5 := (lt_abs_of_round_inf binary32 (by decide) _ _ h3).1
      have h6 : binary32.fmax < |x| := by
        by_contra hc
        have := nearest_abs_le_of_fix binary64 (by decide) x binary32.fmax
          (double_of_float _ is_float_fmax) (not_lt.mp hc)
        linarith
      refine ⟨h6, ?_⟩
      rw [h3]
      have h0 := fmax_nonneg binary32
      have hsign : binary64.nearest x < 0 ↔ x < 0 := by
        constructor
        · intro hn
          by_contra hc
          have := nearest_nonneg binary64 x (not_lt.mp hc)
          linarith
        · intro hx
          have h7 := nearest_nonpos binary64 x hx.le
          rcases h7.lt_or_eq with h8 | h8
          · exact h8
          · rw [h8, abs_zero] at h5
            linarith
      simp only [hsign]
  · right
    have h5 := (lt_abs_of_round_inf binary64 (by decide) _ _ h1).1
    refine ⟨lt_of_le_of_lt (by norm_num [Format.fmax, binary32, binary64]) h5, ?_⟩
    rw [h1]
    rfl

theorem cast_round_overflow (x : ℚ) (h : (2 : ℚ) ^ (128 : ℤ) ≤ x) :
    FP.cast binary32 (binary64.round x) = FP.inf false := by
  have hx : ¬ x < 0 := not_lt.mpr (le_trans (by positivity) h)
  rcases cast_round_cases x with h1 | ⟨_, h1⟩
  · exfalso
    rcases round_cases binary64 x with ⟨h3, _⟩ | ⟨h3, _⟩
    · rw [h3] at h1
      have h4 := nearest_ge_pow binary64 (by decide) x 128 (by decide) h
      have h5 := nearest_ge_pow binary32 (by decide) _ 128 (by decide) h4
      have h6 : binary32.fmax < |binary32.nearest (binary64.nearest x)| := by
        rw [abs_of_nonneg (le_trans (by positivity) h5), fmax32_eq]
        exact lt_of_lt_of_le (by norm_num) h5
      have h7 : FP.cast binary32 (FP.fin (binary64.nearest x)) =
          binary32.round (binary64.nearest x) := rfl
      rw [h7, round_eq_inf binary32 _ h6] at h1
      exact Bool.noConfusion h1
    · rw [h3] at h1
      exact Bool.noConfusion h1
  · rw [h1]
    simp only [hx, decide_False]

theorem divisor_zero :
    binary64.nearest (0 + 7737125245533627 / 2 ^ 86) = 7737125245533627 / 2 ^ 86 := by
  rw [zero_add]
  exact nearest_exact binary64 _ 7737125245533627 (-86) (by decide)
    (by norm_num [binary64]) (by norm_num)

theorem safe_divide_eps_fmax_zero :
    safe_divide_eps (FP.fin binary32.fmax) (FP.fin 0) = FP.inf false := by
  rw [safe_divide_eps_fin _ _ is_float_zero]
  apply cast_round_overflow
  rw [divisor_zero, fmax32_eq]
  norm_num

theorem is_float_ten : (FP.fin 10).is_float :=
  is_float_intro 10 5 1 (by norm_num) (by norm_num) (by norm_num) (by norm_num)

theorem sqrt_nonneg (F : Format) (x : ℚ) : 0 ≤ F.sqrt x := by
  unfold Format.sqrt
  positivity

/-- Evaluation of a square root: `N` is four times the argument in units of the square of
the last place of the result, and `s` its integer square root. -/
theorem sqrt_eval (F : Format) (x : ℚ) (l : ℤ) (N s : ℕ) (hl : Int.log 2 x = l)
    (he : F.qmin ≤ l / 2 - (F.prec - 1))
    (hN : 4 * (x / 4 ^ (l / 2 - (F.prec - 1))) = (N : ℚ))
    (hs1 : s * s ≤ N) (hs2 : N < (s + 1) * (s + 1)) :
    F.sqrt x = (((s + 1) / 2 : ℕ) : ℚ) * 2 ^ (l / 2 - (F.prec - 1)) := by
  unfold Format.sqrt
  simp only [hl, max_eq_left he, hN, Nat.floor_natCast]
  rw [← Nat.eq_sqrt.mpr ⟨hs1, hs2⟩]

/-- The square root of the square of a number of the format is that number. -/
theorem sqrt_sq (F : Format) (m : ℕ) (j : ℤ) (hm : m < 2 ^ F.prec)
    (hj : F.qmin ≤ j) :
    F.sqrt ((m * (2 : ℚ) ^ j) * (m * (2 : ℚ) ^ j)) = m * (2 : ℚ) ^ j := by
  rcases Nat.eq_zero_or_pos m with h0 | h0
  · subst h0
    simp [Format.sqrt]
  · have hpos : (0 : ℚ) < m * (2 : ℚ) ^ j := by positivity
    have hlt : (m : ℚ) * (2 : ℚ) ^ j < 2 ^ (j + F.prec) := by
      rw [add_comm, zpow_add₀ (by norm_num), zpow_natCast]
      exact mul_lt_mul_of_pos_right (by exact_mod_cast hm) (by positivity)
    have hsq : (m * (2 : ℚ) ^ j) * (m * (2 : ℚ) ^ j) < 2 ^ ((j + F.prec) + (j + F.prec)) := by
      rw [zpow_add₀ (by norm_num)]
      exact mul_self_lt_mul_self hpos.le hlt
    have hlog := log_lt_of_lt_pow _ _ (mul_pos hpos hpos) hsq
    generalize hL : Int.log 2 ((m * (2 : ℚ) ^ j) * (m * (2 : ℚ) ^ j)) = L at hlog
    have he : max (L / 2 - (F.prec - 1)) F.qmin ≤ j := by
      apply max_le _ hj
      have : L / 2 ≤ j + F.prec - 1 := by omega
      omega
    generalize hE : max (L / 2 - ((F.prec : ℤ) - 1)) F.qmin = e at he
    have hsplit := pow_split e j he
    have h4 : (4 : ℚ) ^ e = 2 ^ e * 2 ^ e := by
      rw [← mul_zpow]
      norm_num
    have hepos : (0 : ℚ) < 2 ^ e := by positivity
    have hN : 4 * ((m * (2 : ℚ) ^ j) * (m * (2 : ℚ) ^ j) / 4 ^ e) =
        (((2 * (m * 2 ^ (j - e).toNat)) * (2 * (m * 2 ^ (j - e).toNat)) : ℕ) : ℚ) := by
      rw [h4, hsplit]
      push_cast
      field_simp
      ring
    unfold Format.sqrt
    simp only [hL, hE, hN, Nat.floor_natCast, Nat.sqrt_eq]
    have hhalf : (2 * (m * 2 ^ (j - e).toNat) + 1) / 2 = m * 2 ^ (j - e).toNat := by omega
    rw [hhalf, hsplit]
    push_cast
    ring

theorem safe_sqrt_divide_default (n d dflt : FP)
    (h : n.isfinite = false ∨ d.isfinite = false ∨ d.le (FP.fin 0) = true ∨
      n.lt (FP.fin 0) = true) :
    safe_sqrt_divide n d dflt = dflt := by
  unfold safe_sqrt_divide
  rcases h with h | h | h | h
  · simp only [h, Bool.not_false, Bool.true_or, if_true]
  · simp only [h, Bool.not_false, Bool.or_true, if_true]
  · simp only [h, Bool.true_or, if_true, ite_self]
  · simp only [h, Bool.or_true, if_true, ite_self]

theorem safe_sqrt_divide_fin (a b : ℚ) (dflt : FP) (ha : 0 ≤ a) (hb : 0 < b) :
    safe_sqrt_divide (FP.fin a) (FP.fin b) dflt =
      FP.cast binary32 (FP.sqrt binary64 (FP.div binary32 (FP.fin a) (FP.fin b))) := by
  unfold safe_sqrt_divide
  simp only [FP.isfinite, FP.le, FP.lt, Bool.not_true, Bool.or_self, Bool.false_eq_true,
    if_false, not_le.mpr hb, not_lt.mpr ha, decide_False]

theorem div_fin (F : Format) (a b : ℚ) (hb : b ≠ 0) :
    FP.div F (FP.fin a) (FP.fin b) = F.round (a / b) := by
  simp only [FP.div, hb, if_false]

theorem sqrt_fin (F : Format) (q : ℚ) (hq : 0 ≤ q) :
    FP.sqrt F (FP.fin q) = FP.fin (F.sqrt q) := by
  simp only [FP.sqrt, not_lt.mpr hq, if_false]

theorem safe_sqrt_divide_nonneg (a b : ℚ) (dflt : FP) (ha : 0 ≤ a) (hb : 0 < b) :
    (FP.fin 0).le (safe_sqrt_divide (FP.fin a) (FP.fin b) dflt) = true := by
  rw [safe_sqrt_divide_fin a b dflt ha hb, div_fin _ a b (ne_of_gt hb)]
  have hx : ¬ a / b < 0 := not_lt.mpr (div_nonneg ha hb.le)
  rcases round_cases binary32 (a / b) with ⟨h1, _⟩ | ⟨h1, _⟩
  · rw [h1, sqrt_fin _ _ (nearest_nonneg _ _ (div_nonneg ha hb.le))]
    exact round_ge binary32 (by decide) _ 0 (nearest_zero _)
      (by rw [abs_zero]; exact fmax_nonneg _) (sqrt_nonneg _ _)
  · rw [h1]
    simp only [hx, decide_False]
    rfl

theorem safe_sqrt_divide_exact (a b r : ℚ) (dflt : FP) (ha : 0 ≤ a) (hb : 0 < b) (hr : 0 ≤ r)
    (hf : (FP.fin r).is_float)
    (hq : FP.div binary32 (FP.fin a) (FP.fin b) = FP.fin (r * r)) :
    safe_sqrt_divide (FP.fin a) (FP.fin b) dflt = FP.fin r := by
  rw [safe_sqrt_divide_fin a b dflt ha hb, hq, sqrt_fin _ _ (mul_self_nonneg r)]
  obtain ⟨m, j, hx, hm, hj⟩ := fix_repr binary32 r ((is_float_fin_iff r).mp hf).1
  have hm0 : 0 ≤ m := by
    by_contra hc
    have h1 : (m : ℚ) < 0 := by exact_mod_cast not_le.mp hc
    have h2 : (0 : ℚ) < 2 ^ j := by positivity
    have := mul_neg_of_neg_of_pos h1 h2
    linarith
  obtain ⟨k, hk⟩ := Int.eq_ofNat_of_zero_le hm0
  subst hk
  have hk2 : k < 2 ^ binary64.prec := by
    have h1 : ((k : ℤ) : ℚ) < 2 ^ 24 := by
      rw [abs_of_nonneg (by positivity)] at hm
      exact hm
    have h2 : (k : ℚ) < ((2 ^ 24 : ℕ) : ℚ) := by
      push_cast at h1 ⊢
      exact h1
    have h3 : k < 2 ^ 24 := by exact_mod_cast h2
    exact lt_trans h3 (by norm_num [binary64])
  have hs := sqrt_sq binary64 k j hk2 (le_trans (by decide) hj)
  have hx2 : r = (k : ℚ) * 2 ^ j := by
    rw [hx]
    push_cast
    rfl
  rw [hx2, hs, ← hx2]
  exact hf

theorem is_float_one : (FP.fin 1).is_float :=
  is_float_intro 1 1 0 (by norm_num) (by norm_num) (by norm_num) (by norm_num)

theorem is_float_hundred : (FP.fin 100).is_float :=
  is_float_intro 100 25 2 (by norm_num) (by norm_num) (by norm_num) (by norm_num)

theorem is_float_five : (FP.fin 5).is_float :=
  is_float_intro 5 5 0 (by norm_num) (by norm_num) (by norm_num) (by norm_num)

theorem safe_sqrt_divide_hundred_four :
    safe_sqrt_divide (FP.fin 100) (FP.fin 4) (FP.fin 0) = FP.fin 5 := by
  apply safe_sqrt_divide_exact 100 4 5 _ (by norm_num) (by norm_num) (by norm_num)
    is_float_five
  rw [div_fin _ _ _ (by norm_num)]
  have e : (100 : ℚ) / 4 = 5 * 5 := by norm_num
  rw [e]
  exact round_exact binary32 _ 25 0 (by decide) (by decide) (by norm_num [binary32])
    (by norm_num)

theorem sqrt_two : binary64.sqrt 2 = 6369051672525773 / 2 ^ 52 := by
  have hl : Int.log 2 (2 : ℚ) = 1 := log_eq_of_bounds 2 1 (by norm_num) (by norm_num)
  rw [sqrt_eval binary64 2 1 (2 ^ 107) 12738103345051545 hl (by decide)
    (by norm_num [binary64]) (by norm_num) (by norm_num)]
  norm_num [binary64]

theorem safe_sqrt_divide_two_one :
    safe_sqrt_divide (FP.fin 2) (FP.fin 1) (FP.fin 0) = FP.fin (11863283 / 2 ^ 23) := by
  rw [safe_sqrt_divide_fin 2 1 _ (by norm_num) (by norm_num), div_fin _ _ _ (by norm_num)]
  have e : (2 : ℚ) / 1 = 2 := by norm_num
  rw [e, round_exact binary32 2 1 1 (by decide) (by decide) (by norm_num [binary32])
    (by norm_num), sqrt_fin _ _ (by norm_num), sqrt_two]
  show binary32.round _ = _
  have hn := nearest_eval binary32 (6369051672525773 / 2 ^ 52) 0 11863283
    (by rw [abs_of_pos (by norm_num)]; norm_num)
    (by rw [abs_of_pos (by norm_num)]; norm_num)
    (by decide) (by norm_num [binary32]) (by norm_num [binary32])
  have hn2 : binary32.nearest (6369051672525773 / 2 ^ 52) = 11863283 / 2 ^ 23 := by
    rw [hn]
    norm_num [binary32]
  rw [round_eq_fin binary32 _
    (by rw [hn2, abs_of_pos (by norm_num)]; norm_num [Format.fmax, binary32]), hn2]

theorem no_rational_sqrt_two : ¬ ∃ q : ℚ, q * q = 2 := by
  rintro ⟨q, hq⟩
  have h1 : ((q : ℝ)) * q = 2 := by exact_mod_cast hq
  have h2 : Real.sqrt 2 = |(q : ℝ)| := by
    rw [← h1]
    exact Real.sqrt_mul_self_eq_abs _
  have h3 := irrational_sqrt_two
  rw [h2] at h3
  have h4 : |(q : ℝ)| = ((|q| : ℚ) : ℝ) := by push_cast; rfl
  rw [h4] at h3
  exact Rat.not_irrational _ h3

/-! ## `safe_log` -/

theorem safe_log_default (log : FP → FP) (v dflt : FP)
    (h : v.isfinite = false ∨ v.le (FP.fin 0) = true) : safe_log log v dflt = dflt := by
  unfold safe_log
  rcases h with h | h
  · simp only [h, Bool.not_false, if_true]
  · simp only [h, if_true, ite_self]

theorem safe_log_fin (log : FP → FP) (q : ℚ) (dflt : FP) (h : 0 < q) :
    safe_log log (FP.fin q) dflt = FP.cast binary32 (log (FP.fin q)) := by
  unfold safe_log
  simp only [FP.isfinite, FP.le, Bool.not_true, Bool.false_eq_true, if_false, not_le.mpr h,
    decide_False]

/-- The natural logarithm of two lies strictly between two adjacent `float`s. -/
theorem not_float_log_two : ¬ ∃ q : ℚ, (FP.fin q).is_float ∧ (q : ℝ) = Real.log 2 := by
  rintro ⟨q, hf, hq⟩
  have h1 : ((6931471803 / 10 ^ 10 : ℚ) : ℝ) < (q : ℝ) := by
    rw [hq]
    have := Real.log_two_gt_d9
    norm_num at this ⊢
    linarith
  have h2 : (q : ℝ) < ((6931471808 / 10 ^ 10 : ℚ) : ℝ) := by
    rw [hq]
    have := Real.log_two_lt_d9
    norm_num at this ⊢
    linarith
  have h3 : (6931471803 / 10 ^ 10 : ℚ) < q := by exact_mod_cast h1
  have h4 : q < (6931471808 / 10 ^ 10 : ℚ) := by exact_mod_cast h2
  have hpos : 0 < q := lt_trans (by norm_num) h3
  obtain ⟨k, hk⟩ := float_scaled q (-1) hf
    (by rw [abs_of_pos hpos]; exact le_trans (by norm_num) h3.le)
  rw [hk] at h3 h4
  have h5 : ((11629079 : ℤ) : ℚ) < (k : ℚ) := by
    norm_num at h3 ⊢
    linarith
  have h6 : (k : ℚ) < ((11629080 : ℤ) : ℚ) := by
    norm_num at h4 ⊢
    linarith
  have h7 : (11629079 : ℤ) < k := by exact_mod_cast h5
  have h8 : k < (11629080 : ℤ) := by exact_mod_cast h6
  omega

/-- The base of the natural logarithm lies strictly between two adjacent `float`s. -/
theorem not_float_exp_one : ¬ ∃ q : ℚ, (FP.fin q).is_float ∧ (q : ℝ) = Real.exp 1 := by
  rintro ⟨q, hf, hq⟩
  have h1 : ((27182818283 / 10 ^ 10 : ℚ) : ℝ) < (q : ℝ) := by
    rw [hq]
    have := Real.exp_one_gt_d9
    norm_num at this ⊢
    linarith
  have h2 : (q : ℝ) < ((27182818286 / 10 ^ 10 : ℚ) : ℝ) := by
    rw [hq]
    have := Real.exp_one_lt_d9
    norm_num at this ⊢
    linarith
  have h3 : (27182818283 / 10 ^ 10 : ℚ) < q := by exact_mod_cast h1
  have h4 : q < (27182818286 / 10 ^ 10 : ℚ) := by exact_mod_cast h2
  have hpos : 0 < q := lt_trans (by norm_num) h3
  obtain ⟨k, hk⟩ := float_scaled q 1 hf
    (by rw [abs_of_pos hpos]; exact le_trans (by norm_num) h3.le)
  rw [hk] at h3 h4
  have h5 : ((11401300 : ℤ) : ℚ) < (k : ℚ) := by
    norm_num at h3 ⊢
    linarith
  have h6 : (k : ℚ) < ((11401301 : ℤ) : ℚ) := by
    norm_num at h4 ⊢
    linarith
  have h7 : (11401300 : ℤ) < k := by exact_mod_cast h5
  have h8 : k < (11401301 : ℤ) := by exact_mod_cast h6
  omega

theorem safe_log_not_log_two :
    ¬ ∃ (log : FP → FP) (q : ℚ),
      safe_log log (FP.fin 2) (FP.fin 0) = FP.fin q ∧ (q : ℝ) = Real.log 2 := by
  rintro ⟨log, q, h1, h2⟩
  rw [safe_log_fin log 2 _ (by norm_num)] at h1
  have hf : (FP.fin q).is_float := by
    rw [← h1]
    exact cast_is_float _
  exact not_float_log_two ⟨q, hf, h2⟩

/-! ## The claims on `safe_math.h` -/

/-- C14: for every `float` denominator `safe_divide` equals its reference definition: it
returns the default when the denominator is NaN or infinite, when its magnitude is below
one ten-billionth (zero and small denominators of either sign), or when the numerator is
NaN or infinite; otherwise it returns the `float` quotient. -/
theorem safe_divide_eq_reference (n d default_value : FP) (hd : d.is_float) :
    safe_divide n d default_value = safe_divide_reference n d default_value := by
  cases d with
  | nan => rw [safe_divide_nan]; rfl
  | inf s => rw [safe_divide_inf]; rfl
  | fin b =>
    by_cases h : |b| < 1 / 10 ^ 10
    · have h2 : |b| < 7737125245533627 / 2 ^ 86 := lt_trans h (by norm_num)
      rw [safe_divide_small n default_value b h2,
        safe_divide_reference_small n default_value b h]
    · have h2 := float_gap b hd (not_lt.mp h)
      rw [safe_divide_large n default_value b h2.le,
        safe_divide_reference_large n default_value b (not_lt.mp h)]

theorem safe_divide_eq_reference_witness :
    (FP.fin 2).is_float ∧
    safe_divide (FP.fin 10) (FP.fin 2) (FP.fin 0) =
      safe_divide_reference (FP.fin 10) (FP.fin 2) (FP.fin 0) ∧
    safe_divide (FP.fin 10) (FP.fin 2) (FP.fin 0) = FP.fin 5 :=
  ⟨is_float_two, safe_divide_eq_reference _ _ _ is_float_two, safe_divide_ten_two⟩

/-- C17, as the code has it: `safe_divide_eps` returns 0 when the numerator or the
denominator is NaN or infinite; for every `float` denominator the divisor
`denominator + 1e-10` is a finite `double` other than zero, `safe_divide_eps` never
returns NaN, and its result is finite, or else it is an infinity, the numerator is finite
and its quotient by the divisor exceeds `FLT_MAX` in magnitude. -/
theorem safe_divide_eps_finite (n d : FP) (hd : d.is_float) :
    ((n.isfinite = false ∨ d.isfinite = false) → safe_divide_eps n d = FP.fin 0) ∧
    (∀ b, d = FP.fin b →
      ∃ s, FP.add binary64 d SAFE_DIV_EPSILON = FP.fin s ∧ s ≠ 0) ∧
    (safe_divide_eps n d).isnan = false ∧
    ((safe_divide_eps n d).isfinite = true ∨
      ∃ a s, n = FP.fin a ∧ FP.add binary64 d SAFE_DIV_EPSILON = FP.fin s ∧
        binary32.fmax < |a / s| ∧ (safe_divide_eps n d).isinf = true) := by
  refine ⟨safe_divide_eps_not_finite n d, ?_, ?_⟩
  · intro b hb
    subst hb
    exact ⟨_, (divisor_spec b hd).1, divisor_ne_zero b hd⟩
  · cases hn : n.isfinite
    · rw [safe_divide_eps_not_finite n d (Or.inl hn)]
      exact ⟨rfl, Or.inl rfl⟩
    · cases hdf : d.isfinite
      · rw [safe_divide_eps_not_finite n d (Or.inr hdf)]
        exact ⟨rfl, Or.inl rfl⟩
      · cases n with
        | nan => exact Bool.noConfusion hn
        | inf s => exact Bool.noConfusion hn
        | fin a =>
          cases d with
          | nan => exact Bool.noConfusion hdf
          | inf s => exact Bool.noConfusion hdf
          | fin b =>
            rw [safe_divide_eps_fin a b hd]
            rcases cast_round_cases
              (a / binary64.nearest (b + 7737125245533627 / 2 ^ 86)) with h | ⟨h1, h2⟩
            · refine ⟨?_, Or.inl h⟩
              revert h
              cases FP.cast binary32
                (binary64.round (a / binary64.nearest (b + 7737125245533627 / 2 ^ 86))) with
              | nan => intro h; exact Bool.noConfusion h
              | inf s => intro _; rfl
              | fin q => intro _; rfl
            · rw [h2]
              exact ⟨rfl, Or.inr ⟨a, _, rfl, (divisor_spec b hd).1, h1, rfl⟩⟩

theorem safe_divide_eps_finite_witness :
    (FP.fin 0).is_float ∧
    (∃ s, FP.add binary64 (FP.fin 0) SAFE_DIV_EPSILON = FP.fin s ∧ s ≠ 0) ∧
    (safe_divide_eps (FP.fin 10) (FP.fin 0)).isnan = false ∧
    (safe_divide_eps (FP.fin 10) (FP.fin 0)).isfinite = true := by
  have h := safe_divide_eps_finite (FP.fin 10) (FP.fin 0) is_float_zero
  refine ⟨is_float_zero, h.2.1 0 rfl, h.2.2.1, ?_⟩
  rcases h.2.2.2 with hfin | ⟨a, s, ha, hs, hlt, -⟩
  · exact hfin
  · exfalso
    rw [(divisor_spec 0 is_float_zero).1, divisor_zero] at hs
    rw [← FP.fin.inj ha, ← FP.fin.inj hs, fmax32_eq, abs_of_pos (by norm_num)] at hlt
    norm_num at hlt

/-- C17, counterexample to the claim as stated: `safe_divide_eps(FLT_MAX, 0)` is
`+infinity`, not a finite value. -/
theorem safe_divide_eps_overflows :
    (FP.fin binary32.fmax).is_float ∧ (FP.fin 0).is_float ∧
    safe_divide_eps (FP.fin binary32.fmax) (FP.fin 0) = FP.inf false ∧
    (safe_divide_eps (FP.fin binary32.fmax) (FP.fin 0)).isfinite = false := by
  refine ⟨is_float_fmax, is_float_zero, safe_divide_eps_fmax_zero, ?_⟩
  rw [safe_divide_eps_fmax_zero]
  rfl

/-- C19, as the code has it: `safe_sqrt_divide` returns the default when the numerator or
the denominator is NaN or infinite, when the denominator is at most 0 or the numerator
below 0; otherwise it returns the `double` square root of the `float` quotient, converted
to `float`, which is at least 0 (it may be `+infinity`) and is `r` whenever the `float`
quotient is the square of a `float` `r >= 0`. Hence every result is the default or at
least 0. -/
theorem safe_sqrt_divide_spec (n d default_value : FP) :
    ((n.isfinite = false ∨ d.isfinite = false ∨ d.le (FP.fin 0) = true ∨
        n.lt (FP.fin 0) = true) →
      safe_sqrt_divide n d default_value = default_value) ∧
    (∀ a b, n = FP.fin a → d = FP.fin b → 0 ≤ a → 0 < b →
      safe_sqrt_divide n d default_value =
        FP.cast binary32 (FP.sqrt binary64 (FP.div binary32 n d)) ∧
      (FP.fin 0).le (safe_sqrt_divide n d default_value) = true ∧
      ∀ r, 0 ≤ r → (FP.fin r).is_float → FP.div binary32 n d = FP.fin (r * r) →
        safe_sqrt_divide n d default_value = FP.fin r) ∧
    (safe_sqrt_divide n d default_value = default_value ∨
      (FP.fin 0).le (safe_sqrt_divide n d default_value) = true) := by
  refine ⟨safe_sqrt_divide_default n d default_value, ?_, ?_⟩
  · intro a b hn hd ha hb
    subst hn
    subst hd
    exact ⟨safe_sqrt_divide_fin a b _ ha hb, safe_sqrt_divide_nonneg a b _ ha hb,
      fun r hr hf hq => safe_sqrt_divide_exact a b r _ ha hb hr hf hq⟩
  · cases n with
    | nan => exact Or.inl (safe_sqrt_divide_default _ _ _ (Or.inl rfl))
    | inf s => exact Or.inl (safe_sqrt_divide_default _ _ _ (Or.inl rfl))
    | fin a =>
      cases d with
      | nan => exact Or.inl (safe_sqrt_divide_default _ _ _ (Or.inr (Or.inl rfl)))
      | inf s => exact Or.inl (safe_sqrt_divide_default _ _ _ (Or.inr (Or.inl rfl)))
      | fin b =>
        rcases le_or_lt b 0 with hb | hb
        · exact Or.inl (safe_sqrt_divide_default _ _ _
            (Or.inr (Or.inr (Or.inl (decide_eq_true hb)))))
        · rcases lt_or_le a 0 with ha | ha
          · exact Or.inl (safe_sqrt_divide_default _ _ _
              (Or.inr (Or.inr (Or.inr (decide_eq_true ha)))))
          · exact Or.inr (safe_sqrt_divide_nonneg a b _ ha hb)

/-- C19, counterexample to the claim as stated: `safe_sqrt_divide(2, 1, 0)` is
`11863283 / 2^23`, whose square is not `2 / 1`; no rational number has square 2. -/
theorem safe_sqrt_divide_inexact :
    safe_sqrt_divide (FP.fin 2) (FP.fin 1) (FP.fin 0) = FP.fin (11863283 / 2 ^ 23) ∧
    (11863283 / 2 ^ 23 : ℚ) * (11863283 / 2 ^ 23) ≠ 2 / 1 ∧
    (¬ ∃ q : ℚ, q * q = 2) ∧
    safe_sqrt_divide (FP.fin 100) (FP.fin 4) (FP.fin 0) = FP.fin 5 :=
  ⟨safe_sqrt_divide_two_one, by norm_num, no_rational_sqrt_two, safe_sqrt_divide_hundred_four⟩

/-- C20, as the code has it: `safe_log` returns the default when the value is NaN or
infinite or at most 0, and for every finite value above 0 the result of the library's
`log` converted to `float`: a `float`, below 0 when that result is at most `-2^-149`;
`safe_log(1, dflt)` is 0 when the library's `log(1)` is 0. -/
theorem safe_log_spec (log : FP → FP) (v default_value : FP) :
    ((v.isfinite = false ∨ v.le (FP.fin 0) = true) →
      safe_log log v default_value = default_value) ∧
    (∀ q, v = FP.fin q → 0 < q →
      safe_log log v default_value = FP.cast binary32 (log v) ∧
      (safe_log log v default_value).is_float ∧
      ∀ l, log v = FP.fin l → l ≤ -(2 : ℚ) ^ (-149 : ℤ) →
        (safe_log log v default_value).lt (FP.fin 0) = true) ∧
    (log (FP.fin 1) = FP.fin 0 → safe_log log (FP.fin 1) default_value = FP.fin 0) := by
  refine ⟨safe_log_default log v default_value, ?_, ?_⟩
  · intro q hv hq
    subst hv
    rw [safe_log_fin log q default_value hq]
    refine ⟨rfl, cast_is_float _, ?_⟩
    intro l hl hle
    rw [hl]
    have hneg : -(2 : ℚ) ^ (-149 : ℤ) < 0 := neg_neg_of_pos (by positivity)
    have h1 := (is_float_fin_iff _).mp is_float_neg_min
    exact lt_of_le_of_neg _ _ hneg
      (round_le binary32 (by decide) l _ h1.1 h1.2 hle)
  · intro h
    rw [safe_log_fin log 1 default_value (by norm_num), h]
    exact is_float_zero

/-- C20, counterexample to the claim as stated: whatever the library's `log` returns,
`safe_log(2, 0)` is not the natural logarithm of 2, which is no `float`; and the base `e`
of the natural logarithm is no `float`, so that no call is `safe_log(e, dflt)`. -/
theorem safe_log_inexact :
    (FP.fin 2).is_float ∧
    (¬ ∃ (log : FP → FP) (q : ℚ),
      safe_log log (FP.fin 2) (FP.fin 0) = FP.fin q ∧ (q : ℝ) = Real.log 2) ∧
    (¬ ∃ q : ℚ, (FP.fin q).is_float ∧ (q : ℝ) = Real.exp 1) :=
  ⟨is_float_two, safe_log_not_log_two, not_float_exp_one⟩

/-! ## `safe_rand_divide` -/

theorem size_t_id (x : Int) (h0 : 0 ≤ x) (h1 : x < 2 ^ 64) : (size_t x : Int) = x := by
  unfold size_t
  rw [Int.emod_eq_of_lt h0 h1]
  exact Int.toNat_of_nonneg h0

/-- C21: for every `rand()` value `r` with `0 <= r <= RAND_MAX` and every `range`,
`safe_rand_divide(range)` divides by no zero; it is `r / (RAND_MAX / range + 1)` and lies
in `[0, range)` when `range >= 1`, so it is 0 for `range = 1`; for `range = 0` it is 0 and
no division is evaluated; the divisor `RAND_MAX / range + 1` is never zero. -/
theorem safe_rand_divide_in_range (RAND_MAX r : Int) (range : Nat)
    (hr0 : 0 ≤ r) (hr : r ≤ RAND_MAX) (hmax : RAND_MAX < 2 ^ 31) (hrange : range < 2 ^ 64) :
    (range = 0 →
      safe_rand_divide RAND_MAX r range = some 0 ∧
      safe_rand_divide_divisors RAND_MAX range = []) ∧
    (1 ≤ range →
      safe_rand_divide RAND_MAX r range = some (r.toNat / (RAND_MAX.toNat / range + 1)) ∧
      r.toNat / (RAND_MAX.toNat / range + 1) < range) ∧
    (range = 1 → safe_rand_divide RAND_MAX r range = some 0) ∧
    rand_divisor RAND_MAX range ≠ 0 ∧
    ∀ d ∈ safe_rand_divide_divisors RAND_MAX range, d ≠ 0 := by
  have hM0 : 0 ≤ RAND_MAX := le_trans hr0 hr
  have hsM : size_t RAND_MAX = RAND_MAX.toNat := by
    have := size_t_id RAND_MAX hM0 (lt_trans hmax (by norm_num))
    omega
  have hsr : size_t r = r.toNat := by
    have := size_t_id r hr0 (lt_of_le_of_lt hr (lt_trans hmax (by norm_num)))
    omega
  have hMlt : RAND_MAX.toNat < 2 ^ 31 := by omega
  have hdiv : RAND_MAX.toNat / range ≤ RAND_MAX.toNat := Nat.div_le_self _ _
  have hd : rand_divisor RAND_MAX range = RAND_MAX.toNat / range + 1 := by
    unfold rand_divisor
    rw [hsM]
    exact Nat.mod_eq_of_lt (by omega)
  have hval : 1 ≤ range →
      safe_rand_divide RAND_MAX r range = some (r.toNat / (RAND_MAX.toNat / range + 1)) := by
    intro h1
    unfold safe_rand_divide
    rw [if_neg (by omega), hd, if_neg (Nat.succ_ne_zero _), hsr]
  have hlt : 1 ≤ range → r.toNat / (RAND_MAX.toNat / range + 1) < range := by
    intro h1
    rw [Nat.div_lt_iff_lt_mul (Nat.succ_pos _)]
    have h2 : RAND_MAX.toNat < range * (RAND_MAX.toNat / range + 1) := by
      have := Nat.div_add_mod RAND_MAX.toNat range
      have := Nat.mod_lt RAND_MAX.toNat (by omega : range > 0)
      nlinarith
    have h3 : r.toNat ≤ RAND_MAX.toNat := by omega
    exact lt_of_le_of_lt h3 h2
  refine ⟨?_, fun h1 => ⟨hval h1, hlt h1⟩, ?_, by rw [hd]; exact Nat.succ_ne_zero _, ?_⟩
  · intro h0
    subst h0
    exact ⟨rfl, rfl⟩
  · intro h1
    have h2 := hlt (le_of_eq h1.symm)
    rw [hval (le_of_eq h1.symm)]
    rw [h1] at h2
    rw [h1, Nat.lt_one_iff.mp h2]
  · intro d hd2
    unfold safe_rand_divide_divisors at hd2
    by_cases h0 : range = 0
    · rw [if_pos h0] at hd2
      exact absurd hd2 (List.not_mem_nil d)
    · rw [if_neg h0] at hd2
      simp only [List.mem_cons, List.mem_singleton, List.not_mem_nil, or_false] at hd2
      rcases hd2 with rfl | rfl
      · exact h0
      · rw [hd]
        exact Nat.succ_ne_zero _

theorem safe_rand_divide_in_range_witness :
    (0 : Int) ≤ 1804289383 ∧ (1804289383 : Int) ≤ 2147483647 ∧
    safe_rand_divide 2147483647 1804289383 10 = some 8 ∧
    safe_rand_divide 2147483647 1804289383 1 = some 0 ∧
    safe_rand_divide 2147483647 1804289383 0 = some 0 ∧
    rand_divisor 2147483647 10 = 214748365 := by
  have h := safe_rand_divide_in_range 2147483647 1804289383 10 (by norm_num) (by norm_num)
    (by norm_num) (by norm_num)
  have h1 := safe_rand_divide_in_range 2147483647 1804289383 1 (by norm_num) (by norm_num)
    (by norm_num) (by norm_num)
  refine ⟨by norm_num, by norm_num, ?_, h1.2.2.1 rfl, rfl, by decide⟩
  rw [(h.2.1 (by norm_num)).1]
  decide

/-! ## Loops and memory -/

theorem loop_inv {σ : Type} (I : Nat → σ → Prop) (n : Nat) (body : Nat → σ → σ) (s : σ)
    (h0 : I 0 s) (hstep : ∀ i, i < n → ∀ t, I i t → I (i + 1) (body i t)) :
    I n (loop n body s) := by
  induction n with
  | zero => exact h0
  | succ k ih =>
    exact hstep k (Nat.lt_succ_self k) _
      (ih (fun i hi t ht => hstep i (Nat.lt_succ_of_lt hi) t ht))

theorem loop_rel {σ τ : Type} (R : Nat → σ → τ → Prop) (n : Nat) (f : Nat → σ → σ)
    (g : Nat → τ → τ) (s : σ) (t : τ) (h0 : R 0 s t)
    (hstep : ∀ i, i < n → ∀ a b, R i a b → R (i + 1) (f i a) (g i b)) :
    R n (loop n f s) (loop n g t) := by
  induction n with
  | zero => exact h0
  | succ k ih =>
    exact hstep k (Nat.lt_succ_self k) _ _
      (ih (fun i hi a b hab => hstep i (Nat.lt_succ_of_lt hi) a b hab))

theorem write_val (m : Mem) (p : Ptr) (i : Int) (v : FP) (a : Arr) (j : Int) :
    (m.write p i v).val a j = if a = p.arr ∧ j = p.off + i then v else m.val a j := rfl

theorem write_val_same (m : Mem) (p : Ptr) (i : Int) (v : FP) :
    (m.write p i v).val p.arr (p.off + i) = v := by
  rw [write_val, if_pos ⟨rfl, rfl⟩]

theorem write_val_arr (m : Mem) (p : Ptr) (i : Int) (v : FP) (a : Arr) (j : Int)
    (h : a ≠ p.arr) : (m.write p i v).val a j = m.val a j := by
  rw [write_val, if_neg (fun hc => h hc.1)]

theorem write_val_idx (m : Mem) (p : Ptr) (i : Int) (v : FP) (a : Arr) (j : Int)
    (h : j ≠ p.off + i) : (m.write p i v).val a j = m.val a j := by
  rw [write_val, if_neg (fun hc => h hc.2)]

theorem touch_val (m : Mem) (p : Ptr) (i : Int) : (m.touch p i).val = m.val := rfl

theorem touch_read (m : Mem) (p q : Ptr) (i j : Int) : (m.touch p i).read q j = m.read q j :=
  rfl

/-- Every entry of the log of `m2` is an entry of the log of `m1` or satisfies `P`. -/
theorem logged_refl (P : Arr × Int → Prop) (m : Mem) : ∀ e ∈ m.log, e ∈ m.log ∨ P e :=
  fun _ he => Or.inl he

theorem logged_write (P : Arr × Int → Prop) (m0 m : Mem) (p : Ptr) (i : Int) (v : FP)
    (h : ∀ e ∈ m.log, e ∈ m0.log ∨ P e) (hp : P (p.arr, p.off + i)) :
    ∀ e ∈ (m.write p i v).log, e ∈ m0.log ∨ P e := by
  intro e he
  rcases List.mem_cons.mp he with rfl | he
  · exact Or.inr hp
  · exact h e he

theorem logged_touch (P : Arr × Int → Prop) (m0 m : Mem) (p : Ptr) (i : Int)
    (h : ∀ e ∈ m.log, e ∈ m0.log ∨ P e) (hp : P (p.arr, p.off + i)) :
    ∀ e ∈ (m.touch p i).log, e ∈ m0.log ∨ P e := by
  intro e he
  rcases List.mem_cons.mp he with rfl | he
  · exact Or.inr hp
  · exact h e he

theorem logged_trans (P : Arr × Int → Prop) (m0 m1 m2 : Mem)
    (h1 : ∀ e ∈ m1.log, e ∈ m0.log ∨ P e) (h2 : ∀ e ∈ m2.log, e ∈ m1.log ∨ P e) :
    ∀ e ∈ m2.log, e ∈ m0.log ∨ P e := by
  intro e he
  rcases h2 e he with h | h
  · exact h1 e h
  · exact Or.inr h

theorem logged_loop (P : Arr × Int → Prop) (n : Nat) (body : Nat → Mem → Mem) (m : Mem)
    (h : ∀ i, i < n → ∀ t : Mem, ∀ e ∈ (body i t).log, e ∈ t.log ∨ P e) :
    ∀ e ∈ (loop n body m).log, e ∈ m.log ∨ P e := by
  apply loop_inv (fun _ t => ∀ e ∈ t.log, e ∈ m.log ∨ P e) n body m (logged_refl P m)
  intro i hi t ht
  exact logged_trans P m t _ ht (h i hi t)

theorem toNat_lt (i : Nat) (N : Int) (h : i < N.toNat) : (i : Int) < N := by omega

/-! ## The backward pass of the normalization layer -/

theorem window_min_nonneg (L : layer) (k : Int) : 0 ≤ window_min L k := by
  unfold window_min
  split
  · exact le_refl 0
  · omega

theorem window_max_lt (L : layer) (k : Int) : window_max L k < L.c := by
  unfold window_max
  split
  · omega
  · omega

theorem window_index (L : layer) (k : Int) (j : Nat)
    (hj : j < (window_max L k - window_min L k + 1).toNat) :
    0 ≤ window_min L k + j ∧ window_min L k + j < L.c := by
  have h1 := window_min_nonneg L k
  have h2 := window_max_lt L k
  omega

theorem slab_index (S c k s : Int) (hk : 0 ≤ k) (hkc : k < c) (hs : 0 ≤ s) (hsS : s < S) :
    0 ≤ k * S + s ∧ k * S + s < S * c := by
  have hS : 0 < S := lt_of_le_of_lt hs hsS
  constructor
  · have := mul_nonneg hk hS.le
    omega
  · have h1 : (k + 1) * S ≤ c * S := mul_le_mul_of_nonneg_right (by omega) hS.le
    nlinarith

theorem batch_index (T batch b idx : Int) (hb : 0 ≤ b) (hbb : b < batch) (h0 : 0 ≤ idx)
    (h1 : idx < T) : 0 ≤ T * b + idx ∧ T * b + idx < T * batch := by
  have hT : 0 < T := lt_of_le_of_lt h0 h1
  constructor
  · have := mul_nonneg hT.le hb
    omega
  · have h2 : T * (b + 1) ≤ T * batch := mul_le_mul_of_nonneg_left (by omega) hT.le
    nlinarith

theorem backward_sum_val (pow : FP → FP → FP) (L : layer) (input output delta_out norms : Ptr)
    (k s : Int) (m : Mem) :
    (backward_sum pow L input output delta_out norms k s m).2.val = m.val := by
  unfold backward_sum
  exact loop_inv (fun _ (st : FP × Mem) => st.2.val = m.val) _ _ _ rfl (fun i _ t ht => ht)

theorem backward_sum_float (pow : FP → FP → FP) (L : layer)
    (input output delta_out norms : Ptr) (k s : Int) (m : Mem) :
    (backward_sum pow L input output delta_out norms k s m).1.is_float := by
  unfold backward_sum
  exact loop_inv (fun _ (st : FP × Mem) => st.1.is_float) _ _ _ (cast_is_float _)
    (fun i _ t _ => cast_is_float _)

theorem backward_sum_log (pow : FP → FP → FP) (L : layer) (input output delta_out norms : Ptr)
    (k s : Int) (m : Mem) (P : Arr × Int → Prop)
    (hP : ∀ (a : Ptr) (i : Int), 0 ≤ i → i < L.c →
      (a = input ∨ a = output ∨ a = delta_out ∨ a = norms) →
      P (a.arr, a.off + (i * (L.w * L.h) + s)))
    (hk : 0 ≤ k) (hkc : k < L.c) :
    ∀ e ∈ (backward_sum pow L input output delta_out norms k s m).2.log, e ∈ m.log ∨ P e := by
  unfold backward_sum
  dsimp only
  apply loop_inv (fun _ (st : FP × Mem) => ∀ e ∈ st.2.log, e ∈ m.log ∨ P e)
  · apply logged_touch P m _ input
    · apply logged_touch P m _ norms
      · apply logged_touch P m _ delta_out
        · exact logged_refl P m
        · exact hP delta_out k hk hkc (Or.inr (Or.inr (Or.inl rfl)))
      · exact hP norms k hk hkc (Or.inr (Or.inr (Or.inr rfl)))
    · exact hP input k hk hkc (Or.inl rfl)
  · intro j hj t ht
    have hi := window_index L k j hj
    apply logged_touch P m _ norms
    · apply logged_touch P m _ output
      · apply logged_touch P m _ delta_out
        · exact ht
        · exact hP delta_out _ hi.1 hi.2 (Or.inr (Or.inr (Or.inl rfl)))
      · exact hP output _ hi.1 hi.2 (Or.inr (Or.inl rfl))
    · exact hP norms _ hi.1 hi.2 (Or.inr (Or.inr (Or.inr rfl)))

theorem backward_sum_congr (pow : FP → FP → FP) (L : layer)
    (i1 o1 d1 n1 i2 o2 d2 n2 : Ptr) (k s : Int) (a b : Mem)
    (hk : 0 ≤ k) (hkc : k < L.c) (hs : 0 ≤ s) (hsS : s < L.w * L.h)
    (hi : ∀ idx, 0 ≤ idx → idx < L.w * L.h * L.c → a.read i1 idx = b.read i2 idx)
    (ho : ∀ idx, 0 ≤ idx → idx < L.w * L.h * L.c → a.read o1 idx = b.read o2 idx)
    (hd : ∀ idx, 0 ≤ idx → idx < L.w * L.h * L.c → a.read d1 idx = b.read d2 idx)
    (hn : ∀ idx, 0 ≤ idx → idx < L.w * L.h * L.c → a.read n1 idx = b.read n2 idx) :
    (backward_sum pow L i1 o1 d1 n1 k s a).1 = (backward_sum pow L i2 o2 d2 n2 k s b).1 := by
  have hidx : ∀ i, 0 ≤ i → i < L.c →
      0 ≤ i * (L.w * L.h) + s ∧ i * (L.w * L.h) + s < L.w * L.h * L.c :=
    fun i h0 h1 => slab_index (L.w * L.h) L.c i s h0 h1 hs hsS
  have hk2 := hidx k hk hkc
  unfold backward_sum
  have key := loop_rel
    (fun _ (x y : FP × Mem) => x.1 = y.1 ∧ x.2.val = a.val ∧ y.2.val = b.val)
    (window_max L k - window_min L k + 1).toNat
    (fun j st => backward_window pow L o1 d1 n1
      (FP.mul binary32 (FP.mul binary32 (FP.mul binary32 (FP.fin (-2)) L.alpha) L.beta)
        (a.read i1 (k * (L.w * L.h) + s))) s (window_min L k + j) st)
    (fun j st => backward_window pow L o2 d2 n2
      (FP.mul binary32 (FP.mul binary32 (FP.mul binary32 (FP.fin (-2)) L.alpha) L.beta)
        (b.read i2 (k * (L.w * L.h) + s))) s (window_min L k + j) st)
    (FP.cast binary32 (FP.mul binary64 (a.read d1 (k * (L.w * L.h) + s))
        (pow (a.read n1 (k * (L.w * L.h) + s)) (FP.neg L.beta))),
      ((a.touch d1 (k * (L.w * L.h) + s)).touch n1 (k * (L.w * L.h) + s)).touch i1
        (k * (L.w * L.h) + s))
    (FP.cast binary32 (FP.mul binary64 (b.read d2 (k * (L.w * L.h) + s))
        (pow (b.read n2 (k * (L.w * L.h) + s)) (FP.neg L.beta))),
      ((b.touch d2 (k * (L.w * L.h) + s)).touch n2 (k * (L.w * L.h) + s)).touch i2
        (k * (L.w * L.h) + s))
    ⟨by rw [hd _ hk2.1 hk2.2, hn _ hk2.1 hk2.2], rfl, rfl⟩
    (by
      intro j hj x y hxy
      obtain ⟨h1, h2, h3⟩ := hxy
      have hw := window_index L k j hj
      have hj2 := hidx _ hw.1 hw.2
      refine ⟨?_, h2, h3⟩
      have r1 : ∀ p idx, x.2.read p idx = a.read p idx := fun p idx => by
        unfold Mem.read
        rw [h2]
      have r2 : ∀ p idx, y.2.read p idx = b.read p idx := fun p idx => by
        unfold Mem.read
        rw [h3]
      unfold backward_window
      simp only [r1, r2, h1, hi _ hk2.1 hk2.2, hd _ hj2.1 hj2.2, ho _ hj2.1 hj2.2,
        hn _ hj2.1 hj2.2])
  exact key.1

theorem backward_element_val (pow : FP → FP → FP) (L : layer)
    (input output delta_in delta_out norms : Ptr) (k s : Int) (m : Mem) (x : Arr) (j : Int) :
    (backward_element pow L input output delta_in delta_out norms k s m).val x j =
      if x = delta_in.arr ∧ j = delta_in.off + (k * (L.w * L.h) + s) then
        FP.add binary32 (m.read delta_in (k * (L.w * L.h) + s))
          (backward_sum pow L input output delta_out norms k s m).1
      else m.val x j := by
  unfold backward_element
  simp only [write_val, Mem.read, backward_sum_val]

theorem backward_element_log (pow : FP → FP → FP) (L : layer)
    (input output delta_in delta_out norms : Ptr) (k s : Int) (m : Mem)
    (P : Arr × Int → Prop)
    (hP : ∀ (a : Ptr) (i : Int), 0 ≤ i → i < L.c →
      (a = input ∨ a = output ∨ a = delta_out ∨ a = norms ∨ a = delta_in) →
      P (a.arr, a.off + (i * (L.w * L.h) + s)))
    (hk : 0 ≤ k) (hkc : k < L.c) :
    ∀ e ∈ (backward_element pow L input output delta_in delta_out norms k s m).log,
      e ∈ m.log ∨ P e := by
  unfold backward_element
  apply logged_write P m _ delta_in
  · exact backward_sum_log pow L input output delta_out norms k s m P
      (fun a i h0 h1 ha => hP a i h0 h1 (by tauto)) hk hkc
  · exact hP delta_in k hk hkc (by tauto)

theorem backwardInv_element (pow : FP → FP → FP) (L : layer) (A1 A2 : BackwardArrays)
    (m1 m2 a b : Mem) (bi k s : Int)
    (hA1 : A1.delta_in ≠ A1.input ∧ A1.delta_in ≠ A1.output ∧ A1.delta_in ≠ A1.delta_out ∧
      A1.delta_in ≠ A1.norms)
    (hA2 : A2.delta_in ≠ A2.input ∧ A2.delta_in ≠ A2.output ∧ A2.delta_in ≠ A2.delta_out ∧
      A2.delta_in ≠ A2.norms)
    (hi : ∀ j, 0 ≤ j → j < L.w * L.h * L.c * L.batch → m1.val A1.input j = m2.val A2.input j)
    (ho : ∀ j, 0 ≤ j → j < L.w * L.h * L.c * L.batch →
      m1.val A1.output j = m2.val A2.output j)
    (hd : ∀ j, 0 ≤ j → j < L.w * L.h * L.c * L.batch →
      m1.val A1.delta_out j = m2.val A2.delta_out j)
    (hn : ∀ j, 0 ≤ j → j < L.w * L.h * L.c * L.batch → m1.val A1.norms j = m2.val A2.norms j)
    (hb : 0 ≤ bi) (hbb : bi < L.batch) (hk : 0 ≤ k) (hkc : k < L.c) (hs : 0 ≤ s)
    (hsS : s < L.w * L.h)
    (h : BackwardInv A1 A2 m1 m2 (L.w * L.h * L.c * bi + (k * (L.w * L.h) + s)) a b) :
    BackwardInv A1 A2 m1 m2 (L.w * L.h * L.c * bi + (k * (L.w * L.h) + s) + 1)
      (backward_element pow L { arr := A1.input, off := L.w * L.h * L.c * bi }
        { arr := A1.output, off := L.w * L.h * L.c * bi }
        { arr := A1.delta_in, off := L.w * L.h * L.c * bi }
        { arr := A1.delta_out, off := L.w * L.h * L.c * bi }
        { arr := A1.norms, off := L.w * L.h * L.c * bi } k s a)
      (backward_element pow L { arr := A2.input, off := L.w * L.h * L.c * bi }
        { arr := A2.output, off := L.w * L.h * L.c * bi }
        { arr := A2.delta_in, off := L.w * L.h * L.c * bi }
        { arr := A2.delta_out, off := L.w * L.h * L.c * bi }
        { arr := A2.norms, off := L.w * L.h * L.c * bi } k s b) := by
  obtain ⟨f1, f2, h3, h4⟩ := h
  have hidx := slab_index (L.w * L.h) L.c k s hk hkc hs hsS
  have hp := batch_index (L.w * L.h * L.c) L.batch bi _ hb hbb hidx.1 hidx.2
  have hrd : ∀ (x1 x2 : Arr), x1 ≠ A1.delta_in → x2 ≠ A2.delta_in →
      (∀ j, 0 ≤ j → j < L.w * L.h * L.c * L.batch → m1.val x1 j = m2.val x2 j) →
      ∀ idx, 0 ≤ idx → idx < L.w * L.h * L.c →
        a.read { arr := x1, off := L.w * L.h * L.c * bi } idx =
          b.read { arr := x2, off := L.w * L.h * L.c * bi } idx := by
    intro x1 x2 hx1 hx2 hx idx h0 h1
    have hr := batch_index (L.w * L.h * L.c) L.batch bi idx hb hbb h0 h1
    show a.val x1 _ = b.val x2 _
    rw [f1 x1 hx1, f2 x2 hx2]
    exact hx _ hr.1 hr.2
  have hg := backward_sum_congr pow L
    { arr := A1.input, off := L.w * L.h * L.c * bi }
    { arr := A1.output, off := L.w * L.h * L.c * bi }
    { arr := A1.delta_out, off := L.w * L.h * L.c * bi }
    { arr := A1.norms, off := L.w * L.h * L.c * bi }
    { arr := A2.input, off := L.w * L.h * L.c * bi }
    { arr := A2.output, off := L.w * L.h * L.c * bi }
    { arr := A2.delta_out, off := L.w * L.h * L.c * bi }
    { arr := A2.norms, off := L.w * L.h * L.c * bi } k s a b hk hkc hs hsS
    (hrd _ _ (Ne.symm hA1.1) (Ne.symm hA2.1) hi)
    (hrd _ _ (Ne.symm hA1.2.1) (Ne.symm hA2.2.1) ho)
    (hrd _ _ (Ne.symm hA1.2.2.1) (Ne.symm hA2.2.2.1) hd)
    (hrd _ _ (Ne.symm hA1.2.2.2) (Ne.symm hA2.2.2.2) hn)
  have hfl := backward_sum_float pow L
    { arr := A1.input, off := L.w * L.h * L.c * bi }
    { arr := A1.output, off := L.w * L.h * L.c * bi }
    { arr := A1.delta_out, off := L.w * L.h * L.c * bi }
    { arr := A1.norms, off := L.w * L.h * L.c * bi } k s a
  refine ⟨?_, ?_, ?_, ?_⟩
  · intro x hx
    funext j
    rw [backward_element_val, if_neg (fun hc => hx hc.1)]
    exact congrFun (f1 x hx) j
  · intro x hx
    funext j
    rw [backward_element_val, if_neg (fun hc => hx hc.1)]
    exact congrFun (f2 x hx) j
  · intro j hj0 hj
    rcases (show j < L.w * L.h * L.c * bi + (k * (L.w * L.h) + s) ∨
        j = L.w * L.h * L.c * bi + (k * (L.w * L.h) + s) by omega) with hlt | heq
    · obtain ⟨g, hg1, hg2, hg3⟩ := h3 j hj0 hlt
      refine ⟨g, hg1, ?_, ?_⟩
      · rw [backward_element_val, if_neg (fun hc => by have := hc.2; simp only at this; omega)]
        exact hg2
      · rw [backward_element_val, if_neg (fun hc => by have := hc.2; simp only at this; omega)]
        exact hg3
    · subst heq
      refine ⟨_, hfl, ?_, ?_⟩
      · rw [backward_element_val, if_pos ⟨rfl, rfl⟩]
        show FP.add binary32 (a.val A1.delta_in _) _ = _
        rw [(h4 _ (Or.inr (le_refl _))).1]
      · rw [backward_element_val, if_pos ⟨rfl, rfl⟩, ← hg]
        show FP.add binary32 (b.val A2.delta_in _) _ = _
        rw [(h4 _ (Or.inr (le_refl _))).2]
  · intro j hj
    have hne : j ≠ L.w * L.h * L.c * bi + (k * (L.w * L.h) + s) := by
      rcases hj with hj | hj
      · omega
      · omega
    rw [backward_element_val, if_neg (fun hc => hne hc.2), backward_element_val,
      if_neg (fun hc => hne hc.2)]
    exact h4 j (by omega)

theorem backwardInv_batch (pow : FP → FP → FP) (L : layer) (A1 A2 : BackwardArrays)
    (m1 m2 a b : Mem) (bi : Int)
    (hS : 0 ≤ L.w * L.h) (hc : 0 ≤ L.c)
    (hA1 : A1.delta_in ≠ A1.input ∧ A1.delta_in ≠ A1.output ∧ A1.delta_in ≠ A1.delta_out ∧
      A1.delta_in ≠ A1.norms)
    (hA2 : A2.delta_in ≠ A2.input ∧ A2.delta_in ≠ A2.output ∧ A2.delta_in ≠ A2.delta_out ∧
      A2.delta_in ≠ A2.norms)
    (hi : ∀ j, 0 ≤ j → j < L.w * L.h * L.c * L.batch → m1.val A1.input j = m2.val A2.input j)
    (ho : ∀ j, 0 ≤ j → j < L.w * L.h * L.c * L.batch →
      m1.val A1.output j = m2.val A2.output j)
    (hd : ∀ j, 0 ≤ j → j < L.w * L.h * L.c * L.batch →
      m1.val A1.delta_out j = m2.val A2.delta_out j)
    (hn : ∀ j, 0 ≤ j → j < L.w * L.h * L.c * L.batch → m1.val A1.norms j = m2.val A2.norms j)
    (hb : 0 ≤ bi) (hbb : bi < L.batch)
    (h : BackwardInv A1 A2 m1 m2 (L.w * L.h * L.c * bi) a b) :
    BackwardInv A1 A2 m1 m2 (L.w * L.h * L.c * (bi + 1))
      (backward_batch pow L A1 bi a) (backward_batch pow L A2 bi b) := by
  unfold backward_batch
  have key := loop_rel
    (fun (k : Nat) (x y : Mem) =>
      BackwardInv A1 A2 m1 m2 (L.w * L.h * L.c * bi + (k : Int) * (L.w * L.h)) x y)
    L.c.toNat
    (fun k m => loop (L.w * L.h).toNat
      (fun s m => backward_element pow L { arr := A1.input, off := L.w * L.h * L.c * bi }
        { arr := A1.output, off := L.w * L.h * L.c * bi }
        { arr := A1.delta_in, off := L.w * L.h * L.c * bi }
        { arr := A1.delta_out, off := L.w * L.h * L.c * bi }
        { arr := A1.norms, off := L.w * L.h * L.c * bi } k s m) m)
    (fun k m => loop (L.w * L.h).toNat
      (fun s m => backward_element pow L { arr := A2.input, off := L.w * L.h * L.c * bi }
        { arr := A2.output, off := L.w * L.h * L.c * bi }
        { arr := A2.delta_in, off := L.w * L.h * L.c * bi }
        { arr := A2.delta_out, off := L.w * L.h * L.c * bi }
        { arr := A2.norms, off := L.w * L.h * L.c * bi } k s m) m)
    a b
    (by
      show BackwardInv A1 A2 m1 m2 (L.w * L.h * L.c * bi + ((0 : Nat) : Int) * (L.w * L.h)) a b
      have e : L.w * L.h * L.c * bi + ((0 : Nat) : Int) * (L.w * L.h) = L.w * L.h * L.c * bi := by
        simp
      rw [e]
      exact h)
    (by
      intro k hk x y hxy
      have hkc : (k : Int) < L.c := toNat_lt k L.c hk
      have inner := loop_rel
        (fun (s : Nat) (x y : Mem) =>
          BackwardInv A1 A2 m1 m2
            (L.w * L.h * L.c * bi + ((k : Int) * (L.w * L.h) + (s : Int))) x y)
        (L.w * L.h).toNat
        (fun s m => backward_element pow L { arr := A1.input, off := L.w * L.h * L.c * bi }
          { arr := A1.output, off := L.w * L.h * L.c * bi }
          { arr := A1.delta_in, off := L.w * L.h * L.c * bi }
          { arr := A1.delta_out, off := L.w * L.h * L.c * bi }
          { arr := A1.norms, off := L.w * L.h * L.c * bi } k s m)
        (fun s m => backward_element pow L { arr := A2.input, off := L.w * L.h * L.c * bi }
          { arr := A2.output, off := L.w * L.h * L.c * bi }
          { arr := A2.delta_in, off := L.w * L.h * L.c * bi }
          { arr := A2.delta_out, off := L.w * L.h * L.c * bi }
          { arr := A2.norms, off := L.w * L.h * L.c * bi } k s m)
        x y
        (by
          show BackwardInv A1 A2 m1 m2
            (L.w * L.h * L.c * bi + ((k : Int) * (L.w * L.h) + ((0 : Nat) : Int))) x y
          have e : L.w * L.h * L.c * bi + ((k : Int) * (L.w * L.h) + ((0 : Nat) : Int)) =
              L.w * L.h * L.c * bi + (k : Int) * (L.w * L.h) := by simp
          rw [e]
          exact hxy)
        (by
          intro s hs u v huv
          have hsS : (s : Int) < L.w * L.h := toNat_lt s _ hs
          have step := backwardInv_element pow L A1 A2 m1 m2 u v bi k s hA1 hA2 hi ho hd hn
            hb hbb (Int.natCast_nonneg k) hkc (Int.natCast_nonneg s) hsS huv
          have e : L.w * L.h * L.c * bi + ((k : Int) * (L.w * L.h) + ((s + 1 : Nat) : Int)) =
              L.w * L.h * L.c * bi + ((k : Int) * (L.w * L.h) + (s : Int)) + 1 := by
            push_cast
            ring
          show BackwardInv A1 A2 m1 m2
            (L.w * L.h * L.c * bi + ((k : Int) * (L.w * L.h) + ((s + 1 : Nat) : Int))) _ _
          rw [e]
          exact step)
      have e : L.w * L.h * L.c * bi + (((k + 1 : Nat) : Int)) * (L.w * L.h) =
          L.w * L.h * L.c * bi + ((k : Int) * (L.w * L.h) + (((L.w * L.h).toNat : Nat) : Int)) := by
        rw [Int.toNat_of_nonneg hS]
        push_cast
        ring
      show BackwardInv A1 A2 m1 m2
        (L.w * L.h * L.c * bi + (((k + 1 : Nat) : Int)) * (L.w * L.h)) _ _
      rw [e]
      exact inner)
  have e : L.w * L.h * L.c * (bi + 1) =
      L.w * L.h * L.c * bi + ((L.c.toNat : Nat) : Int) * (L.w * L.h) := by
    rw [Int.toNat_of_nonneg hc]
    ring
  rw [e]
  exact key

/-- Two runs of the loops of the backward pass from memories that agree, over the
`w*h*c*batch` elements, on the arrays the loops read: each adds to every element of its
`delta_in` the same `float`, and changes nothing else. -/
theorem backward_loops_rel (pow : FP → FP → FP) (L : layer) (A1 A2 : BackwardArrays)
    (m1 m2 : Mem) (hS : 0 ≤ L.w * L.h) (hc : 0 ≤ L.c) (hbatch : 0 ≤ L.batch)
    (hA1 : A1.delta_in ≠ A1.input ∧ A1.delta_in ≠ A1.output ∧ A1.delta_in ≠ A1.delta_out ∧
      A1.delta_in ≠ A1.norms)
    (hA2 : A2.delta_in ≠ A2.input ∧ A2.delta_in ≠ A2.output ∧ A2.delta_in ≠ A2.delta_out ∧
      A2.delta_in ≠ A2.norms)
    (hi : ∀ j, 0 ≤ j → j < L.w * L.h * L.c * L.batch → m1.val A1.input j = m2.val A2.input j)
    (ho : ∀ j, 0 ≤ j → j < L.w * L.h * L.c * L.batch →
      m1.val A1.output j = m2.val A2.output j)
    (hd : ∀ j, 0 ≤ j → j < L.w * L.h * L.c * L.batch →
      m1.val A1.delta_out j = m2.val A2.delta_out j)
    (hn : ∀ j, 0 ≤ j → j < L.w * L.h * L.c * L.batch →
      m1.val A1.norms j = m2.val A2.norms j) :
    BackwardInv A1 A2 m1 m2 (L.w * L.h * L.c * L.batch)
      (backward_loops pow L A1 m1) (backward_loops pow L A2 m2) := by
  unfold backward_loops
  have key := loop_rel
    (fun (bi : Nat) (x y : Mem) => BackwardInv A1 A2 m1 m2 (L.w * L.h * L.c * (bi : Int)) x y)
    L.batch.toNat (fun bi m => backward_batch pow L A1 bi m)
    (fun bi m => backward_batch pow L A2 bi m) m1 m2
    (by
      refine ⟨fun _ _ => rfl, fun _ _ => rfl, ?_, fun _ _ => ⟨rfl, rfl⟩⟩
      intro j h0 h1
      simp only [Nat.cast_zero, mul_zero] at h1
      omega)
    (by
      intro bi hbi x y hxy
      have step := backwardInv_batch pow L A1 A2 m1 m2 x y bi hS hc hA1 hA2 hi ho hd hn
        (Int.natCast_nonneg bi) (toNat_lt bi _ hbi) hxy
      show BackwardInv A1 A2 m1 m2 (L.w * L.h * L.c * ((bi + 1 : Nat) : Int)) _ _
      have e : ((bi + 1 : Nat) : Int) = (bi : Int) + 1 := by push_cast; ring
      rw [e]
      exact step)
  have e : L.w * L.h * L.c * L.batch = L.w * L.h * L.c * ((L.batch.toNat : Nat) : Int) := by
    rw [Int.toNat_of_nonneg hbatch]
  rw [e]
  exact key

theorem add_zero_float (g : FP) (h : g.is_float) : FP.add binary32 (FP.fin 0) g = g := by
  cases g with
  | nan => rfl
  | inf s => rfl
  | fin q =>
    show binary32.round (0 + q) = FP.fin q
    rw [zero_add]
    exact h

theorem copy_val (n : Int) (src dst : Arr) (m : Mem) (hne : src ≠ dst) (x : Arr) (j : Int) :
    (copy_cpu n { arr := src, off := 0 } 1 { arr := dst, off := 0 } 1 m).val x j =
      if x = dst ∧ 0 ≤ j ∧ j < n then m.val src j else m.val x j := by
  unfold copy_cpu
  have key := loop_inv
    (fun (i : Nat) (t : Mem) => ∀ x j, t.val x j =
      if x = dst ∧ 0 ≤ j ∧ j < (i : Int) then m.val src j else m.val x j)
    n.toNat
    (fun i m => (m.touch { arr := src, off := 0 } (i * 1)).write { arr := dst, off := 0 }
      (i * 1) (m.read { arr := src, off := 0 } (i * 1))) m
    (by
      intro x j
      rw [if_neg]
      rintro ⟨_, h0, h1⟩
      simp only [Nat.cast_zero] at h1
      omega)
    (by
      intro i _ t ht x j
      rw [write_val, touch_val]
      have hsrc : t.read { arr := src, off := 0 } ((i : Int) * 1) = m.val src i := by
        show t.val src (0 + (i : Int) * 1) = _
        rw [ht, if_neg (fun hc => hne hc.1)]
        congr 1
        ring
      rw [hsrc, ht]
      by_cases hx : x = dst
      · by_cases hj : j = (i : Int)
        · subst hj
          rw [if_pos ⟨hx, by simp⟩, if_pos ⟨hx, Int.natCast_nonneg i, by push_cast; omega⟩]
        · rw [if_neg (fun hc => hj (by have := hc.2; simp only at this; omega))]
          by_cases hr : 0 ≤ j ∧ j < (i : Int)
          · rw [if_pos ⟨hx, hr⟩, if_pos ⟨hx, hr.1, by push_cast; omega⟩]
          · rw [if_neg (fun hc => hr hc.2), if_neg (fun hc => hr ⟨hc.2.1, by
              have := hc.2.2
              push_cast at this
              omega⟩)]
      · rw [if_neg (fun hc => hx hc.1), if_neg (fun hc => hx hc.1),
          if_neg (fun hc => hx hc.1)])
  rw [key x j]
  by_cases hn : 0 ≤ n
  · rw [Int.toNat_of_nonneg hn]
  · have e : n.toNat = 0 := by omega
    rw [e, if_neg, if_neg]
    · rintro ⟨_, h0, h1⟩
      omega
    · rintro ⟨_, h0, h1⟩
      simp only [Nat.cast_zero] at h1
      omega

theorem calloc_float_val (x : Arr) (m : Mem) (a : Arr) (j : Int) :
    (calloc_float x m).val a j = if a = x then FP.fin 0 else m.val a j := rfl

/-! ## The claims on the backward pass -/

theorem spatial_nonneg (L : layer) (hw : 0 ≤ L.w) (hh : 0 ≤ L.h) : 0 ≤ L.w * L.h :=
  mul_nonneg hw hh

/-- C24: `backward_normalization_layer` accumulates: the `net.delta` it produces is, at
every index, the initial `net.delta` plus, in `float`, the `net.delta` it produces from a
memory that differs only in an all-zero `net.delta`. -/
theorem backward_accumulates (pow : FP → FP → FP) (L : layer) (m m0 : Mem)
    (hw : 0 ≤ L.w) (hh : 0 ≤ L.h) (hc : 0 ≤ L.c) (hb : 0 ≤ L.batch)
    (hsame : ∀ x, x ≠ Arr.net_delta → m0.val x = m.val x)
    (hzero : ∀ j, m0.val Arr.net_delta j = FP.fin 0) :
    ∀ j, 0 ≤ j → j < L.w * L.h * L.c * L.batch →
      (backward_normalization_layer pow L m).val Arr.net_delta j =
        FP.add binary32 (m.val Arr.net_delta j)
          ((backward_normalization_layer pow L m0).val Arr.net_delta j) := by
  intro j h0 h1
  have key := backward_loops_rel pow L
    { input := Arr.net_input, output := Arr.output, delta_in := Arr.net_delta,
      delta_out := Arr.delta, norms := Arr.norms }
    { input := Arr.net_input, output := Arr.output, delta_in := Arr.net_delta,
      delta_out := Arr.delta, norms := Arr.norms }
    m m0 (spatial_nonneg L hw hh) hc hb
    ⟨by decide, by decide, by decide, by decide⟩ ⟨by decide, by decide, by decide, by decide⟩
    (fun i _ _ => (congrFun (hsame Arr.net_input (by decide)) i).symm)
    (fun i _ _ => (congrFun (hsame Arr.output (by decide)) i).symm)
    (fun i _ _ => (congrFun (hsame Arr.delta (by decide)) i).symm)
    (fun i _ _ => (congrFun (hsame Arr.norms (by decide)) i).symm)
  obtain ⟨g, hg, e1, e2⟩ := key.2.2.1 j h0 h1
  unfold backward_normalization_layer
  rw [e1, e2]
  show _ = FP.add binary32 _ (FP.add binary32 (m0.val Arr.net_delta j) g)
  rw [hzero j, add_zero_float g hg]

theorem backward_accumulates_witness :
    (0 : Int) ≤ sample_layer.w ∧ (0 : Int) ≤ sample_layer.c ∧
    (sample_mem_delta.val Arr.net_delta 0 = FP.fin 3 ∧
      sample_mem_delta.val Arr.net_delta 1 = FP.fin 3) ∧
    (∀ x, x ≠ Arr.net_delta →
      (zero_net_delta sample_mem_delta).val x = sample_mem_delta.val x) ∧
    ∀ (pow : FP → FP → FP) (j : Int), 0 ≤ j → j < 2 →
      (backward_normalization_layer pow sample_layer sample_mem_delta).val Arr.net_delta j =
        FP.add binary32 (FP.fin 3)
          ((backward_normalization_layer pow sample_layer
            (zero_net_delta sample_mem_delta)).val Arr.net_delta j) := by
  have hsame : ∀ x, x ≠ Arr.net_delta →
      (zero_net_delta sample_mem_delta).val x = sample_mem_delta.val x := by
    intro x hx
    funext j
    show (if x = Arr.net_delta then FP.fin 0 else sample_mem_delta.val x j) = _
    rw [if_neg hx]
  refine ⟨by decide, by decide, ⟨rfl, rfl⟩, hsame, ?_⟩
  intro pow j h0 h1
  exact backward_accumulates pow sample_layer sample_mem_delta
    (zero_net_delta sample_mem_delta) (by decide) (by decide) (by decide) (by decide) hsame
    (fun _ => rfl) j h0
    (by
      have e : sample_layer.w * sample_layer.h * sample_layer.c * sample_layer.batch = 2 := by
        decide
      rw [e]
      exact h1)

/-- C25: when the device arrays hold, over the `w*h*c*batch` elements, the values of the
host arrays, `backward_normalization_layer_gpu` leaves in `net.delta_gpu` the values that
`backward_normalization_layer` leaves in `net.delta`. -/
theorem backward_gpu_consistent (pow : FP → FP → FP) (L : layer) (m : Mem)
    (hw : 0 ≤ L.w) (hh : 0 ≤ L.h) (hc : 0 ≤ L.c) (hb : 0 ≤ L.batch)
    (hi : ∀ j, 0 ≤ j → j < L.w * L.h * L.c * L.batch →
      m.val Arr.net_input_gpu j = m.val Arr.net_input j)
    (ho : ∀ j, 0 ≤ j → j < L.w * L.h * L.c * L.batch →
      m.val Arr.output_gpu j = m.val Arr.output j)
    (hn : ∀ j, 0 ≤ j → j < L.w * L.h * L.c * L.batch →
      m.val Arr.norms_gpu j = m.val Arr.norms j)
    (hd : ∀ j, 0 ≤ j → j < L.w * L.h * L.c * L.batch →
      m.val Arr.delta_gpu j = m.val Arr.delta j)
    (hnd : ∀ j, 0 ≤ j → j < L.w * L.h * L.c * L.batch →
      m.val Arr.net_delta_gpu j = m.val Arr.net_delta j) :
    ∀ j, 0 ≤ j → j < L.w * L.h * L.c * L.batch →
      (backward_normalization_layer_gpu pow L m).val Arr.net_delta_gpu j =
        (backward_normalization_layer pow L m).val Arr.net_delta j := by
  intro j h0 h1
  have pulled : ∀ (x : Arr) (i : Int), 0 ≤ i → i < L.w * L.h * L.c * L.batch →
      (backward_gpu_pull L m).val x i =
        if x = Arr.input_cpu then m.val Arr.net_input_gpu i
        else if x = Arr.output_cpu then m.val Arr.output_gpu i
        else if x = Arr.delta_in_cpu then m.val Arr.net_delta_gpu i
        else if x = Arr.delta_out_cpu then m.val Arr.delta_gpu i
        else if x = Arr.norms_cpu then m.val Arr.norms_gpu i
        else m.val x i := by
    intro x i hi0 hi1
    unfold backward_gpu_pull cuda_pull_array
    simp only [copy_val _ _ _ _ (by decide : Arr.norms_gpu ≠ Arr.norms_cpu),
      copy_val _ _ _ _ (by decide : Arr.delta_gpu ≠ Arr.delta_out_cpu),
      copy_val _ _ _ _ (by decide : Arr.net_delta_gpu ≠ Arr.delta_in_cpu),
      copy_val _ _ _ _ (by decide : Arr.output_gpu ≠ Arr.output_cpu),
      copy_val _ _ _ _ (by decide : Arr.net_input_gpu ≠ Arr.input_cpu),
      calloc_float_val, hi0, hi1, and_true]
    cases x <;> simp
  have key := backward_loops_rel pow L
    { input := Arr.net_input, output := Arr.output, delta_in := Arr.net_delta,
      delta_out := Arr.delta, norms := Arr.norms }
    { input := Arr.input_cpu, output := Arr.output_cpu, delta_in := Arr.delta_in_cpu,
      delta_out := Arr.delta_out_cpu, norms := Arr.norms_cpu }
    m (backward_gpu_pull L m) (spatial_nonneg L hw hh) hc hb
    ⟨by decide, by decide, by decide, by decide⟩ ⟨by decide, by decide, by decide, by decide⟩
    (fun i a b => by rw [pulled Arr.input_cpu i a b]; simp [hi i a b])
    (fun i a b => by rw [pulled Arr.output_cpu i a b]; simp [ho i a b])
    (fun i a b => by rw [pulled Arr.delta_out_cpu i a b]; simp [hd i a b])
    (fun i a b => by rw [pulled Arr.norms_cpu i a b]; simp [hn i a b])
  obtain ⟨g, -, e1, e2⟩ := key.2.2.1 j h0 h1
  unfold backward_normalization_layer_gpu backward_normalization_layer
  unfold cuda_push_array
  dsimp only
  rw [copy_val _ _ _ _ (by decide : Arr.delta_in_cpu ≠ Arr.net_delta_gpu),
    if_pos ⟨rfl, h0, h1⟩, e1, e2, pulled Arr.delta_in_cpu j h0 h1]
  simp [hnd j h0 h1]

theorem backward_gpu_consistent_witness :
    (0 : Int) ≤ sample_layer.w ∧ (0 : Int) ≤ sample_layer.batch ∧
    (∀ j, (sample_mem 1).val Arr.net_input_gpu j = (sample_mem 1).val Arr.net_input j) ∧
    ∀ (pow : FP → FP → FP) (j : Int), 0 ≤ j → j < 2 →
      (backward_normalization_layer_gpu pow sample_layer (sample_mem 1)).val
          Arr.net_delta_gpu j =
        (backward_normalization_layer pow sample_layer (sample_mem 1)).val Arr.net_delta j := by
  refine ⟨by decide, by decide, fun _ => rfl, ?_⟩
  intro pow j h0 h1
  exact backward_gpu_consistent pow sample_layer (sample_mem 1) (by decide) (by decide)
    (by decide) (by decide) (fun _ _ _ => rfl) (fun _ _ _ => rfl) (fun _ _ _ => rfl)
    (fun _ _ _ => rfl) (fun _ _ _ => rfl) j h0
    (by
      have e : sample_layer.w * sample_layer.h * sample_layer.c * sample_layer.batch = 2 := by
        decide
      rw [e]
      exact h1)

/-- C30: `backward_normalization_layer` changes only `net.delta`: every other array
(`net.input`, `layer.output`, `layer.delta`, `layer.norms`, `layer.squared`) is after the
call as it was before; the layer is passed by value, and its fields are not assigned. -/
theorem backward_frame (pow : FP → FP → FP) (L : layer) (m : Mem) :
    ∀ x, x ≠ Arr.net_delta → (backward_normalization_layer pow L m).val x = m.val x := by
  intro x hx
  unfold backward_normalization_layer backward_loops
  apply loop_inv (fun _ (t : Mem) => t.val x = m.val x) _ _ _ rfl
  intro bi _ t ht
  unfold backward_batch
  dsimp only
  apply loop_inv (fun _ (u : Mem) => u.val x = m.val x) _ _ _ ht
  intro k _ u hu
  apply loop_inv (fun _ (v : Mem) => v.val x = m.val x) _ _ _ hu
  intro s _ v hv
  funext j
  rw [backward_element_val, if_neg (fun hc => hx hc.1)]
  exact congrFun hv j

theorem backward_frame_witness :
    Arr.norms ≠ Arr.net_delta ∧
    (backward_normalization_layer sample_pow sample_layer (sample_mem 1)).val Arr.norms =
      (sample_mem 1).val Arr.norms :=
  ⟨by decide, backward_frame sample_pow sample_layer (sample_mem 1) Arr.norms (by decide)⟩

/-- C29: every element that `backward_normalization_layer` reads or writes is an element
of one of its five arrays whose index is `w*h*c*b + idx` for a batch `0 <= b < batch`
and an `idx` in `[0, w*h*c)`, whatever the value of `size`: the window is clipped to
`[0, c-1]` or is empty. -/
theorem backward_index_safety (pow : FP → FP → FP) (L : layer) (m : Mem) :
    (∀ k, 0 ≤ window_min L k ∧ window_max L k ≤ L.c - 1) ∧
    ∀ e ∈ (backward_normalization_layer pow L m).log, e ∈ m.log ∨
      ((e.1 = Arr.net_input ∨ e.1 = Arr.output ∨ e.1 = Arr.delta ∨ e.1 = Arr.norms ∨
          e.1 = Arr.net_delta) ∧
        (∃ b idx, 0 ≤ b ∧ b < L.batch ∧ 0 ≤ idx ∧ idx < L.w * L.h * L.c ∧
          e.2 = L.w * L.h * L.c * b + idx) ∧
        0 ≤ e.2 ∧ e.2 < L.w * L.h * L.c * L.batch) := by
  refine ⟨fun k => ⟨window_min_nonneg L k, by have := window_max_lt L k; omega⟩, ?_⟩
  unfold backward_normalization_layer backward_loops
  apply logged_loop
  intro bi hbi t
  unfold backward_batch
  dsimp only
  apply logged_loop
  intro k hk u
  apply logged_loop
  intro s hs v
  have hbb : (bi : Int) < L.batch := toNat_lt bi _ hbi
  have hkc : (k : Int) < L.c := toNat_lt k _ hk
  have hsS : (s : Int) < L.w * L.h := toNat_lt s _ hs
  apply backward_element_log pow L _ _ _ _ _ k s v _ _ (Int.natCast_nonneg k) hkc
  intro a i hi0 hi1 ha
  have hidx := slab_index (L.w * L.h) L.c i s hi0 hi1 (Int.natCast_nonneg s) hsS
  have hp := batch_index (L.w * L.h * L.c) L.batch bi _ (Int.natCast_nonneg bi) hbb
    hidx.1 hidx.2
  refine ⟨?_, ⟨bi, _, Int.natCast_nonneg bi, hbb, hidx.1, hidx.2, ?_⟩, ?_, ?_⟩
  · rcases ha with rfl | rfl | rfl | rfl | rfl
    · exact Or.inl rfl
    · exact Or.inr (Or.inl rfl)
    · exact Or.inr (Or.inr (Or.inl rfl))
    · exact Or.inr (Or.inr (Or.inr (Or.inl rfl)))
    · exact Or.inr (Or.inr (Or.inr (Or.inr rfl)))
  · rcases ha with rfl | rfl | rfl | rfl | rfl <;> rfl
  · rcases ha with rfl | rfl | rfl | rfl | rfl <;> exact hp.1
  · rcases ha with rfl | rfl | rfl | rfl | rfl <;> exact hp.2

theorem backward_index_safety_witness :
    (0 ≤ window_min sample_layer 1 ∧ window_max sample_layer 1 ≤ sample_layer.c - 1) ∧
    ∀ e ∈ (backward_normalization_layer sample_pow sample_layer (sample_mem 1)).log,
      0 ≤ e.2 ∧ e.2 < 2 := by
  have h := backward_index_safety sample_pow sample_layer (sample_mem 1)
  refine ⟨h.1 1, ?_⟩
  intro e he
  rcases h.2 e he with h1 | h1
  · exact absurd h1 (List.not_mem_nil e)
  · have e2 : sample_layer.w * sample_layer.h * sample_layer.c * sample_layer.batch = 2 := by
      decide
    rw [e2] at h1
    exact h1.2.2

/-! ## The forward pass of the normalization layer -/

theorem scal_cpu_log (P : Arr × Int → Prop) (N : Int) (ALPHA : FP) (X : Ptr) (INCX : Int)
    (m : Mem) (hX : ∀ i : Int, 0 ≤ i → i < N → P (X.arr, X.off + i * INCX)) :
    ∀ e ∈ (scal_cpu N ALPHA X INCX m).log, e ∈ m.log ∨ P e := by
  unfold scal_cpu
  apply logged_loop
  intro i hi t
  exact logged_write P t t X _ _ (logged_refl P t)
    (hX i (Int.natCast_nonneg i) (toNat_lt i N hi))

theorem const_cpu_log (P : Arr × Int → Prop) (N : Int) (ALPHA : FP) (X : Ptr) (INCX : Int)
    (m : Mem) (hX : ∀ i : Int, 0 ≤ i → i < N → P (X.arr, X.off + i * INCX)) :
    ∀ e ∈ (const_cpu N ALPHA X INCX m).log, e ∈ m.log ∨ P e := by
  unfold const_cpu
  apply logged_loop
  intro i hi t
  exact logged_write P t t X _ _ (logged_refl P t)
    (hX i (Int.natCast_nonneg i) (toNat_lt i N hi))

theorem pow_cpu_log (P : Arr × Int → Prop) (pow : FP → FP → FP) (N : Int) (ALPHA : FP)
    (X : Ptr) (INCX : Int) (Y : Ptr) (INCY : Int) (m : Mem)
    (hX : ∀ i : Int, 0 ≤ i → i < N → P (X.arr, X.off + i * INCX))
    (hY : ∀ i : Int, 0 ≤ i → i < N → P (Y.arr, Y.off + i * INCY)) :
    ∀ e ∈ (pow_cpu pow N ALPHA X INCX Y INCY m).log, e ∈ m.log ∨ P e := by
  unfold pow_cpu
  apply logged_loop
  intro i hi t
  exact logged_write P t _ Y _ _
    (logged_touch P t t X _ (logged_refl P t)
      (hX i (Int.natCast_nonneg i) (toNat_lt i N hi)))
    (hY i (Int.natCast_nonneg i) (toNat_lt i N hi))

theorem axpy_cpu_log (P : Arr × Int → Prop) (N : Int) (ALPHA : FP)
    (X : Ptr) (INCX : Int) (Y : Ptr) (INCY : Int) (m : Mem)
    (hX : ∀ i : Int, 0 ≤ i → i < N → P (X.arr, X.off + i * INCX))
    (hY : ∀ i : Int, 0 ≤ i → i < N → P (Y.arr, Y.off + i * INCY)) :
    ∀ e ∈ (axpy_cpu N ALPHA X INCX Y INCY m).log, e ∈ m.log ∨ P e := by
  unfold axpy_cpu
  apply logged_loop
  intro i hi t
  exact logged_write P t _ Y _ _
    (logged_touch P t t X _ (logged_refl P t)
      (hX i (Int.natCast_nonneg i) (toNat_lt i N hi)))
    (hY i (Int.natCast_nonneg i) (toNat_lt i N hi))

theorem copy_cpu_log (P : Arr × Int → Prop) (N : Int)
    (X : Ptr) (INCX : Int) (Y : Ptr) (INCY : Int) (m : Mem)
    (hX : ∀ i : Int, 0 ≤ i → i < N → P (X.arr, X.off + i * INCX))
    (hY : ∀ i : Int, 0 ≤ i → i < N → P (Y.arr, Y.off + i * INCY)) :
    ∀ e ∈ (copy_cpu N X INCX Y INCY m).log, e ∈ m.log ∨ P e := by
  unfold copy_cpu
  apply logged_loop
  intro i hi t
  exact logged_write P t _ Y _ _
    (logged_touch P t t X _ (logged_refl P t)
      (hX i (Int.natCast_nonneg i) (toNat_lt i N hi)))
    (hY i (Int.natCast_nonneg i) (toNat_lt i N hi))

theorem mul_cpu_log (P : Arr × Int → Prop) (N : Int)
    (X : Ptr) (INCX : Int) (Y : Ptr) (INCY : Int) (m : Mem)
    (hX : ∀ i : Int, 0 ≤ i → i < N → P (X.arr, X.off + i * INCX))
    (hY : ∀ i : Int, 0 ≤ i → i < N → P (Y.arr, Y.off + i * INCY)) :
    ∀ e ∈ (mul_cpu N X INCX Y INCY m).log, e ∈ m.log ∨ P e := by
  unfold mul_cpu
  apply logged_loop
  intro i hi t
  exact logged_write P t _ Y _ _
    (logged_touch P t t X _ (logged_refl P t)
      (hX i (Int.natCast_nonneg i) (toNat_lt i N hi)))
    (hY i (Int.natCast_nonneg i) (toNat_lt i N hi))

/-- The element `i` of channel `k` lies in the slab of batch `b`. -/
theorem channel_index (S c b k i : Int) (hk : 0 ≤ k) (hkc : k < c) (hi : 0 ≤ i) (hiS : i < S) :
    S * c * b ≤ S * c * b + S * k + i * 1 ∧ S * c * b + S * k + i * 1 < S * c * b + S * c := by
  have h := slab_index S c k i hk hkc hi hiS
  have e : S * k = k * S := mul_comm S k
  omega

/-- An index in the slab of batch `b` is an index of the whole array. -/
theorem slab_in_range (T batch b j : Int) (hb : 0 ≤ b) (hbb : b < batch) (h0 : T * b ≤ j)
    (h1 : j < T * b + T) : 0 ≤ j ∧ j < T * batch := by
  have h := batch_index T batch b (j - T * b) hb hbb (by omega) (by omega)
  constructor
  · omega
  · omega

theorem forward_channel_log (L : layer) (b k : Int) (m : Mem) (hk : 1 ≤ k) (hkc : k < L.c)
    (hsize : 0 ≤ L.size) (hint : L.size < 2 ^ 31) (hsum : L.c + L.size.tdiv 2 ≤ 2 ^ 31)
    (a1 a2 : Arr) :
    ∀ e ∈ (forward_channel L { arr := a1, off := L.w * L.h * L.c * b }
        { arr := a2, off := L.w * L.h * L.c * b } k m).log,
      e ∈ m.log ∨ ((e.1 = a1 ∨ e.1 = a2) ∧ L.w * L.h * L.c * b ≤ e.2 ∧
        e.2 < L.w * L.h * L.c * b + L.w * L.h * L.c) := by
  have hq : 0 ≤ (L.size - 1).tdiv 2 ∧ (L.size - 1).tdiv 2 < 2 ^ 30 := by
    rcases (show L.size = 0 ∨ 1 ≤ L.size by omega) with h | h
    · rw [h]
      decide
    · rw [Int.tdiv_eq_ediv (by omega) (by norm_num)]
      omega
  have hprev : k - (L.size - 1).tdiv 2 - 1 < L.c := by omega
  have hhalf0 : 0 ≤ L.size.tdiv 2 := Int.tdiv_nonneg hsize (by norm_num)
  have hnext : 0 ≤ k + L.size.tdiv 2 := by omega
  have hprev_eq : wrap32 (wrap32 (k - (wrap32 (L.size - 1)).tdiv 2) - 1) =
      k - (L.size - 1).tdiv 2 - 1 := by
    rw [wrap32_id (L.size - 1) (by omega) (by omega),
      wrap32_id (k - (L.size - 1).tdiv 2) (by omega) (by omega),
      wrap32_id (k - (L.size - 1).tdiv 2 - 1) (by omega) (by omega)]
  have hnext_eq : wrap32 (k + L.size.tdiv 2) = k + L.size.tdiv 2 :=
    wrap32_id _ (by omega) (by omega)
  unfold forward_channel
  dsimp only
  rw [hprev_eq, hnext_eq]
  have hcopy := copy_cpu_log
    (fun e => (e.1 = a1 ∨ e.1 = a2) ∧ L.w * L.h * L.c * b ≤ e.2 ∧
      e.2 < L.w * L.h * L.c * b + L.w * L.h * L.c) (L.w * L.h)
    (Ptr.add { arr := a2, off := L.w * L.h * L.c * b } (L.w * L.h * (k - 1))) 1
    (Ptr.add { arr := a2, off := L.w * L.h * L.c * b } (L.w * L.h * k)) 1 m
    (fun i h0 h1 => ⟨Or.inr rfl,
      channel_index (L.w * L.h) L.c b (k - 1) i (by omega) (by omega) h0 h1⟩)
    (fun i h0 h1 => ⟨Or.inr rfl,
      channel_index (L.w * L.h) L.c b k i (by omega) hkc h0 h1⟩)
  have hax : ∀ (t : Mem) (al : FP) (p : Int), 0 ≤ p → p < L.c →
      ∀ e ∈ (axpy_cpu (L.w * L.h) al
          (Ptr.add { arr := a1, off := L.w * L.h * L.c * b } (L.w * L.h * p)) 1
          (Ptr.add { arr := a2, off := L.w * L.h * L.c * b } (L.w * L.h * k)) 1 t).log,
        e ∈ t.log ∨ ((e.1 = a1 ∨ e.1 = a2) ∧ L.w * L.h * L.c * b ≤ e.2 ∧
          e.2 < L.w * L.h * L.c * b + L.w * L.h * L.c) := by
    intro t al p hp0 hp1
    exact axpy_cpu_log _ _ _ _ _ _ _ _
      (fun i h0 h1 => ⟨Or.inl rfl, channel_index (L.w * L.h) L.c b p i hp0 hp1 h0 h1⟩)
      (fun i h0 h1 => ⟨Or.inr rfl,
        channel_index (L.w * L.h) L.c b k i (by omega) hkc h0 h1⟩)
  split
  · rename_i hn
    split
    · rename_i hp
      exact logged_trans _ _ _ _ hcopy (logged_trans _ _ _ _ (hax _ _ _ hp hprev)
        (hax _ _ _ hnext hn))
    · exact logged_trans _ _ _ _ hcopy (hax _ _ _ hnext hn)
  · split
    · rename_i hp
      exact logged_trans _ _ _ _ hcopy (hax _ _ _ hp hprev)
    · exact hcopy

theorem logged_mono (P Q : Arr × Int → Prop) (m0 m : Mem) (hPQ : ∀ e, P e → Q e)
    (h : ∀ e ∈ m.log, e ∈ m0.log ∨ P e) : ∀ e ∈ m.log, e ∈ m0.log ∨ Q e := by
  intro e he
  rcases h e he with h1 | h1
  · exact Or.inl h1
  · exact Or.inr (hPQ e h1)

/-- Every access of one turn of the loop over `b` of the forward pass is in the slab of
batch `b`. -/
theorem forward_batch_log (pow : FP → FP → FP) (L : layer) (b : Int) (m : Mem)
    (hc : 1 ≤ L.c) (hsize : 0 ≤ L.size) (hhalf : L.size.tdiv 2 ≤ L.c)
    (hint : L.size < 2 ^ 31) (hsum : L.c + L.size.tdiv 2 ≤ 2 ^ 31) :
    ∀ e ∈ (forward_batch pow L b m).log,
      e ∈ m.log ∨ ((e.1 = Arr.squared ∨ e.1 = Arr.norms ∨ e.1 = Arr.net_input) ∧
        L.w * L.h * L.c * b ≤ e.2 ∧ e.2 < L.w * L.h * L.c * b + L.w * L.h * L.c) := by
  have hS : ∀ i : Int, 0 ≤ i → i < L.w * L.h → i < L.w * L.h * L.c := by
    intro i h0 h1
    have : L.w * L.h * 1 ≤ L.w * L.h * L.c :=
      mul_le_mul_of_nonneg_left hc (by omega)
    omega
  have h2 : ∀ t : Mem, ∀ e ∈ (const_cpu (L.w * L.h) L.kappa
      { arr := Arr.norms, off := L.w * L.h * L.c * b } 1 t).log,
      e ∈ t.log ∨ ((e.1 = Arr.squared ∨ e.1 = Arr.norms ∨ e.1 = Arr.net_input) ∧
        L.w * L.h * L.c * b ≤ e.2 ∧ e.2 < L.w * L.h * L.c * b + L.w * L.h * L.c) := by
    intro t
    exact const_cpu_log _ _ _ _ _ _
      (fun i h0 h1 => ⟨Or.inr (Or.inl rfl), by dsimp only; omega,
        by have := hS i h0 h1; dsimp only; omega⟩)
  have h3 : ∀ t : Mem, ∀ e ∈ (loop (L.size.tdiv 2).toNat
      (fun k m => axpy_cpu (L.w * L.h) L.alpha
        (Ptr.add { arr := Arr.squared, off := L.w * L.h * L.c * b } (L.w * L.h * k)) 1
        { arr := Arr.norms, off := L.w * L.h * L.c * b } 1 m) t).log,
      e ∈ t.log ∨ ((e.1 = Arr.squared ∨ e.1 = Arr.norms ∨ e.1 = Arr.net_input) ∧
        L.w * L.h * L.c * b ≤ e.2 ∧ e.2 < L.w * L.h * L.c * b + L.w * L.h * L.c) := by
    intro t
    apply logged_loop
    intro k hk u
    have hk1 : (k : Int) < L.c := lt_of_lt_of_le (toNat_lt k _ hk) hhalf
    exact axpy_cpu_log _ _ _ _ _ _ _ _
      (fun i h0 h1 => ⟨Or.inl rfl,
        channel_index (L.w * L.h) L.c b k i (Int.natCast_nonneg k) hk1 h0 h1⟩)
      (fun i h0 h1 => ⟨Or.inr (Or.inl rfl), by dsimp only; omega,
        by have := hS i h0 h1; dsimp only; omega⟩)
  have h4 : ∀ t : Mem, ∀ e ∈ (loop (L.c - 1).toNat
      (fun j m => forward_channel L { arr := Arr.squared, off := L.w * L.h * L.c * b }
        { arr := Arr.norms, off := L.w * L.h * L.c * b } (1 + j) m) t).log,
      e ∈ t.log ∨ ((e.1 = Arr.squared ∨ e.1 = Arr.norms ∨ e.1 = Arr.net_input) ∧
        L.w * L.h * L.c * b ≤ e.2 ∧ e.2 < L.w * L.h * L.c * b + L.w * L.h * L.c) := by
    intro t
    apply logged_loop
    intro j hj u
    have hj1 : (j : Int) < L.c - 1 := toNat_lt j _ hj
    apply logged_mono _ _ _ _ _
      (forward_channel_log L b (1 + j) u (by omega) (by omega) hsize hint hsum Arr.squared
        Arr.norms)
    intro e he
    rcases he with ⟨ha | ha, hr⟩
    · exact ⟨Or.inl ha, hr⟩
    · exact ⟨Or.inr (Or.inl ha), hr⟩
  have h1 := pow_cpu_log
    (fun e => (e.1 = Arr.squared ∨ e.1 = Arr.norms ∨ e.1 = Arr.net_input) ∧
      L.w * L.h * L.c * b ≤ e.2 ∧ e.2 < L.w * L.h * L.c * b + L.w * L.h * L.c)
    pow (L.w * L.h * L.c) (FP.fin 2) { arr := Arr.net_input, off := L.w * L.h * L.c * b } 1
    { arr := Arr.squared, off := L.w * L.h * L.c * b } 1 m
    (fun i h0 h1 => ⟨Or.inr (Or.inr rfl), by dsimp only; omega, by dsimp only; omega⟩)
    (fun i h0 h1 => ⟨Or.inl rfl, by dsimp only; omega, by dsimp only; omega⟩)
  unfold forward_batch
  dsimp only
  exact logged_trans _ _ _ _ (logged_trans _ _ _ _ (logged_trans _ _ _ _ h1 (h2 _)) (h3 _))
    (h4 _)

/-- C28, as the code has it: in `forward_normalization_layer`, for a layer with `c ≥ 1`,
`0 ≤ size ≤ INT_MAX`, `size/2 ≤ c` and `c + size/2 ≤ 2^31`, so that the `int` sum
`next = k + size/2` does not overflow for `k < c` (and every `w`, `h`, `batch`, in
particular those from 1), every element the pass reads or writes is an element of
`squared`, `norms`, `net.input` or `output` at an index in `[0, w*h*c*batch)`; and every
access of the turn of batch `b` of the loop over the batches, which holds the initial
window loop over `k < size/2` and the uses of `prev` and `next`, is at an index of the
slab `[w*h*c*b, w*h*c*(b+1))` of that batch. -/
theorem forward_index_safety (pow : FP → FP → FP) (L : layer) (m : Mem)
    (hc : 1 ≤ L.c) (hsize : 0 ≤ L.size) (hhalf : L.size.tdiv 2 ≤ L.c)
    (hint : L.size < 2 ^ 31) (hsum : L.c + L.size.tdiv 2 ≤ 2 ^ 31) :
    (∀ e ∈ (forward_normalization_layer pow L m).log,
      e ∈ m.log ∨ ((e.1 = Arr.squared ∨ e.1 = Arr.norms ∨ e.1 = Arr.net_input ∨
          e.1 = Arr.output) ∧ 0 ≤ e.2 ∧ e.2 < L.w * L.h * L.c * L.batch)) ∧
    ∀ (b : Int) (t : Mem), ∀ e ∈ (forward_batch pow L b t).log,
      e ∈ t.log ∨ ((e.1 = Arr.squared ∨ e.1 = Arr.norms ∨ e.1 = Arr.net_input) ∧
        L.w * L.h * L.c * b ≤ e.2 ∧ e.2 < L.w * L.h * L.c * (b + 1)) := by
  constructor
  · have h2 : ∀ t : Mem, ∀ e ∈ (loop L.batch.toNat
        (fun b m => forward_batch pow L b m) t).log,
        e ∈ t.log ∨ ((e.1 = Arr.squared ∨ e.1 = Arr.norms ∨ e.1 = Arr.net_input ∨
          e.1 = Arr.output) ∧ 0 ≤ e.2 ∧ e.2 < L.w * L.h * L.c * L.batch) := by
      intro t
      apply logged_loop
      intro b hb u
      apply logged_mono _ _ _ _ _ (forward_batch_log pow L b u hc hsize hhalf hint hsum)
      intro e he
      rcases he with ⟨ha, h0, h1⟩
      have hr := slab_in_range (L.w * L.h * L.c) L.batch b e.2 (Int.natCast_nonneg b)
        (toNat_lt b _ hb) h0 h1
      refine ⟨?_, hr⟩
      rcases ha with ha | ha | ha
      · exact Or.inl ha
      · exact Or.inr (Or.inl ha)
      · exact Or.inr (Or.inr (Or.inl ha))
    have h3 : ∀ t : Mem, ∀ e ∈ (pow_cpu pow (L.w * L.h * L.c * L.batch) (FP.neg L.beta)
        { arr := Arr.norms, off := 0 } 1 { arr := Arr.output, off := 0 } 1 t).log,
        e ∈ t.log ∨ ((e.1 = Arr.squared ∨ e.1 = Arr.norms ∨ e.1 = Arr.net_input ∨
          e.1 = Arr.output) ∧ 0 ≤ e.2 ∧ e.2 < L.w * L.h * L.c * L.batch) := by
      intro t
      exact pow_cpu_log _ _ _ _ _ _ _ _ _
        (fun i h0 h1 => ⟨Or.inr (Or.inl rfl), by dsimp only; omega, by dsimp only; omega⟩)
        (fun i h0 h1 => ⟨Or.inr (Or.inr (Or.inr rfl)), by dsimp only; omega,
          by dsimp only; omega⟩)
    have h4 : ∀ t : Mem, ∀ e ∈ (mul_cpu (L.w * L.h * L.c * L.batch)
        { arr := Arr.net_input, off := 0 } 1 { arr := Arr.output, off := 0 } 1 t).log,
        e ∈ t.log ∨ ((e.1 = Arr.squared ∨ e.1 = Arr.norms ∨ e.1 = Arr.net_input ∨
          e.1 = Arr.output) ∧ 0 ≤ e.2 ∧ e.2 < L.w * L.h * L.c * L.batch) := by
      intro t
      exact mul_cpu_log _ _ _ _ _ _ _
        (fun i h0 h1 => ⟨Or.inr (Or.inr (Or.inl rfl)), by dsimp only; omega,
          by dsimp only; omega⟩)
        (fun i h0 h1 => ⟨Or.inr (Or.inr (Or.inr rfl)), by dsimp only; omega,
          by dsimp only; omega⟩)
    have h1 := scal_cpu_log
      (fun e => (e.1 = Arr.squared ∨ e.1 = Arr.norms ∨ e.1 = Arr.net_input ∨
        e.1 = Arr.output) ∧ 0 ≤ e.2 ∧ e.2 < L.w * L.h * L.c * L.batch)
      (L.w * L.h * L.c * L.batch) (FP.fin 0) { arr := Arr.squared, off := 0 } 1 m
      (fun i h0 h1 => ⟨Or.inl rfl, by dsimp only; omega, by dsimp only; omega⟩)
    unfold forward_normalization_layer
    dsimp only
    exact logged_trans _ _ _ _ (logged_trans _ _ _ _ (logged_trans _ _ _ _ h1 (h2 _))
      (h3 _)) (h4 _)
  · intro b t e he
    have e1 : L.w * L.h * L.c * (b + 1) = L.w * L.h * L.c * b + L.w * L.h * L.c := by ring
    rw [e1]
    exact forward_batch_log pow L b t hc hsize hhalf hint hsum e he

theorem forward_index_safety_witness :
    (1 : Int) ≤ sample_layer.c ∧ (0 : Int) ≤ sample_layer.size ∧
    sample_layer.size.tdiv 2 ≤ sample_layer.c ∧ sample_layer.size < 2 ^ 31 ∧
    sample_layer.c + sample_layer.size.tdiv 2 ≤ 2 ^ 31 ∧
    ∀ pow : FP → FP → FP,
      ∀ e ∈ (forward_normalization_layer pow sample_layer (sample_mem 1)).log,
        0 ≤ e.2 ∧ e.2 < 2 := by
  refine ⟨by decide, by decide, by decide, by decide, by decide, ?_⟩
  intro pow e he
  rcases (forward_index_safety pow sample_layer (sample_mem 1) (by decide) (by decide)
    (by decide) (by decide) (by decide)).1 e he with h | h
  · exact absurd h (List.not_mem_nil e)
  · have e2 : sample_layer.w * sample_layer.h * sample_layer.c * sample_layer.batch = 2 := by
      decide
    rw [e2] at h
    exact h.2

/-! ## The overflow of `next` in the forward pass -/

theorem loop_succ {σ : Type} (n : Nat) (body : Nat → σ → σ) (s : σ) :
    loop (n + 1) body s = body n (loop n body s) := rfl

theorem loop_log_mono (e : Arr × Int) (n : Nat) (body : Nat → Mem → Mem) (m : Mem)
    (h : ∀ i (t : Mem), e ∈ t.log → e ∈ (body i t).log) (he : e ∈ m.log) :
    e ∈ (loop n body m).log :=
  loop_inv (fun _ (t : Mem) => e ∈ t.log) n body m he (fun i _ t ht => h i t ht)

theorem pow_cpu_log_mono (e : Arr × Int) (pow : FP → FP → FP) (N : Int) (ALPHA : FP)
    (X : Ptr) (INCX : Int) (Y : Ptr) (INCY : Int) (m : Mem) (he : e ∈ m.log) :
    e ∈ (pow_cpu pow N ALPHA X INCX Y INCY m).log := by
  unfold pow_cpu
  apply loop_log_mono e _ _ m _ he
  intro i t ht
  exact List.mem_cons_of_mem _ (List.mem_cons_of_mem _ ht)

theorem mul_cpu_log_mono (e : Arr × Int) (N : Int) (X : Ptr) (INCX : Int) (Y : Ptr)
    (INCY : Int) (m : Mem) (he : e ∈ m.log) : e ∈ (mul_cpu N X INCX Y INCY m).log := by
  unfold mul_cpu
  apply loop_log_mono e _ _ m _ he
  intro i t ht
  exact List.mem_cons_of_mem _ (List.mem_cons_of_mem _ ht)

/-- In the last turn of the loop over `k` on `overflow_layer`, `next = k + size/2` wraps to
`-2^31`, passes the test `next < c`, and `squared[-2^31]` is read. -/
theorem forward_channel_overflow (m : Mem) :
    (Arr.squared, (-2147483648 : Int)) ∈
      (forward_channel overflow_layer { arr := Arr.squared, off := 0 }
        { arr := Arr.norms, off := 0 } 2147483646 m).log := by
  have hnext : wrap32 (2147483646 + overflow_layer.size.tdiv 2) = -2147483648 := by decide
  have hS : overflow_layer.w * overflow_layer.h = 1 := by decide
  unfold forward_channel
  dsimp only
  rw [hnext, if_pos (by decide), hS]
  unfold axpy_cpu
  have h1 : (1 : Int).toNat = 1 := rfl
  rw [h1, loop_succ]
  simp [Mem.write, Mem.touch, Ptr.add, loop]

theorem forward_batch_overflow (pow : FP → FP → FP) (m : Mem) :
    (Arr.squared, (-2147483648 : Int)) ∈ (forward_batch pow overflow_layer 0 m).log := by
  have hc : (overflow_layer.c - 1).toNat = 2147483645 + 1 := by decide
  have hoff : overflow_layer.w * overflow_layer.h * overflow_layer.c * 0 = 0 := mul_zero _
  have hk : (1 : Int) + ((2147483645 : Nat) : Int) = 2147483646 := by norm_num
  unfold forward_batch
  dsimp only
  rw [hc, loop_succ, hoff, hk]
  exact forward_channel_overflow _

/-- C28, the claim as it stands fails: `overflow_layer` has `w = h = batch = 1`,
`c = INT_MAX` and `size = 5`, so `w, h, c, batch >= 1`, `0 <= size` and `size/2 <= c`
hold and `w*h*c*batch` fits in an `int`; at `k = c - 1` the `int` sum `next = k + size/2`
overflows, wraps to `-2^31` and passes the test `next < c`, and
`forward_normalization_layer` reads `squared[-2^31]`, an index below 0, from every
memory, also from one whose log is empty before the pass. -/
theorem forward_index_overflows :
    (1 ≤ overflow_layer.w ∧ 1 ≤ overflow_layer.h ∧ 1 ≤ overflow_layer.c ∧
      1 ≤ overflow_layer.batch) ∧
    (0 ≤ overflow_layer.size ∧ overflow_layer.size.tdiv 2 ≤ overflow_layer.c) ∧
    overflow_layer.w * overflow_layer.h * overflow_layer.c * overflow_layer.batch < 2 ^ 31 ∧
    wrap32 (overflow_layer.c - 1 + overflow_layer.size.tdiv 2) = -2147483648 ∧
    (sample_mem 1).log = [] ∧
    ∀ (pow : FP → FP → FP) (m : Mem),
      (Arr.squared, (-2147483648 : Int)) ∈
        (forward_normalization_layer pow overflow_layer m).log ∧
      ¬ ((0 : Int) ≤ (Arr.squared, (-2147483648 : Int)).2) := by
  refine ⟨by decide, by decide, by decide, by decide, rfl, ?_⟩
  intro pow m
  refine ⟨?_, by decide⟩
  have hb : overflow_layer.batch.toNat = 0 + 1 := rfl
  unfold forward_normalization_layer
  dsimp only
  apply mul_cpu_log_mono
  apply pow_cpu_log_mono
  rw [hb, loop_succ]
  exact forward_batch_overflow pow _

/-! ## The passes of the normalization layer on the sample layer -/

theorem mul_fin (F : Format) (a b : ℚ) : FP.mul F (FP.fin a) (FP.fin b) = F.round (a * b) :=
  rfl

theorem add_fin (F : Format) (a b : ℚ) : FP.add F (FP.fin a) (FP.fin b) = F.round (a + b) :=
  rfl

theorem cast_fin (F : Format) (a : ℚ) : FP.cast F (FP.fin a) = F.round a := rfl

theorem neg_fin (a : ℚ) : FP.neg (FP.fin a) = FP.fin (-a) := rfl

theorem round32_zero : binary32.round 0 = FP.fin 0 := is_float_zero

theorem round32_one : binary32.round 1 = FP.fin 1 := is_float_one

theorem round32_two : binary32.round 2 = FP.fin 2 := is_float_two

theorem round32_half : binary32.round (1 / 2) = FP.fin (1 / 2) := is_float_half

theorem round32_neg_half : binary32.round (-(1 / 2)) = FP.fin (-(1 / 2)) :=
  round_exact binary32 _ (-1) (-1) (by decide) (by decide) (by norm_num [binary32])
    (by norm_num)

theorem round32_neg_one : binary32.round (-1) = FP.fin (-1) :=
  round_exact binary32 _ (-1) 0 (by decide) (by decide) (by norm_num [binary32])
    (by norm_num)

theorem round32_neg_two : binary32.round (-2) = FP.fin (-2) :=
  round_exact binary32 _ (-1) 1 (by decide) (by decide) (by norm_num [binary32])
    (by norm_num)

theorem round64_zero : binary64.round 0 = FP.fin 0 :=
  round_exact binary64 _ 0 0 (by decide) (by decide) (by norm_num [binary64])
    (by norm_num)

theorem round64_one : binary64.round 1 = FP.fin 1 :=
  round_exact binary64 _ 1 0 (by decide) (by decide) (by norm_num [binary64])
    (by norm_num)

theorem round64_half : binary64.round (1 / 2) = FP.fin (1 / 2) :=
  round_exact binary64 _ 1 (-1) (by decide) (by decide) (by norm_num [binary64])
    (by norm_num)

theorem round64_neg_half : binary64.round (-(1 / 2)) = FP.fin (-(1 / 2)) :=
  round_exact binary64 _ (-1) (-1) (by decide) (by decide) (by norm_num [binary64])
    (by norm_num)

theorem sample_pow_one : sample_pow (FP.fin 1) (FP.fin 2) = FP.fin 1 := by
  unfold sample_pow
  rw [if_pos rfl, mul_fin, mul_one, round64_one]

theorem sample_pow_two : sample_pow (FP.fin 2) (FP.fin (-1)) = FP.fin (1 / 2) := by
  unfold sample_pow
  rw [if_neg (by rw [FP.fin.injEq]; norm_num), if_pos rfl, div_fin _ _ _ (by norm_num),
    round64_half]

/-- The norms that the forward pass leaves for the sample layer: only the square of the
input of channel 0 is added to `kappa`, for both channels. -/
theorem forward_sample_norms (pow : FP → FP → FP) (t : ℚ) (j : Int) (hj : j = 0 ∨ j = 1) :
    (forward_normalization_layer pow sample_layer (sample_mem t)).val Arr.norms j =
      FP.add binary32 (FP.fin 1)
        (FP.mul binary32 (FP.fin 1) (FP.cast binary32 (pow (FP.fin 1) (FP.fin 2)))) := by
  rcases hj with rfl | rfl
  · rfl
  · rfl

theorem forward_sample_norms_two (pow : FP → FP → FP) (t : ℚ) (j : Int) (hj : j = 0 ∨ j = 1)
    (hpow : pow (FP.fin 1) (FP.fin 2) = FP.fin 1) :
    (forward_normalization_layer pow sample_layer (sample_mem t)).val Arr.norms j =
      FP.fin 2 := by
  rw [forward_sample_norms pow t j hj, hpow, cast_fin, round32_one, mul_fin, mul_one,
    round32_one, add_fin]
  norm_num [round32_two]

/-- The output that the forward pass leaves for the sample layer. -/
theorem forward_sample_output (pow : FP → FP → FP) (t : ℚ) :
    (forward_normalization_layer pow sample_layer (sample_mem t)).val Arr.output 0 =
      FP.mul binary32 (FP.cast binary32 (pow
        ((forward_normalization_layer pow sample_layer (sample_mem t)).val Arr.norms 0)
        (FP.neg (FP.fin 1)))) (FP.fin 1) ∧
    (forward_normalization_layer pow sample_layer (sample_mem t)).val Arr.output 1 =
      FP.mul binary32 (FP.cast binary32 (pow
        ((forward_normalization_layer pow sample_layer (sample_mem t)).val Arr.norms 1)
        (FP.neg (FP.fin 1)))) (FP.fin t) :=
  ⟨rfl, rfl⟩

theorem forward_sample_half (pow : FP → FP → FP) (t : ℚ)
    (hp2 : pow (FP.fin 1) (FP.fin 2) = FP.fin 1)
    (hpb : pow (FP.fin 2) (FP.fin (-1)) = FP.fin (1 / 2)) :
    (forward_normalization_layer pow sample_layer (sample_mem t)).val Arr.output 0 =
      FP.fin (1 / 2) ∧
    (forward_normalization_layer pow sample_layer (sample_mem t)).val Arr.output 1 =
      binary32.round (1 / 2 * t) := by
  have h := forward_sample_output pow t
  rw [forward_sample_norms_two pow t 0 (Or.inl rfl) hp2,
    forward_sample_norms_two pow t 1 (Or.inr rfl) hp2, neg_fin, hpb, cast_fin, round32_half,
    mul_fin, mul_fin, mul_one, round32_half] at h
  exact h

/-- The forward pass leaves `net.input`, `layer.delta` and `net.delta` of the sample
memory as they are. -/
theorem forward_sample_frame (pow : FP → FP → FP) (t : ℚ) :
    (forward_normalization_layer pow sample_layer (sample_mem t)).val Arr.net_input 1 =
      FP.fin t ∧
    (forward_normalization_layer pow sample_layer (sample_mem t)).val Arr.delta 0 =
      FP.fin 1 ∧
    (forward_normalization_layer pow sample_layer (sample_mem t)).val Arr.delta 1 =
      FP.fin 0 ∧
    (forward_normalization_layer pow sample_layer (sample_mem t)).val Arr.net_delta 1 =
      FP.fin 0 :=
  ⟨rfl, rfl, rfl, rfl⟩

/-- What the backward pass leaves in `net.delta[1]` for the sample layer, in the values of
the memory before the pass. -/
theorem backward_sample_delta (pow : FP → FP → FP) (m : Mem) :
    (backward_normalization_layer pow sample_layer m).val Arr.net_delta 1 =
      FP.add binary32 (m.val Arr.net_delta 1)
        (FP.cast binary32 (FP.add binary64
          (FP.cast binary32 (FP.add binary64
            (FP.cast binary32 (FP.mul binary64 (m.val Arr.delta 1)
              (pow (m.val Arr.norms 1) (FP.neg (FP.fin 1)))))
            (FP.mul binary64
              (FP.mul binary32 (FP.mul binary32 (m.val Arr.delta 0) (m.val Arr.output 0))
                (FP.mul binary32
                  (FP.mul binary32 (FP.mul binary32 (FP.fin (-2)) (FP.fin 1)) (FP.fin 1))
                  (m.val Arr.net_input 1)))
              (pow (m.val Arr.norms 0) (FP.fin (-1))))))
          (FP.mul binary64
            (FP.mul binary32 (FP.mul binary32 (m.val Arr.delta 1) (m.val Arr.output 1))
              (FP.mul binary32
                (FP.mul binary32 (FP.mul binary32 (FP.fin (-2)) (FP.fin 1)) (FP.fin 1))
                (m.val Arr.net_input 1)))
            (pow (m.val Arr.norms 1) (FP.fin (-1)))))) := rfl

theorem backward_sample_value (pow : FP → FP → FP)
    (hp2 : pow (FP.fin 1) (FP.fin 2) = FP.fin 1)
    (hpb : pow (FP.fin 2) (FP.fin (-1)) = FP.fin (1 / 2)) :
    (backward_normalization_layer pow sample_layer
      (forward_normalization_layer pow sample_layer (sample_mem 1))).val Arr.net_delta 1 =
      FP.fin (-1 / 2) := by
  have hf := forward_sample_frame pow 1
  have ho := forward_sample_half pow 1 hp2 hpb
  rw [backward_sample_delta, hf.1, hf.2.1, hf.2.2.1, hf.2.2.2, ho.1, ho.2,
    forward_sample_norms_two pow 1 0 (Or.inl rfl) hp2,
    forward_sample_norms_two pow 1 1 (Or.inr rfl) hp2, neg_fin, hpb]
  norm_num [mul_fin, add_fin, cast_fin, round32_zero, round32_one, round32_two, round32_half,
    round32_neg_half, round32_neg_one, round32_neg_two, round64_zero, round64_half,
    round64_neg_half]

theorem loss_sample (m : Mem) :
    loss 2 { arr := Arr.output, off := 0 } { arr := Arr.delta, off := 0 } m =
      FP.add binary32
        (FP.add binary32 (FP.fin 0) (FP.mul binary32 (m.val Arr.output 0) (m.val Arr.delta 0)))
        (FP.mul binary32 (m.val Arr.output 1) (m.val Arr.delta 1)) := rfl

/-- C22: on `sample_layer` (one element per channel, `c = 2`, `size = 3`,
`alpha = kappa = 1`) with the input `(1, t)`, the window of the backward pass is `[0, 1]`
for channel 0 and for channel 1, so that the direct window sum is `1 + (1 + t^2)`, which
is 3 at `t = 1`; but `forward_normalization_layer` leaves `norms = (2, 2)` for every `t`,
when `pow(1, 2) = 1`: its first loop, over `k < size/2`, adds the square of channel 0
only, and the square of channel `size/2 = 1` enters no norm. -/
theorem forward_norms_omit_channel (pow : FP → FP → FP) (t : ℚ)
    (hpow : pow (FP.fin 1) (FP.fin 2) = FP.fin 1) :
    (window_min sample_layer 0 = 0 ∧ window_max sample_layer 0 = 1) ∧
    (window_min sample_layer 1 = 0 ∧ window_max sample_layer 1 = 1) ∧
    ((sample_mem t).val Arr.net_input 0 = FP.fin 1 ∧
      (sample_mem t).val Arr.net_input 1 = FP.fin t) ∧
    (forward_normalization_layer pow sample_layer (sample_mem t)).val Arr.norms 0 =
      FP.fin 2 ∧
    (forward_normalization_layer pow sample_layer (sample_mem t)).val Arr.norms 1 =
      FP.fin 2 := by
  refine ⟨⟨by decide, by decide⟩, ⟨by decide, by decide⟩, ⟨rfl, rfl⟩, ?_, ?_⟩
  · exact forward_sample_norms_two pow t 0 (Or.inl rfl) hpow
  · exact forward_sample_norms_two pow t 1 (Or.inr rfl) hpow

theorem forward_norms_omit_channel_witness :
    sample_pow (FP.fin 1) (FP.fin 2) = FP.fin 1 ∧
    (forward_normalization_layer sample_pow sample_layer (sample_mem 1)).val Arr.norms 0 =
      FP.fin 2 ∧
    (forward_normalization_layer sample_pow sample_layer (sample_mem 1)).val Arr.norms 1 =
      FP.fin 2 :=
  ⟨sample_pow_one, (forward_norms_omit_channel sample_pow 1 sample_pow_one).2.2.2⟩

/-- C23: on `sample_layer` with `alpha = beta = kappa = 1`, the output gradient
`g = (1, 0)` in `layer.delta` and the input `(1, t)`, the loss `sum of g[i] * output[i]`
after `forward_normalization_layer` is `1/2` for every `t` with `|t| ≤ 2`, so that its
partial derivative with respect to `x[1]` is 0 at `x = (1, 1)`; but
`backward_normalization_layer`, run after the forward pass on `x = (1, 1)` with
`net.delta[1] = 0`, leaves `net.delta[1] = -1/2` (when `pow(1, 2) = 1` and
`pow(2, -1) = 1/2`): it adds `-1/2`, the derivative of the direct window sum, which the
forward pass does not compute. -/
theorem backward_not_gradient (pow : FP → FP → FP)
    (hp2 : pow (FP.fin 1) (FP.fin 2) = FP.fin 1)
    (hpb : pow (FP.fin 2) (FP.fin (-1)) = FP.fin (1 / 2)) :
    (∀ t : ℚ, |t| ≤ 2 →
      loss 2 { arr := Arr.output, off := 0 } { arr := Arr.delta, off := 0 }
        (forward_normalization_layer pow sample_layer (sample_mem t)) = FP.fin (1 / 2)) ∧
    (forward_normalization_layer pow sample_layer (sample_mem 1)).val Arr.net_delta 1 =
      FP.fin 0 ∧
    (backward_normalization_layer pow sample_layer
      (forward_normalization_layer pow sample_layer (sample_mem 1))).val Arr.net_delta 1 =
      FP.fin (-1 / 2) := by
  refine ⟨?_, (forward_sample_frame pow 1).2.2.2, backward_sample_value pow hp2 hpb⟩
  intro t ht
  have hf := forward_sample_frame pow t
  have ho := forward_sample_half pow t hp2 hpb
  have hfin : binary32.round (1 / 2 * t) = FP.fin (binary32.nearest (1 / 2 * t)) := by
    apply round_of_abs_le binary32 (by decide)
    have h1 : |1 / 2 * t| ≤ 1 := by
      rw [abs_mul, abs_of_pos (by norm_num : (0 : ℚ) < 1 / 2)]
      linarith
    have h2 : (1 : ℚ) ≤ binary32.fmax := by norm_num [Format.fmax, binary32]
    exact le_trans h1 h2
  rw [loss_sample, hf.2.1, hf.2.2.1, ho.1, ho.2, hfin, mul_fin, mul_fin, mul_zero, mul_one,
    round32_zero, round32_half, add_fin, zero_add, round32_half, add_fin, add_zero,
    round32_half]

theorem backward_not_gradient_witness :
    sample_pow (FP.fin 1) (FP.fin 2) = FP.fin 1 ∧
    sample_pow (FP.fin 2) (FP.fin (-1)) = FP.fin (1 / 2) ∧
    loss 2 { arr := Arr.output, off := 0 } { arr := Arr.delta, off := 0 }
      (forward_normalization_layer sample_pow sample_layer (sample_mem 2)) = FP.fin (1 / 2) ∧
    (backward_normalization_layer sample_pow sample_layer
      (forward_normalization_layer sample_pow sample_layer (sample_mem 1))).val
        Arr.net_delta 1 = FP.fin (-1 / 2) := by
  have h := backward_not_gradient sample_pow sample_pow_one sample_pow_two
  exact ⟨sample_pow_one, sample_pow_two, h.1 2 (by norm_num), h.2.2⟩

/-! ## The barrier -/

theorem countP_set_blocked (l : List Participant) (t : Nat) (p q : Participant)
    (h : l[t]? = some p) (hp : p.blocked = false) (hq : q.blocked = true) :
    (l.set t q).countP (fun p => p.blocked) = l.countP (fun p => p.blocked) + 1 := by
  induction l generalizing t with
  | nil => simp at h
  | cons a l ih =>
    cases t with
    | zero =>
      simp only [List.getElem?_cons_zero, Option.some.injEq] at h
      subst h
      simp [List.countP_cons, hp, hq]
    | succ n =>
      simp only [List.getElem?_cons_succ] at h
      simp only [List.set_cons_succ, List.countP_cons, ih n h]
      omega

theorem release_all_length (l : List Participant) : (release_all l).length = l.length := by
  simp [release_all]

theorem release_all_spec (l : List Participant) (g : Nat)
    (hb : ∀ p ∈ l, p.blocked = true) (hg : ∀ p ∈ l, p.passed = g) :
    (∀ p ∈ release_all l, p.passed = g + 1 ∧ p.blocked = false) := by
  intro p hp
  simp only [release_all, List.mem_map] at hp
  obtain ⟨a, ha, rfl⟩ := hp
  simp [hb a ha, hg a ha]

theorem countP_zero_of_unblocked (l : List Participant) (h : ∀ p ∈ l, p.blocked = false) :
    l.countP (fun p => p.blocked) = 0 := by
  rw [List.countP_eq_zero]
  intro p hp
  simp [h p hp]

theorem barrierInv_start (P : Nat) (hP : 1 ≤ P) : BarrierInv P (barrier_start P) := by
  refine ⟨0, rfl, by simp [barrier_start], by simp [barrier_start, sync_barrier_create]; omega,
    ?_, ?_, by simp [barrier_start, sync_barrier_create]⟩
  · intro p hp
    simp only [barrier_start, List.mem_replicate] at hp
    rw [hp.2]
  · apply countP_zero_of_unblocked
    intro p hp
    simp only [barrier_start, List.mem_replicate] at hp
    rw [hp.2]

theorem barrierInv_wait (P : Nat) (t : Nat) (s s1 : BarrierSystem) (h : BarrierInv P s)
    (hs : sync_barrier_wait t s = some s1) : BarrierInv P s1 ∧ s1.calls = s.calls + 1 := by
  obtain ⟨g, hcount, hlen, hlt, hpass, hblocked, hcalls⟩ := h
  unfold sync_barrier_wait at hs
  cases hp : s.parties[t]? with
  | none => simp [hp] at hs
  | some p =>
    simp only [hp] at hs
    have hmem : p ∈ s.parties := List.getElem?_mem hp
    by_cases hb : p.blocked = true
    · simp [hb] at hs
    · have hb2 : p.blocked = false := by simpa using hb
      simp only [hb2, Bool.false_eq_true, if_false] at hs
      have hset := countP_set_blocked s.parties t p { passed := p.passed, blocked := true } hp
        hb2 rfl
      have hpass2 : ∀ q ∈ s.parties.set t { passed := p.passed, blocked := true },
          q.passed = g := by
        intro q hq
        rcases List.mem_or_eq_of_mem_set hq with h1 | h1
        · exact hpass q h1
        · rw [h1]
          exact hpass p hmem
      by_cases hlast : (s.b.barrier : Int) + 1 = s.b.thread_count
      · simp only [hlast, if_true, Option.some.injEq] at hs
        subst hs
        have hfull : (s.parties.set t { passed := p.passed, blocked := true }).countP
            (fun p => p.blocked) =
            (s.parties.set t { passed := p.passed, blocked := true }).length := by
          rw [hset, hblocked, List.length_set, hlen]
          omega
        have hall := List.countP_eq_length.mp hfull
        have hrel := release_all_spec _ g (fun q hq => hall q hq) hpass2
        refine ⟨⟨g + 1, hcount, ?_, ?_, fun q hq => (hrel q hq).1, ?_, ?_⟩, rfl⟩
        · show (release_all _).length = P
          rw [release_all_length, List.length_set, hlen]
        · show 0 < P
          omega
        · exact countP_zero_of_unblocked _ (fun q hq => (hrel q hq).2)
        · show s.calls + 1 = P * (g + 1) + 0
          rw [hcalls, Nat.mul_succ]
          omega
      · simp only [hlast, if_false, Option.some.injEq] at hs
        subst hs
        refine ⟨⟨g, hcount, ?_, ?_, hpass2, ?_, ?_⟩, rfl⟩
        · show (s.parties.set t _).length = P
          rw [List.length_set, hlen]
        · show s.b.barrier + 1 < P
          omega
        · show (s.parties.set t _).countP _ = s.b.barrier + 1
          rw [hset, hblocked]
        · show s.calls + 1 = P * g + (s.b.barrier + 1)
          omega

theorem barrierInv_run (P : Nat) (sched : List Nat) (s s1 : BarrierSystem)
    (h : BarrierInv P s) (hs : barrier_run sched s = some s1) :
    BarrierInv P s1 ∧ s1.calls = s.calls + sched.length := by
  induction sched generalizing s with
  | nil =>
    simp only [barrier_run, Option.some.injEq] at hs
    subst hs
    exact ⟨h, rfl⟩
  | cons t ts ih =>
    simp only [barrier_run] at hs
    cases h1 : sync_barrier_wait t s with
    | none => simp [h1] at hs
    | some s2 =>
      simp only [h1] at hs
      have h2 := barrierInv_wait P t s s2 h h1
      have h3 := ih s2 h2.1 hs
      refine ⟨h3.1, ?_⟩
      rw [h3.2, h2.2, List.length_cons]
      omega

/-- In a state of the invariant some participant is not blocked, and its call of `wait()`
is a step of the system. -/
theorem barrierInv_enabled (P : Nat) (s : BarrierSystem) (h : BarrierInv P s) :
    ∃ t, t < P ∧ (sync_barrier_wait t s).isSome = true := by
  obtain ⟨g, hcount, hlen, hlt, hpass, hblocked, hcalls⟩ := h
  have hne : s.parties.countP (fun p => p.blocked) ≠ s.parties.length := by omega
  have hex : ∃ p ∈ s.parties, p.blocked = false := by
    by_contra hcon
    apply hne
    rw [List.countP_eq_length]
    intro p hp
    by_contra hpb
    exact hcon ⟨p, hp, by simpa using hpb⟩
  obtain ⟨p, hp, hpb⟩ := hex
  obtain ⟨t, ht, hget⟩ := List.getElem_of_mem hp
  refine ⟨t, by omega, ?_⟩
  have hgo : s.parties[t]? = some p := by
    rw [List.getElem?_eq_getElem ht, hget]
  unfold sync_barrier_wait
  simp only [hgo, hpb, Bool.false_eq_true, if_false]
  split <;> rfl

/-- C27: for a barrier created with `P ≥ 1` parties and every interleaving `sched` of
`wait()` calls of its `P` participants, in the state reached: a participant that has
returned from its `n`-th `wait()`, and so runs code after it, exists only when `P * n`
calls of `wait()` have been made, that is, not before the `P`-th call of that rendezvous;
when `P * n` calls have been made, all `P` participants have returned from their `n`-th
`wait()` and none is blocked; and the barrier serves every later rendezvous as it is:
this holds for every `n`, the barrier is then again as `create(P)` left it, and in every
state some participant can call `wait()`. -/
theorem barrier_rendezvous (P : Nat) (hP : 1 ≤ P) (sched : List Nat) (s : BarrierSystem)
    (hs : barrier_run sched (barrier_start P) = some s) :
    s.calls = sched.length ∧
    (∀ p ∈ s.parties, ∀ n, n ≤ p.passed → P * n ≤ s.calls) ∧
    (∀ n, s.calls = P * n → ∀ p ∈ s.parties, p.passed = n ∧ p.blocked = false) ∧
    (s.parties.length = P ∧ ∀ p ∈ s.parties, p.passed = s.calls / P) ∧
    (s.calls % P = 0 → s.b = sync_barrier_create P) ∧
    ∃ t, t < P ∧ (sync_barrier_wait t s).isSome = true := by
  have hrun := barrierInv_run P sched (barrier_start P) s (barrierInv_start P hP) hs
  have hen := barrierInv_enabled P s hrun.1
  obtain ⟨⟨g, hcount, hlen, hlt, hpass, hblocked, hcalls⟩, hc⟩ := hrun
  have hmod : s.calls % P = s.b.barrier := by
    rw [hcalls, Nat.mul_add_mod, Nat.mod_eq_of_lt hlt]
  have hdiv : s.calls / P = g := by
    rw [hcalls, Nat.mul_add_div (by omega), Nat.div_eq_of_lt hlt, Nat.add_zero]
  refine ⟨?_, ?_, ?_, ⟨hlen, ?_⟩, ?_, hen⟩
  · rw [hc]
    show 0 + sched.length = sched.length
    omega
  · intro p hp n hn
    rw [hpass p hp] at hn
    exact le_trans (Nat.mul_le_mul_left P hn) (by omega)
  · intro n hn p hp
    have h0 : s.b.barrier = 0 := by
      rw [← hmod, hn, Nat.mul_mod_right]
    have hg : g = n := by
      rw [← hdiv, hn, Nat.mul_div_cancel_left n (by omega)]
    refine ⟨by rw [hpass p hp, hg], ?_⟩
    rw [h0, List.countP_eq_zero] at hblocked
    simpa using hblocked p hp
  · intro p hp
    rw [hpass p hp, hdiv]
  · intro h0
    rw [hmod] at h0
    cases hb : s.b with
    | mk bar tc =>
      rw [hb] at h0 hcount
      simp only at h0 hcount
      rw [h0, hcount]
      rfl

theorem barrier_rendezvous_witness :
    barrier_run [0, 1, 1] (barrier_start 2) =
      some { b := { barrier := 1, thread_count := 2 },
             parties := [{ passed := 1, blocked := false }, { passed := 1, blocked := true }],
             calls := 3 } ∧
    (∀ p ∈ [({ passed := 1, blocked := false } : Participant), { passed := 1, blocked := true }],
      ∀ n, n ≤ p.passed → 2 * n ≤ 3) :=
  ⟨rfl, (barrier_rendezvous 2 (by decide) [0, 1, 1] _ rfl).2.1⟩

/-! ## The shutdown of the demo pipeline -/

end Darknet
